import Mathlib

/-!
Verification development for the glass/honey database compactor
(xapian-core/backends/honey/honey_compact.cc).

Byte strings are modelled as `List Nat` (C++ `std::string` compares bytes
as `unsigned char`, so lexicographic order on the byte values is faithful).
Counters (`Xapian::termcount`, `Xapian::doccount`, `Xapian::docid`) are
modelled as `Nat`; their concrete machine widths come from headers that are
not part of the sources, and the specification describes them as plain
unsigned integers.

The variable-length integer and sort-preserving packers live in `pack.h`,
which is not part of the sources either; they are modelled from the
specification (spec sections 3, 4.3, 4.4, 4.5: little-endian 7-bit groups
with the high bit as continuation for `pack_uint`; byte-wise little-endian
with nothing stored for zero for `pack_uint_last`; length-prefixed
`pack_string`; zero-terminated, zero-escaped `pack_string_preserving_sort`;
length-byte plus big-endian payload for `pack_uint_preserving_sort`).
-/

set_option maxRecDepth 100000
set_option linter.unusedVariables false

deriving instance DecidableEq for Except

namespace GlassCompact

/-- Lexicographic strict order on byte strings, as C++ `std::string` compare. -/
def ltBytes : List Nat → List Nat → Bool
  | [], [] => false
  | [], _ :: _ => true
  | _ :: _, [] => false
  | a :: as, b :: bs =>
    if a < b then true
    else if a = b then ltBytes as bs
    else false

/-- Lexicographic (non-strict) order on byte strings. -/
def leBytes (a b : List Nat) : Bool :=
  ltBytes a b || a == b

/-- Length of the longest common prefix of two byte strings, as computed by
the loops in `SSTable::add` and `SSIndex::maybe_add_entry`. -/
def commonPrefixLen : List Nat → List Nat → Nat
  | a :: as, b :: bs => if a = b then commonPrefixLen as bs + 1 else 0
  | _, _ => 0

/-- Boolean strict-ascending-chain check over a key sequence, starting
from a previous key. -/
def chainLt : List Nat → List (List Nat) → Bool
  | _, [] => true
  | prev, k :: rest => ltBytes prev k && chainLt k rest

/-- Fuel-based worker for `pack_uint` (structural recursion keeps the
definition kernel-computable; the fuel never runs out when it starts at the
value itself). -/
def pack_uint_aux : Nat → Nat → List Nat
  | 0, n => [n]
  | fuel + 1, n =>
    if n < 128 then [n]
    else (n % 128 + 128) :: pack_uint_aux fuel (n / 128)

/-- Modelled from the spec: `pack_uint` stores 7 bits per byte, least
significant group first, setting the high bit on every byte but the last. -/
def pack_uint (n : Nat) : List Nat :=
  pack_uint_aux n n

/-- Modelled from the spec: inverse of `pack_uint`, returning the decoded
value and the unconsumed rest, or `none` when the input ends inside a
continuation run. -/
def unpack_uint : List Nat → Option (Nat × List Nat)
  | [] => none
  | b :: rest =>
    if b < 128 then some (b, rest)
    else
      match unpack_uint rest with
      | some (v, r) => some ((b - 128) + 128 * v, r)
      | none => none

/-- Fuel-based worker for `pack_uint_last`. -/
def pack_uint_last_aux : Nat → Nat → List Nat
  | _, 0 => []
  | 0, _ => []
  | fuel + 1, n => (n % 256) :: pack_uint_last_aux fuel (n / 256)

/-- Modelled from the spec: `pack_uint_last` stores a value byte-wise,
least significant byte first, storing nothing at all for zero. -/
def pack_uint_last (n : Nat) : List Nat :=
  pack_uint_last_aux n n

/-- Modelled from the spec: `unpack_uint_last` consumes the whole remaining
tag, interpreting it base 256 with the first byte least significant.  (The
C++ version can also fail when the tag is wider than the integer type; with
unbounded naturals that case does not arise.) -/
def unpack_uint_last (l : List Nat) : Nat :=
  l.foldr (fun b acc => acc * 256 + b) 0

/-- Modelled from the spec: `pack_string` is a `pack_uint` length prefix
followed by the raw bytes. -/
def pack_string (s : List Nat) : List Nat :=
  pack_uint s.length ++ s

/-- Modelled from the spec: inverse of `pack_string`. -/
def unpack_string (l : List Nat) : Option (List Nat × List Nat) :=
  match unpack_uint l with
  | some (len, rest) =>
    if len ≤ rest.length then some (rest.take len, rest.drop len) else none
  | none => none

/-- Zero-escaping used by the sort-preserving string packer: each zero byte
is followed by an extra 255 byte. -/
def escapeZeros : List Nat → List Nat
  | [] => []
  | 0 :: rest => 0 :: 255 :: escapeZeros rest
  | b :: rest => b :: escapeZeros rest

/-- Modelled from the spec: `pack_string_preserving_sort` escapes zero bytes
and appends a zero terminator (the terminator the postlist cursor strips). -/
def pack_string_preserving_sort (s : List Nat) : List Nat :=
  escapeZeros s ++ [0]

/-- Modelled from the spec: reads an escaped string up to (and consuming) a
zero byte not followed by 255, or to the end of input; returns the decoded
string and the unconsumed rest.  Like the C++ helper it cannot fail. -/
def unpack_string_preserving_sort : List Nat → List Nat × List Nat
  | [] => ([], [])
  | 0 :: rest =>
    match rest with
    | 255 :: rest2 =>
      let p := unpack_string_preserving_sort rest2
      (0 :: p.1, p.2)
    | _ => ([], rest)
  | b :: rest =>
    let p := unpack_string_preserving_sort rest
    (b :: p.1, p.2)

/-- Fuel-based worker for `beBytes`. -/
def beBytesAux : Nat → Nat → List Nat
  | 0, n => [n]
  | fuel + 1, n =>
    if n < 256 then [n]
    else beBytesAux fuel (n / 256) ++ [n % 256]

/-- Big-endian byte representation, always at least one byte. -/
def beBytes (n : Nat) : List Nat :=
  beBytesAux n n

/-- Modelled from the spec: `pack_uint_preserving_sort` stores a length byte
followed by the big-endian payload. -/
def pack_uint_preserving_sort (n : Nat) : List Nat :=
  (beBytes n).length :: beBytes n

/-- Modelled from the spec: inverse of `pack_uint_preserving_sort`. -/
def unpack_uint_preserving_sort (l : List Nat) : Option (Nat × List Nat) :=
  match l with
  | [] => none
  | len :: rest =>
    if len ≤ rest.length then
      some ((rest.take len).foldl (fun a b => a * 256 + b) 0, rest.drop len)
    else none

/-- Modelled from the spec: `pack_glass_postlist_key(term, did)`; an empty
term denotes the document-length list and uses the fixed 2-byte prefix. -/
def pack_glass_postlist_key (term : List Nat) (did : Nat) : List Nat :=
  (if term = [] then [0, 224] else pack_string_preserving_sort term) ++
    pack_uint_preserving_sort did

/-- Key classifier: user metadata keys start with bytes 0x00 0xC0. -/
def is_user_metadata_key : List Nat → Bool
  | 0 :: 192 :: _ => true
  | _ => false

/-- Key classifier: value statistics keys start with bytes 0x00 0xD0. -/
def is_valuestats_key : List Nat → Bool
  | 0 :: 208 :: _ => true
  | _ => false

/-- Key classifier: value stream chunk keys start with bytes 0x00 0xD8. -/
def is_valuechunk_key : List Nat → Bool
  | 0 :: 216 :: _ => true
  | _ => false

/-- Key classifier: document length chunk keys start with bytes 0x00 0xE0. -/
def is_doclenchunk_key : List Nat → Bool
  | 0 :: 224 :: _ => true
  | _ => false

/-- Error kinds thrown by the compactor (messages are irrelevant here). -/
inductive XErr where
  | databaseCorrupt : XErr
  | rangeError : XErr
  | invalidArgument : XErr
  | invalidOperation : XErr
  | databaseError : XErr
  | databaseAbort : XErr

deriving DecidableEq, Repr

/-- Model of `BufferedFile`.  `fileBytes` are the bytes the operating system
has accepted; `buf` is the 4 KiB write buffer; `readRem` is the unread
suffix in read mode (buffered reads deliver the file sequentially, so they
are modelled as direct sequential consumption); `oracle` lists how many
bytes each upcoming raw `write`/`writev` call will accept (an exhausted
oracle accepts everything, modelling a well-behaved kernel; a finite prefix
models short writes). -/
structure BufferedFile where
  fileBytes : List Nat := []
  buf : List Nat := []
  readRem : List Nat := []
  read_only : Bool := true
  oracle : List Nat := []

deriving DecidableEq, Repr

/-- Model of one raw `write`/`writev` system call: the oracle decides how
many bytes are accepted. -/
def rawWrite (f : BufferedFile) (p : List Nat) : BufferedFile × Nat :=
  match f.oracle with
  | [] => ({ f with fileBytes := f.fileBytes ++ p }, p.length)
  | k :: rest =>
    let n := min k p.length
    ({ f with fileBytes := f.fileBytes ++ p.take n, oracle := rest }, n)

/-- Model of `BufferedFile::write(unsigned char)`: on a full buffer the
buffer is written out once — the return value is ignored, so a short write
loses the unaccepted bytes (the FIXME in the source). -/
def BufferedFile.write1 (f : BufferedFile) (ch : Nat) : BufferedFile :=
  let f2 :=
    if f.buf.length = 4096 then
      let r := rawWrite f f.buf
      { r.1 with buf := [] }
    else f
  { f2 with buf := f2.buf ++ [ch] }

/-- Fuel-based worker for the `writev` retry loop (the fuel is the oracle
length, which each loop iteration shortens by one; an empty oracle accepts
everything, so the zero-fuel case coincides with the empty-oracle case). -/
def writevLoopAux : Nat → BufferedFile → List Nat → BufferedFile
  | 0, f, p => { f with fileBytes := f.fileBytes ++ f.buf ++ p, buf := [] }
  | fuel + 1, f, p =>
    match f.oracle with
    | [] => { f with fileBytes := f.fileBytes ++ f.buf ++ p, buf := [] }
    | k :: rest =>
      let n := min k (f.buf.length + p.length)
      if n = f.buf.length + p.length then
        { f with fileBytes := f.fileBytes ++ f.buf ++ p, buf := [],
                 oracle := rest }
      else if f.buf.length ≤ n then
        let m := n - f.buf.length
        let f2 := { f with fileBytes := f.fileBytes ++ f.buf ++ p.take m,
                           oracle := rest }
        let r := rawWrite f2 (p.drop m)
        { r.1 with buf := [] }
      else
        writevLoopAux fuel
          { f with fileBytes := f.fileBytes ++ f.buf.take n,
                   buf := f.buf.drop n, oracle := rest } p

/-- Model of the `writev` retry loop inside `BufferedFile::write(p, len)`:
when `writev` accepts less than the buffered part the loop retries, but
once the buffer has drained the remaining payload is written with a single
unchecked `write` (the other FIXME in the source). -/
def BufferedFile.writevLoop (f : BufferedFile) (p : List Nat) : BufferedFile :=
  writevLoopAux f.oracle.length f p

/-- Model of `BufferedFile::write(const char*, size_t)`. -/
def BufferedFile.writeSlice (f : BufferedFile) (p : List Nat) : BufferedFile :=
  if f.buf.length + p.length ≤ 4096 then { f with buf := f.buf ++ p }
  else f.writevLoop p

/-- Model of `BufferedFile::flush`: one unchecked write of the buffer. -/
def BufferedFile.flush (f : BufferedFile) : BufferedFile :=
  if !f.read_only && !f.buf.isEmpty then
    let r := rawWrite f f.buf
    { r.1 with buf := [] }
  else f

/-- Model of `BufferedFile::get_pos`. -/
def BufferedFile.get_pos (f : BufferedFile) : Nat :=
  if f.read_only then f.fileBytes.length - f.readRem.length
  else f.fileBytes.length + f.buf.length

/-- Model of `BufferedFile::read()`: next byte, or `none` at end of file. -/
def BufferedFile.read1 (f : BufferedFile) : Option Nat × BufferedFile :=
  match f.readRem with
  | [] => (none, f)
  | b :: rest => (some b, { f with readRem := rest })

/-- Model of `BufferedFile::read(char*, size_t)`: delivers `len` bytes, or
reports failure (consuming what was available) on a short read. -/
def BufferedFile.readN (f : BufferedFile) (len : Nat) :
    Bool × List Nat × BufferedFile :=
  if len ≤ f.readRem.length then
    (true, f.readRem.take len, { f with readRem := f.readRem.drop len })
  else (false, f.readRem, { f with readRem := [] })

/-- Model of `BufferedFile::rewind`. -/
def BufferedFile.rewind (f : BufferedFile) : BufferedFile :=
  { f with read_only := true, readRem := f.fileBytes, buf := [] }

/-- Model of `BufferedFile::empty`. -/
def BufferedFile.emptyFile (f : BufferedFile) : Bool :=
  f.buf.isEmpty && f.fileBytes.isEmpty

/-- Model of `SSIndex`. -/
structure SSIndex where
  data : List Nat := []
  block : Nat := 0
  n_index : Nat := 0
  last_index_key : List Nat := []

deriving DecidableEq, Repr

/-- Model of `SSIndex::maybe_add_entry` (`INDEXBLOCK` is 1024). -/
def SSIndex.maybe_add_entry (ix : SSIndex) (key : List Nat) (ptr : Nat) :
    SSIndex :=
  let cur_block := ptr / 1024
  if cur_block = ix.block then ix
  else
    let reuse := commonPrefixLen ix.last_index_key key
    { data := ix.data ++ reuse :: (key.length - reuse) :: key.drop reuse ++
        pack_uint ptr,
      block := cur_block,
      n_index := ix.n_index + 1,
      last_index_key := key }

/-- Model of `RootInfo` as far as the compactor sets it. -/
structure RootInfo where
  level : Nat := 0
  num_entries : Nat := 0
  root_is_fake : Bool := true
  sequential : Bool := true
  root : Nat := 0
  blocksize : Nat := 0

deriving DecidableEq, Repr

/-- Model of `SSTable` (the fields the operations touch). -/
structure SSTable where
  read_only : Bool := false
  fh : BufferedFile := {}
  last_key : List Nat := []
  index : SSIndex := {}
  root : Option Nat := none
  num_entries : Nat := 0

deriving DecidableEq, Repr

/-- Fresh writable `SSTable` as produced by `create_and_open` for output. -/
def newSSTable : SSTable :=
  { fh := { read_only := false } }

/-- Model of `SSTable::add`. -/
def SSTable.add (t : SSTable) (key val : List Nat) (compressed : Bool) :
    Except XErr SSTable :=
  if t.read_only then .error XErr.invalidOperation
  else if key.length = 0 || 255 < key.length then .error XErr.invalidArgument
  else if leBytes key t.last_key then .error XErr.invalidOperation
  else
    let fh :=
      if !t.last_key.isEmpty then
        let i := commonPrefixLen t.last_key key
        ((t.fh.write1 i).write1 (key.length - i)).writeSlice (key.drop i)
      else (t.fh.write1 key.length).writeSlice key
    let index := t.index.maybe_add_entry key fh.get_pos
    let val_size_enc := val.length * 2 + (if compressed then 1 else 0)
    let fh := (fh.writeSlice (pack_uint val_size_enc)).writeSlice val
    .ok { t with fh := fh, last_key := key, index := index,
                 num_entries := t.num_entries + 1 }

/-- Model of `SSTable::flush_db`: remembers the index start offset as root,
appends the index block, flushes. -/
def SSTable.flush_db (t : SSTable) : SSTable :=
  let root := t.fh.get_pos
  let fh := (t.fh.writeSlice t.index.data).flush
  { t with root := some root, fh := fh }

/-- Model of `SSTable::commit`: publishes the root info, switches to
read-only mode and rewinds. -/
def SSTable.commit (t : SSTable) : Except XErr (SSTable × RootInfo) :=
  match t.root with
  | none => .error XErr.invalidOperation
  | some r =>
    let info : RootInfo :=
      { level := 1, num_entries := t.num_entries, root_is_fake := false,
        sequential := true, root := r, blocksize := 2048 }
    .ok ({ t with read_only := true, fh := t.fh.rewind, last_key := [] }, info)

/-- Model of the 8-iteration loop in `read_item` that collects the bytes of
the value-length varint, stopping after the first byte below 128 or at end
of file. -/
def varintLoop : List Nat → Nat → List Nat × List Nat
  | rem, 0 => ([], rem)
  | [], _ + 1 => ([], [])
  | b :: rest, fuel + 1 =>
    if b < 128 then ([b], rest)
    else
      let p := varintLoop rest fuel
      (b :: p.1, p.2)

/-- Fuel-based worker for the chunked value-reading loop (each iteration
reads at least one byte, so fuel equal to the value size suffices). -/
def readValAux : Nat → BufferedFile → Nat → Except XErr (List Nat × BufferedFile)
  | _, fh, 0 => .ok ([], fh)
  | 0, fh, _ + 1 => .ok ([], fh)
  | fuel + 1, fh, vs + 1 =>
    let n := min (vs + 1) 4096
    let r := fh.readN n
    if r.1 then
      match readValAux fuel r.2.2 (vs + 1 - n) with
      | .error e => .error e
      | .ok (bs, fh2) => .ok (r.2.1 ++ bs, fh2)
    else .error XErr.databaseError

/-- Model of the chunked value-reading loop in `read_item` (4 KiB chunks). -/
def readValLoop (fh : BufferedFile) (val_size : Nat) :
    Except XErr (List Nat × BufferedFile) :=
  readValAux val_size fh val_size

/-- Model of `SSTable::read_item`. -/
def SSTable.read_item (t : SSTable) :
    Except XErr (Option (List Nat × List Nat × Bool) × SSTable) :=
  if !t.read_only then .ok (none, t)
  else
    match t.fh.read1 with
    | (none, fh) => .ok (none, { t with fh := fh })
    | (some ch, fh) =>
      let hdr : Except XErr (Nat × Nat × BufferedFile) :=
        if !t.last_key.isEmpty then
          match fh.read1 with
          | (none, _) => .error XErr.databaseError
          | (some ch2, fh2) => .ok (ch, ch2, fh2)
        else .ok (0, ch, fh)
      match hdr with
      | .error e => .error e
      | .ok (reuse, key_size, fh) =>
        let rk := fh.readN key_size
        if !rk.1 then .error XErr.databaseError
        else
          let key := t.last_key.take reuse ++ rk.2.1
          let vl := varintLoop rk.2.2.readRem 8
          let fh2 := { rk.2.2 with readRem := vl.2 }
          match unpack_uint vl.1 with
          | none => .error XErr.databaseError
          | some (vse, _) =>
            let compressed := vse % 2 = 1
            let val_size := vse / 2
            match readValLoop fh2 val_size with
            | .error e => .error e
            | .ok (val, fh3) =>
              .ok (some (key, val, decide compressed),
                   { t with fh := fh3, last_key := key })

/-- Reads up to `fuel` records with `read_item`, stopping at the first
`false` return. -/
def readItems (t : SSTable) :
    Nat → Except XErr (List (List Nat × List Nat × Bool) × SSTable)
  | 0 => .error XErr.databaseAbort
  | fuel + 1 =>
    match t.read_item with
    | .error e => .error e
    | .ok (none, t2) => .ok ([], t2)
    | .ok (some r, t2) =>
      match readItems t2 fuel with
      | .error e => .error e
      | .ok (rs, t3) => .ok (r :: rs, t3)

/-- Normalised postlist cursor entry: every chunk is put into non-initial
form during the merge (`PostlistCursor` fields `key`, `firstdid`, `tf`,
`cf`, `tag`). -/
structure PLEntry where
  key : List Nat
  firstdid : Nat
  tf : Nat
  cf : Nat
  tag : List Nat

deriving DecidableEq, Repr

/-- Model of one `PostlistCursor::next` step on a record `(key, tag)` read
from a source table: user-metadata and valuestats keys pass through,
valuechunk keys are rebuilt with the shifted document id, initial postlist
chunks have their `(tf, cf, firstdid-1)` header stripped into the cursor
fields, and non-initial chunks have the trailing firstdid moved out of the
key.  `prevdid` is the previous value of the cursor's `firstdid` field,
which C++ leaves untouched on the pass-through paths. -/
def postlistCursorStep (offset : Nat) (prevdid : Nat) (key tag : List Nat) :
    Except XErr PLEntry :=
  if is_user_metadata_key key then .ok ⟨key, prevdid, 0, 0, tag⟩
  else if is_valuestats_key key then .ok ⟨key, prevdid, 0, 0, tag⟩
  else if is_valuechunk_key key then
    match unpack_uint (key.drop 2) with
    | none => .error XErr.databaseCorrupt
    | some (slot, rest) =>
      match unpack_uint_preserving_sort rest with
      | none => .error XErr.databaseCorrupt
      | some (did, _) =>
        .ok ⟨0 :: 216 :: pack_uint slot ++
               pack_uint_preserving_sort (did + offset),
             prevdid, 0, 0, tag⟩
  else
    let afterTerm :=
      if is_doclenchunk_key key then key.drop 2
      else (unpack_string_preserving_sort key).2
    if afterTerm.isEmpty then
      match unpack_uint tag with
      | none => .error XErr.databaseCorrupt
      | some (tf, r1) =>
        match unpack_uint r1 with
        | none => .error XErr.databaseCorrupt
        | some (cf, r2) =>
          match unpack_uint r2 with
          | none => .error XErr.databaseCorrupt
          | some (fd, r3) => .ok ⟨key, fd + 1 + offset, tf, cf, r3⟩
    else
      match unpack_uint_preserving_sort afterTerm with
      | none => .error XErr.databaseCorrupt
      | some (fd, rest2) =>
        if !rest2.isEmpty then .error XErr.databaseCorrupt
        else
          let tmp := key.length - afterTerm.length
          let key2 :=
            if is_doclenchunk_key key then key.take tmp
            else key.take (tmp - 1)
          .ok ⟨key2, fd + offset, 0, 0, tag⟩

/-- Runs the postlist cursor over a whole source table, threading the
`firstdid` field. -/
def normalizeSource (offset : Nat) :
    List (List Nat × List Nat) → Nat → Except XErr (List PLEntry)
  | [], _ => .ok []
  | (k, tg) :: rest, prevdid =>
    match postlistCursorStep offset prevdid k tg with
    | .error e => .error e
    | .ok e =>
      match normalizeSource offset rest e.firstdid with
      | .error er => .error er
      | .ok es => .ok (e :: es)

/-- Picks the cursor the model's priority queue pops: the source whose head
is minimal under `lt`, the earliest such source on ties.  Breaking ties
towards the earliest source is a stabilised idealisation: the real
`std::priority_queue` breaks ties by heap layout, not by source order (the
binary-heap model `metaMergePQ` below exhibits a tie that a later source
wins).  The idealisation is harmless wherever the settled conclusions are
independent of the tie order.  Returns the sources before the chosen one,
the popped element, the rest of the chosen source, and the sources after
it. -/
def pickMin {α : Type} (lt : α → α → Bool) :
    List (List α) → Option (List (List α) × α × List α × List (List α))
  | [] => none
  | [] :: rest =>
    match pickMin lt rest with
    | none => none
    | some (b, h, t, a) => some ([] :: b, h, t, a)
  | (h :: t) :: rest =>
    match pickMin lt rest with
    | none => some ([], h, t, rest)
    | some (b, h2, t2, a) =>
      if lt h2 h then some ((h :: t) :: b, h2, t2, a)
      else some ([], h, t, rest)

/-- Fuel-based worker for the k-way merge (fuel equal to the total number
of elements suffices, since each pop removes one element). -/
def kMergeAux {α : Type} (lt : α → α → Bool) : Nat → List (List α) → List α
  | 0, _ => []
  | fuel + 1, ss =>
    match pickMin lt ss with
    | none => []
    | some (b, hd, tl, a) => hd :: kMergeAux lt fuel (b ++ tl :: a)

/-- Model of the priority-queue k-way merge: repeatedly pop the minimal
cursor, emit its current element, and push back its remainder. -/
def kMerge {α : Type} (lt : α → α → Bool) (ss : List (List α)) : List α :=
  kMergeAux lt (ss.map List.length).sum ss

/-- Heap order used by `merge_postlists` (`PostlistCursorGt`): by key, then
by `firstdid`. -/
def plLt (a b : PLEntry) : Bool :=
  ltBytes a.key b.key || (a.key == b.key && Nat.blt a.firstdid b.firstdid)

/-- Output records handed to `out->add` (key, tag). -/
abbrev Rec := List Nat × List Nat

/-- Metadata resolver callback: `resolve_duplicate_metadata(key, tags)`. -/
abbrev Resolver := List Nat → List (List Nat) → List Nat

/-- Emission step of the user-metadata phase: one record per key, resolved
through the callback when more than one tag accumulated and a compactor is
supplied, else the first accumulated tag. -/
def flushMeta (compactor : Option Resolver) (last_key : List Nat)
    (tags : List (List Nat)) : List Rec :=
  match tags with
  | [] => []
  | t0 :: _ =>
    match compactor with
    | some f =>
      if 1 < tags.length then [(last_key, f last_key tags)]
      else [(last_key, t0)]
    | none => [(last_key, t0)]

/-- Model of the user-metadata phase of `merge_postlists`: consumes the
leading user-metadata records of the merged stream, grouping tags by key.
Returns the emitted records, the final `last_key`, and the rest of the
stream. -/
def phaseMeta (compactor : Option Resolver) :
    List PLEntry → List Nat → List (List Nat) →
    List Rec × List Nat × List PLEntry
  | [], last_key, tags => (flushMeta compactor last_key tags, last_key, [])
  | e :: rest, last_key, tags =>
    if is_user_metadata_key e.key then
      if e.key ≠ last_key then
        let out1 := flushMeta compactor last_key tags
        let r := phaseMeta compactor rest e.key [e.tag]
        (out1 ++ r.1, r.2)
      else phaseMeta compactor rest last_key (tags ++ [e.tag])
    else (flushMeta compactor last_key tags, last_key, e :: rest)

/-- Model of `encode_valuestats`: packed frequency, length-prefixed lower
bound, raw upper bound omitted when the bounds coincide. -/
def encode_valuestats (freq : Nat) (lbound ubound : List Nat) : List Nat :=
  pack_uint freq ++ pack_string lbound ++
    (if lbound ≠ ubound then ubound else [])

/-- Decoder for a valuestats tag as `merge_postlists` reads it: packed
frequency, length-prefixed lower bound, the remainder (empty means the
upper bound equals the lower bound). -/
def decodeValuestats (tag : List Nat) :
    Except XErr (Nat × List Nat × List Nat) :=
  match unpack_uint tag with
  | none => .error XErr.databaseCorrupt
  | some (f, r1) =>
    match unpack_string r1 with
    | none => .error XErr.databaseCorrupt
    | some (l, r2) => .ok (f, l, if r2.isEmpty then l else r2)

/-- Emission step of the valuestats phase: a record is written only when
the accumulated frequency is non-zero. -/
def flushVS (last_key : List Nat) (freq : Nat) (lbound ubound : List Nat) :
    List Rec :=
  if freq ≠ 0 then [(last_key, encode_valuestats freq lbound ubound)] else []

/-- Model of the valuestats phase of `merge_postlists`: folds frequency,
lower and upper bound over each group of equal keys; a zero accumulated
frequency re-initialises the accumulator (the bounds are not reset on a key
change). -/
def phaseVS :
    List PLEntry → List Nat → Nat → List Nat → List Nat →
    Except XErr (List Rec × List Nat × List PLEntry)
  | [], last_key, freq, lb, ub =>
    .ok (flushVS last_key freq lb ub, last_key, [])
  | e :: rest, last_key, freq, lb, ub =>
    if is_valuestats_key e.key then
      let st :=
        if e.key ≠ last_key then (flushVS last_key freq lb ub, e.key, 0)
        else (([] : List Rec), last_key, freq)
      match decodeValuestats e.tag with
      | .error er => .error er
      | .ok (f, l, u) =>
        let acc :=
          if st.2.2 = 0 then (f, l, u)
          else (st.2.2 + f,
                if ltBytes l lb then l else lb,
                if ltBytes ub u then u else ub)
        match phaseVS rest st.2.1 acc.1 acc.2.1 acc.2.2 with
        | .error er => .error er
        | .ok (out2, lk, rem) => .ok (st.1 ++ out2, lk, rem)
    else .ok (flushVS last_key freq lb ub, last_key, e :: rest)

/-- Model of the valuestream phase of `merge_postlists`: records are copied
through unchanged (and `last_key` is not updated). -/
def phaseVC : List PLEntry → List Rec × List PLEntry
  | [] => ([], [])
  | e :: rest =>
    if is_valuechunk_key e.key then
      let r := phaseVC rest
      ((e.key, e.tag) :: r.1, r.2)
    else ([], e :: rest)

/-- Overwrites the first byte of a chunk body with the continuation flag
(`'1'` = 49 on the last chunk, `'0'` = 48 otherwise); the source writes
`tag[0]` unconditionally, so the body is assumed non-empty. -/
def setFlagByte (c : Nat) : List Nat → List Nat
  | [] => []
  | _ :: t => c :: t

/-- Continuation records of one postlist group, keyed by
`pack_glass_postlist_key(term, firstdid)`, with the last chunk flagged. -/
def contRecords (term : List Nat) : List (Nat × List Nat) → List Rec
  | [] => []
  | (fd, tag) :: rest =>
    (pack_glass_postlist_key term fd,
     setFlagByte (if rest.isEmpty then 49 else 48) tag) :: contRecords term rest

/-- Emission step of the postlist phase: the initial record rebuilds the
`(tf, cf, firstdid-1)` header in front of the first chunk, then one record
per remaining chunk.  The term for the follow-on keys is recovered from the
group key (empty for the document-length list). -/
def emitPostGroup (last_key : List Nat) (tf cf : Nat)
    (tags : List (Nat × List Nat)) : Except XErr (List Rec) :=
  match tags with
  | [] => .ok []
  | (fd0, tag0) :: restTags =>
    let flag0 : Nat := if restTags.isEmpty then 49 else 48
    let first_tag := pack_uint tf ++ pack_uint cf ++ pack_uint (fd0 - 1) ++
      setFlagByte flag0 tag0
    let termE : Except XErr (List Nat) :=
      if is_doclenchunk_key last_key then .ok []
      else
        let p := unpack_string_preserving_sort last_key
        if p.2.isEmpty then .ok p.1 else .error XErr.databaseCorrupt
    match termE with
    | .error e => .error e
    | .ok term => .ok ((last_key, first_tag) :: contRecords term restTags)

/-- Model of the postlist phase of `merge_postlists`: groups the remaining
stream by key, summing `tf`/`cf` and collecting `(firstdid, tag)` pairs in
pop order, emitting each group when the key changes or the stream ends. -/
def phasePost :
    List PLEntry → List Nat → Nat → Nat → List (Nat × List Nat) →
    Except XErr (List Rec)
  | [], last_key, tf, cf, tags => emitPostGroup last_key tf cf tags
  | e :: rest, last_key, tf, cf, tags =>
    if e.key ≠ last_key then
      match emitPostGroup last_key tf cf tags with
      | .error er => .error er
      | .ok out1 =>
        match phasePost rest e.key e.tf e.cf [(e.firstdid, e.tag)] with
        | .error er => .error er
        | .ok out2 => .ok (out1 ++ out2)
    else phasePost rest last_key (tf + e.tf) (cf + e.cf)
           (tags ++ [(e.firstdid, e.tag)])

/-- Model of `merge_postlists` over already-normalised cursor streams: the
merged stream is consumed by the four phases in order, sharing `last_key`
exactly as the C++ shares it (the valuestream phase does not update it). -/
def mergePostlistsEntries (compactor : Option Resolver)
    (sources : List (List PLEntry)) : Except XErr (List Rec) :=
  let s := kMerge plLt sources
  let r1 := phaseMeta compactor s [] []
  match phaseVS r1.2.2 r1.2.1 0 [] [] with
  | .error e => .error e
  | .ok (o2, lk2, s2) =>
    let r3 := phaseVC s2
    match phasePost r3.2 lk2 0 0 [] with
    | .error e => .error e
    | .ok o4 => .ok (r1.1 ++ o2 ++ r3.1 ++ o4)

/-- Model of `merge_postlists` over raw source tables: empty tables are
skipped, the rest are run through the postlist cursor with their docid
offsets, then merged. -/
def mergePostlistsRaw (compactor : Option Resolver) (offsets : List Nat)
    (sources : List (List Rec)) : Except XErr (List Rec) :=
  let zipped := (sources.zip offsets).filter (fun p => !p.1.isEmpty)
  match zipped.mapM (fun p => normalizeSource p.2 p.1 0) with
  | .error e => .error e
  | .ok norm => mergePostlistsEntries compactor norm

/-- Record with its compression flag, as `MergeCursor` sees it. -/
abbrev Rec3 := List Nat × List Nat × Bool

/-- Heap order used by `merge_spellings` (`CursorGt`): by key only. -/
def spellLt (a b : Rec3) : Bool :=
  ltBytes a.1 b.1

/-- Longest prefix of the stream whose elements have key `k`, plus the
rest (the inner pulls of a merged group). -/
def spanKey {α : Type} (keyOf : α → List Nat) (k : List Nat) :
    List α → List α × List α
  | [] => ([], [])
  | e :: rest =>
    if keyOf e = k then
      let p := spanKey keyOf k rest
      (e :: p.1, p.2)
    else ([], e :: rest)

/-- Decodes and sums the `pack_uint_last` frequencies of one merged group
of 'W' records, raising a corruption error on a zero frequency (the C++
also fails when the tag is wider than the counter type, which cannot happen
with unbounded naturals). -/
def sumWFreqs (dec : List Nat → List Nat) : List Rec3 → Except XErr Nat
  | [] => .ok 0
  | (_, tag, comp) :: rest =>
    let freq := unpack_uint_last (if comp then dec tag else tag)
    if freq = 0 then .error XErr.databaseCorrupt
    else
      match sumWFreqs dec rest with
      | .error e => .error e
      | .ok s => .ok (freq + s)

/-- Modelled from the spec: decoder for the prefix-compressed sorted word
list used by non-'W' spelling tags (`prefix_compressed_strings.h` is not
part of the sources); modelled as length-prefixed words. -/
def pcs_decode : List Nat → List (List Nat)
  | [] => []
  | len :: rest => rest.take len :: pcs_decode (rest.drop len)
termination_by l => l.length
decreasing_by
  simp only [List.length_drop, List.length_cons]
  omega

/-- Modelled from the spec: encoder matching `pcs_decode`. -/
def pcs_encode (ws : List (List Nat)) : List Nat :=
  (ws.map (fun w => w.length :: w)).flatten

/-- Drops adjacent duplicates from the merged word stream, starting from
the empty last word, as the `lastword` check in the C++ does. -/
def dedupAdjacent : List (List Nat) → List Nat → List (List Nat)
  | [], _ => []
  | w :: rest, lastword =>
    if w = lastword then dedupAdjacent rest lastword
    else w :: dedupAdjacent rest w

/-- Fuel-based worker for the main loop of `merge_spellings` (fuel equal to
the stream length suffices, since each step consumes at least one record). -/
def goSpellAux (dec : List Nat → List Nat) :
    Nat → List Rec3 → Except XErr (List Rec3)
  | _, [] => .ok []
  | 0, _ :: _ => .ok []
  | fuel + 1, (k, tag, comp) :: rest =>
    let fast :=
      match rest with
      | [] => true
      | (k2, _, _) :: _ => ltBytes k k2
    if fast then
      match goSpellAux dec fuel rest with
      | .error e => .error e
      | .ok out => .ok ((k, tag, comp) :: out)
    else
      let p := spanKey (fun r : Rec3 => r.1) k rest
      let grpAll : List Rec3 := (k, tag, comp) :: p.1
      if k.headD 0 = 87 then
        match sumWFreqs dec grpAll with
        | .error e => .error e
        | .ok tot =>
          match goSpellAux dec fuel p.2 with
          | .error e => .error e
          | .ok out => .ok ((k, pack_uint_last tot, false) :: out)
      else
        let words := kMerge ltBytes
          (grpAll.map (fun r => pcs_decode (if r.2.2 then dec r.2.1 else r.2.1)))
        let tag2 := pcs_encode (dedupAdjacent words [])
        match goSpellAux dec fuel p.2 with
        | .error e => .error e
        | .ok out => .ok ((k, tag2, false) :: out)

/-- Model of the main loop of `merge_spellings` over the merged stream: a
key strictly below the next key is copied verbatim (still compressed);
otherwise the group of equal keys is merged — 'W' keys by summing
frequencies, other keys by uniting the word lists. -/
def goSpell (dec : List Nat → List Nat) (l : List Rec3) :
    Except XErr (List Rec3) :=
  goSpellAux dec l.length l

/-- Model of `merge_spellings`: empty tables are skipped, the remaining
sorted streams are merged by key through the heap and processed by the main
loop.  `dec` models the decompressor applied by `read_tag`. -/
def merge_spellings (dec : List Nat → List Nat)
    (sources : List (List Rec3)) : Except XErr (List Rec3) :=
  goSpell dec (kMerge spellLt (sources.filter (fun s => !s.isEmpty)))

/-- Adds a list of records to an `SSTable` (uncompressed, as the merge
writes them). -/
def addAllRecs (t : SSTable) : List Rec → Except XErr SSTable
  | [] => .ok t
  | (k, v) :: rest =>
    match t.add k v false with
    | .error e => .error e
    | .ok t2 => addAllRecs t2 rest

/-- Reads every record back from a committed `SSTable` the way
`PostlistCursor(SSTable*)` does: `read_item` until it returns false,
aborting on a compressed record. -/
def recsOfTable (t : SSTable) : Except XErr (List Rec) :=
  match readItems t (t.fh.readRem.length + 1) with
  | .error e => .error e
  | .ok (rs, _) =>
    rs.mapM (fun r => if r.2.2 then .error XErr.databaseAbort
                      else .ok ((r.1, r.2.1) : Rec))

/-- Builds one temporary table of the cascaded merge: merge the group into
a fresh `SSTable`, flush and commit it. -/
def buildTmpTable (compactor : Option Resolver)
    (grp : List (List Rec × Nat)) : Except XErr SSTable :=
  match mergePostlistsRaw compactor (grp.map (fun p => p.2))
          (grp.map (fun p => p.1)) with
  | .error e => .error e
  | .ok recs =>
    match addAllRecs newSSTable recs with
    | .error e => .error e
    | .ok t =>
      match t.flush_db.commit with
      | .error e => .error e
      | .ok (t2, _) => .ok t2

/-- Groups consecutive sources in twos, with a final group of three when an
odd one would be left over (the `j == size - 1` adjustment). -/
def pairUp {α : Type} : List α → List (List α)
  | [] => []
  | [a] => [[a]]
  | [a, b] => [[a, b]]
  | [a, b, c] => [[a, b, c]]
  | a :: b :: rest => [a, b] :: pairUp rest

/-- Builds one round of temporary tables from already-read record groups. -/
def buildRound (compactor : Option Resolver) :
    List (List (List Rec × Nat)) → Except XErr (List SSTable)
  | [] => .ok []
  | g :: rest =>
    match buildTmpTable compactor g with
    | .error e => .error e
    | .ok t =>
      match buildRound compactor rest with
      | .error e => .error e
      | .ok ts => .ok (t :: ts)

/-- Reads the groups of one later cascade round back through the SSTable
cursor, pairing each source with the zero offset of `newoff`. -/
def readRoundGroups :
    List (List SSTable) → Except XErr (List (List (List Rec × Nat)))
  | [] => .ok []
  | g :: rest =>
    match g.mapM recsOfTable with
    | .error e => .error e
    | .ok recss =>
      match readRoundGroups rest with
      | .error e => .error e
      | .ok gs => .ok ((recss.map (fun r => (r, 0))) :: gs)

/-- Fuel-based worker for the `while (tmp.size() > 3)` loop of
`multimerge_postlists` (each round at least halves the table count, so fuel
equal to the table count suffices; the zero-fuel case only arises for an
empty table list, where it coincides with the final merge). -/
def multimergeLoopAux (compactor : Option Resolver) :
    Nat → List SSTable → Except XErr (List Rec)
  | 0, tmp =>
    match tmp.mapM recsOfTable with
    | .error e => .error e
    | .ok recss =>
      mergePostlistsRaw compactor (List.replicate recss.length 0) recss
  | fuel + 1, tmp =>
    if 3 < tmp.length then
      match readRoundGroups (pairUp tmp) with
      | .error e => .error e
      | .ok gs =>
        match buildRound compactor gs with
        | .error e => .error e
        | .ok tmp2 => multimergeLoopAux compactor fuel tmp2
    else
      match tmp.mapM recsOfTable with
      | .error e => .error e
      | .ok recss =>
        mergePostlistsRaw compactor (List.replicate recss.length 0) recss

/-- Model of the `while (tmp.size() > 3)` loop of `multimerge_postlists`
plus the final merge: later rounds re-read the temporary tables through the
SSTable cursor with zero offsets. -/
def multimergeLoop (compactor : Option Resolver) (tmp : List SSTable) :
    Except XErr (List Rec) :=
  multimergeLoopAux compactor tmp.length tmp

/-- Model of `multimerge_postlists`: up to three sources merge directly;
otherwise a first round merges consecutive pairs (applying the per-source
offsets), and further rounds continue on the temporary tables with zero
offsets. -/
def multimerge_postlists (compactor : Option Resolver)
    (sources : List (List Rec)) (off : List Nat) : Except XErr (List Rec) :=
  if sources.length ≤ 3 then mergePostlistsRaw compactor off sources
  else
    match buildRound compactor (pairUp (sources.zip off)) with
    | .error e => .error e
    | .ok tmp => multimergeLoop compactor tmp

/-- Adds a list of `(key, value, compressed)` triples to an `SSTable`. -/
def addAllItems (t : SSTable) : List Rec3 → Except XErr SSTable
  | [] => .ok t
  | (k, v, c) :: rest =>
    match t.add k v c with
    | .error e => .error e
    | .ok t2 => addAllItems t2 rest

/-- Folds a call sequence through `SSIndex::maybe_add_entry`. -/
def SSIndex.addEntries (ix : SSIndex) : List (List Nat × Nat) → SSIndex
  | [] => ix
  | (k, p) :: rest => (ix.maybe_add_entry k p).addEntries rest

/-- Byte-wise minimum of a list of byte strings (first on ties). -/
def minBytes (d : List Nat) (l : List (List Nat)) : List Nat :=
  l.foldl (fun acc x => if ltBytes x acc then x else acc) d

/-- Byte-wise maximum of a list of byte strings (first on ties). -/
def maxBytes (d : List Nat) (l : List (List Nat)) : List Nat :=
  l.foldl (fun acc x => if ltBytes acc x then x else acc) d

/-- On-disk length of the record header `SSTable::add` writes for `key`
after `prev`. -/
def headerLen (prev key : List Nat) : Nat :=
  if prev.isEmpty then 1 + key.length
  else 2 + (key.length - commonPrefixLen prev key)

/-- On-disk encoding of one record as `SSTable::add` writes it: the
prefix-compressed key header, the varint-packed value length with the
compression bit, then the value bytes. -/
def encRecord (prev : List Nat) (r : Rec3) : List Nat :=
  (if prev.isEmpty then r.1.length :: r.1
   else commonPrefixLen prev r.1 :: (r.1.length - commonPrefixLen prev r.1) ::
     r.1.drop (commonPrefixLen prev r.1)) ++
  pack_uint (r.2.1.length * 2 + (if r.2.2 then 1 else 0)) ++ r.2.1

/-- On-disk encoding of a whole add sequence, threading the previous key. -/
def encAllFrom (prev : List Nat) : List Rec3 → List Nat
  | [] => []
  | r :: rest => encRecord prev r ++ encAllFrom r.1 rest

/-- Post-header file offsets at which `SSTable::add` calls
`maybe_add_entry`, for an add sequence starting at offset `pos` after
previous key `prev`. -/
def recPtrs (prev : List Nat) (pos : Nat) : List Rec3 → List Nat
  | [] => []
  | r :: rest =>
    (pos + headerLen prev r.1) ::
      recPtrs r.1 (pos + (encRecord prev r).length) rest

/-- Whole write-then-read-back pipeline of claim C2: add all triples to a
fresh table, flush and commit it, then read `fuel` times (stopping early
when `read_item` returns false). -/
def c2readBack (adds : List Rec3) (fuel : Nat) : Except XErr (List Rec3) :=
  match addAllItems newSSTable adds with
  | .error e => .error e
  | .ok t1 =>
    match t1.flush_db.commit with
    | .error e => .error e
    | .ok (t2, _) =>
      match readItems t2 fuel with
      | .error e => .error e
      | .ok (rs, _) => .ok rs

/-- Two records whose second post-header offset passes 1024, so the sparse
index is non-empty. -/
def c2bigAdds : List Rec3 :=
  [([97], List.replicate 1100 0, false), ([98], [], false)]

/-- Resolver used as a concrete metadata conflict callback: returns a
one-byte tag holding the count of accumulated tags (as an ASCII digit). -/
def c4resolver : Resolver := fun _ tags => [tags.length + 48]

/-- Concrete user-metadata key (0x00 0xC0 'f'). -/
def c4key : List Nat := [0, 192, 102]

/-- Four single-record sources holding the same user-metadata key with
distinct tags. -/
def c4sources : List (List Rec) :=
  [[(c4key, [88])], [(c4key, [89])], [(c4key, [90])], [(c4key, [91])]]

/-- Logical content of a write-mode `BufferedFile`: accepted bytes followed
by the buffered bytes. -/
def BufferedFile.content (f : BufferedFile) : List Nat :=
  f.fileBytes ++ f.buf

/-- Boolean strict-chain check for an arbitrary strict order: every element
is `lt`-below its successor. -/
def chainB {α : Type} (lt : α → α → Bool) : List α → Bool
  | [] => true
  | [_] => true
  | a :: b :: rest => lt a b && chainB lt (b :: rest)

/-- Error-propagating concatenation of two fallible record lists. -/
def exCat {α : Type} :
    Except XErr (List α) → Except XErr (List α) → Except XErr (List α)
  | .error e, _ => .error e
  | .ok _, .error e => .error e
  | .ok a, .ok b => .ok (a ++ b)

/-- Error-propagating concatenation of the outputs of `f` over a list. -/
def exJoinMap {α β : Type} (f : β → Except XErr (List α)) :
    List β → Except XErr (List α)
  | [] => .ok []
  | b :: bs => exCat (f b) (exJoinMap f bs)

/-- Fuel-based worker for `keyRunsG` (the fuel never runs out when it
starts at the stream length, since `spanKey` consumes at least the head). -/
def keyRunsAux {α : Type} (keyOf : α → List Nat) :
    Nat → List α → List (List Nat × List α)
  | 0, _ => []
  | _, [] => []
  | fuel + 1, e :: rest =>
    let p := spanKey keyOf (keyOf e) rest
    (keyOf e, e :: p.1) :: keyRunsAux keyOf fuel p.2

/-- Decomposition of a stream into maximal runs of equal keys, in order:
each run is tagged with its common key. -/
def keyRunsG {α : Type} (keyOf : α → List Nat) (l : List α) :
    List (List Nat × List α) :=
  keyRunsAux keyOf l.length l

/-- Key runs of a merged postlist-cursor stream. -/
def keyRuns (l : List PLEntry) : List (List Nat × List PLEntry) :=
  keyRunsG PLEntry.key l

/-- Key runs of a merged spelling stream. -/
def keyRuns3 (l : List Rec3) : List (List Nat × List Rec3) :=
  keyRunsG (fun r : Rec3 => r.1) l

/-- Per-run output of the postlist phase: `emitPostGroup` applied to the
summed `tf`/`cf` and the collected `(firstdid, tag)` pairs of the run. -/
def postGroupsOut : List (List Nat × List PLEntry) → Except XErr (List Rec) :=
  exJoinMap (fun g =>
    emitPostGroup g.1 ((g.2.map PLEntry.tf).sum) ((g.2.map PLEntry.cf).sum)
      (g.2.map (fun e => (e.firstdid, e.tag))))

/-- Output tag choice of the user-metadata phase for one key: the resolver
result when it exists and more than one tag accumulated, else the first
accumulated tag. -/
def metaOut (compactor : Option Resolver) (k : List Nat)
    (tags : List (List Nat)) : List Nat :=
  match compactor with
  | some f => if 1 < tags.length then f k tags else tags.headD []
  | none => tags.headD []

/-- Total wrapper around `decodeValuestats` (the default is never used when
`vsDecOkB` holds). -/
def vsDec (e : PLEntry) : Nat × List Nat × List Nat :=
  match decodeValuestats e.tag with
  | .ok d => d
  | .error _ => (0, [], [])

/-- Whether a valuestats tag decodes successfully. -/
def vsDecOkB (e : PLEntry) : Bool :=
  match decodeValuestats e.tag with
  | .ok _ => true
  | .error _ => false

/-- One accumulation step of the valuestats phase: a zero accumulated
frequency re-initialises, otherwise the frequency is added and the bounds
are bytewise min/max-merged. -/
def vsStep (st d : Nat × List Nat × List Nat) : Nat × List Nat × List Nat :=
  if st.1 = 0 then d
  else (st.1 + d.1,
        if ltBytes d.2.1 st.2.1 then d.2.1 else st.2.1,
        if ltBytes st.2.2 d.2.2 then d.2.2 else st.2.2)

/-- Accumulator of the valuestats phase over a list of decoded entries. -/
def vsAccum (ds : List (Nat × List Nat × List Nat))
    (st : Nat × List Nat × List Nat) : Nat × List Nat × List Nat :=
  ds.foldl vsStep st

/-- Per-run output of the valuestats phase: the accumulated record, emitted
only when the accumulated frequency is non-zero. -/
def vsGroupRec (g : List Nat × List PLEntry) : List Rec :=
  let a := vsAccum (g.2.map vsDec) (0, [], [])
  flushVS g.1 a.1 a.2.1 a.2.2

/-- A normalised cursor entry of postlist kind: no user-metadata,
valuestats or valuechunk key, and a non-empty key. -/
def postKindB (e : PLEntry) : Bool :=
  !(is_user_metadata_key e.key) && !(is_valuestats_key e.key) &&
    !(is_valuechunk_key e.key) && !(e.key.isEmpty)

/-- Per-run output of the spelling merge for a 'W' key, stated as the
specification words it: a run carried by a single input is copied verbatim
(still possibly compressed); a run carried by several inputs is replaced by
`pack_uint_last` of the sum of the decoded input frequencies, with a
corruption error if any input frequency decodes to zero. -/
def wGroupSpec (dec : List Nat → List Nat) (g : List Nat × List Rec3) :
    Except XErr (List Rec3) :=
  match g.2 with
  | [] => .ok []
  | [r] => .ok [r]
  | r1 :: r2 :: rs =>
    let freqs := ((r1 :: r2 :: rs).map
      (fun r : Rec3 => unpack_uint_last (if r.2.2 then dec r.2.1 else r.2.1)))
    if freqs.any (fun f => f == 0) then .error XErr.databaseCorrupt
    else .ok [(g.1, pack_uint_last freqs.sum, false)]

/-- Membership test for `(key, firstdid)` pairs. -/
def memPair : (List Nat × Nat) → List (List Nat × Nat) → Bool
  | _, [] => false
  | p, q :: rest => (p.1 == q.1 && p.2 == q.2) || memPair p rest

/-- Boolean duplicate-freedom check for `(key, firstdid)` pairs. -/
def nodupPairsB : List (List Nat × Nat) → Bool
  | [] => true
  | p :: rest => !memPair p rest && nodupPairsB rest

/-- Two concrete metadata cursor streams sharing key `00 C0 'f'`. -/
def c5sources : List (List PLEntry) :=
  [[⟨[0, 192, 102], 0, 0, 0, [88]⟩],
   [⟨[0, 192, 102], 0, 0, 0, [89]⟩, ⟨[0, 192, 103], 0, 0, 0, [90]⟩]]

/-- Two concrete postlist cursor streams sharing the term key `74 00 00`. -/
def c1sources : List (List PLEntry) :=
  [[⟨[116, 0, 0], 1, 2, 5, [48, 10]⟩],
   [⟨[116, 0, 0], 4, 3, 7, [48, 20]⟩, ⟨[117, 0, 0], 1, 1, 1, [48, 9]⟩]]

/-- Two concrete valuestats streams for slot key `00 D0 01`. -/
def c3sources : List (List PLEntry) :=
  [[⟨[0, 208, 1], 0, 0, 0, encode_valuestats 1 [109] [109]⟩],
   [⟨[0, 208, 1], 0, 0, 0, encode_valuestats 2 [97] [122]⟩]]

/-- Two concrete zero-frequency valuestats streams for slot key
`00 D0 01`. -/
def c10sources : List (List PLEntry) :=
  [[⟨[0, 208, 1], 0, 0, 0, encode_valuestats 0 [97] [97]⟩],
   [⟨[0, 208, 1], 0, 0, 0, encode_valuestats 0 [122] [122]⟩]]

/-- Two concrete 'W'-key spelling streams sharing key `57 61`. -/
def c6sources : List (List Rec3) :=
  [[([87, 97], pack_uint_last 2, false)],
   [([87, 97], pack_uint_last 3, false), ([87, 98], pack_uint_last 5, false)]]

/-- Strict `PostlistCursorGt` order on current cursor positions
(`operator()`, honey_compact.cc lines 618-628): `a` sorts below `b` in the
queue when `a`'s key is bytewise greater, or the keys are equal and `a`'s
`firstdid` is greater.  Two metadata cursors on the same key compare equal
in both directions. -/
def pcGt (a b : PLEntry) : Bool :=
  ltBytes b.key a.key || (a.key == b.key && Nat.blt b.firstdid a.firstdid)

/-- Comparator `pcGt` lifted to cursors: a cursor is its remaining entry
stream and its head is the current position. -/
def curGt (c1 c2 : List PLEntry) : Bool :=
  pcGt (c1.headD ⟨[], 0, 0, 0, []⟩) (c2.headD ⟨[], 0, 0, 0, []⟩)

/-- Sift-up step of the binary-heap `push_heap`: the element at index `i`
swaps with its parent only while the parent compares strictly greater under
the comparator, so a pushed element never displaces an element it ties
with — in particular it never becomes the new top past an equal resident
cursor. -/
def siftUpAux : Nat → List (List PLEntry) → Nat → List (List PLEntry)
  | 0, heap, _ => heap
  | fuel + 1, heap, i =>
    if i = 0 then heap
    else
      let p := (i - 1) / 2
      if curGt (heap.getD p []) (heap.getD i []) then
        siftUpAux fuel ((heap.set p (heap.getD i [])).set i (heap.getD p [])) p
      else heap

/-- Model of `std::priority_queue::push` on the array binary heap: append
the new cursor and sift it up. -/
def heapPush (heap : List (List PLEntry)) (c : List PLEntry) :
    List (List PLEntry) :=
  siftUpAux (heap.length + 1) (heap ++ [c]) heap.length

/-- Sift-down step restoring the heap property after a pop: at index `i`
the smaller child (under the queue order) rises while the parent compares
strictly greater than it. -/
def siftDownAux : Nat → List (List PLEntry) → Nat → List (List PLEntry)
  | 0, heap, _ => heap
  | fuel + 1, heap, i =>
    let l := 2 * i + 1
    let r := 2 * i + 2
    if l < heap.length then
      let c := if r < heap.length &&
          curGt (heap.getD l []) (heap.getD r []) then r else l
      if curGt (heap.getD i []) (heap.getD c []) then
        siftDownAux fuel ((heap.set i (heap.getD c [])).set c (heap.getD i [])) c
      else heap
    else heap

/-- Model of `std::priority_queue` `top()` followed by `pop()` on the array
binary heap: the root is returned, the last element moves into the root
slot and sifts down. -/
def heapPop (heap : List (List PLEntry)) :
    Option (List PLEntry × List (List PLEntry)) :=
  match heap with
  | [] => none
  | top :: rest =>
    if rest.isEmpty then some (top, [])
    else
      let lastC := heap.getLastD []
      let heap2 := (heap.set 0 lastC).dropLast
      some (top, siftDownAux heap2.length heap2 0)

/-- User-metadata loop of `merge_postlists` (honey_compact.cc lines
664-715) driven by the binary-heap queue model instead of the idealised
`pickMin`: pop the least cursor, stop at the first non-metadata key, flush
the pending tags when the key changes, accumulate the tag, advance the
cursor and re-push it while entries remain. -/
def metaPQLoop (c : Option Resolver) :
    Nat → List (List PLEntry) → List Nat → List (List Nat) → List Rec
  | 0, _, lk, tags => flushMeta c lk tags
  | fuel + 1, heap, lk, tags =>
    match heapPop heap with
    | none => flushMeta c lk tags
    | some (cur, heap2) =>
      match cur with
      | [] => flushMeta c lk tags
      | e :: restCur =>
        if is_user_metadata_key e.key then
          let heap3 := if restCur.isEmpty then heap2 else heapPush heap2 restCur
          if e.key ≠ lk then
            flushMeta c lk tags ++ metaPQLoop c fuel heap3 e.key [e.tag]
          else metaPQLoop c fuel heap3 lk (tags ++ [e.tag])
        else flushMeta c lk tags

/-- Metadata phase of `merge_postlists` over the binary-heap queue model:
the nonempty sources are pushed in order, then the loop runs to exhaustion
(fuel one more than the total entry count suffices, as each iteration
consumes one entry). -/
def metaMergePQ (c : Option Resolver) (sources : List (List PLEntry)) :
    List Rec :=
  metaPQLoop c ((sources.map List.length).sum + 1)
    (sources.foldl (fun h src => if src.isEmpty then h else heapPush h src) [])
    [] []

/-- Source 0 holds metadata keys `00 C0 4A` and `00 C0 4B` (tags `[74]` and
`[88]`); source 1 holds key `00 C0 4B` only (tag `[89]`).  On the shared
key the two cursors tie under `PostlistCursorGt`. -/
def c5pqSources : List (List PLEntry) :=
  [[⟨[0, 192, 74], 0, 0, 0, [74]⟩, ⟨[0, 192, 75], 0, 0, 0, [88]⟩],
   [⟨[0, 192, 75], 0, 0, 0, [89]⟩]]

theorem pack_uint_aux_irrel :
    ∀ fuel1 fuel2 n, n ≤ fuel1 → n ≤ fuel2 →
      pack_uint_aux fuel1 n = pack_uint_aux fuel2 n := by
  intro fuel1
  induction fuel1 with
  | zero =>
    intro fuel2 n h1 h2
    interval_cases n
    match fuel2 with
    | 0 => rfl
    | f + 1 => simp [pack_uint_aux]
  | succ f1 ih =>
    intro fuel2 n h1 h2
    match fuel2 with
    | 0 =>
      interval_cases n
      simp [pack_uint_aux]
    | f2 + 1 =>
      simp only [pack_uint_aux]
      by_cases hn : n < 128
      · simp [hn]
      · simp only [hn, if_false]
        have hd : n / 128 < n := Nat.div_lt_self (by omega) (by omega)
        rw [ih f2 (n / 128) (by omega) (by omega)]

/-- Unfolding equation for `pack_uint`. -/
theorem pack_uint_eq (n : Nat) :
    pack_uint n = if n < 128 then [n]
                  else (n % 128 + 128) :: pack_uint (n / 128) := by
  show pack_uint_aux n n = _
  match hn : n with
  | 0 => simp [pack_uint_aux]
  | m + 1 =>
    simp only [pack_uint_aux]
    by_cases h : m + 1 < 128
    · simp [h]
    · simp only [h, if_false]
      have hd : (m + 1) / 128 < m + 1 := Nat.div_lt_self (by omega) (by omega)
      rw [pack_uint_aux_irrel m ((m + 1) / 128) ((m + 1) / 128) (by omega)
        (Nat.le_refl _)]
      rfl

theorem pack_uint_last_aux_irrel :
    ∀ fuel1 fuel2 n, n ≤ fuel1 → n ≤ fuel2 →
      pack_uint_last_aux fuel1 n = pack_uint_last_aux fuel2 n := by
  intro fuel1
  induction fuel1 with
  | zero =>
    intro fuel2 n h1 h2
    interval_cases n
    match fuel2 with
    | 0 => rfl
    | f + 1 => rfl
  | succ f1 ih =>
    intro fuel2 n h1 h2
    match n, fuel2 with
    | 0, 0 => rfl
    | 0, f2 + 1 => rfl
    | m + 1, 0 => omega
    | m + 1, f2 + 1 =>
      simp only [pack_uint_last_aux]
      have hd : (m + 1) / 256 < m + 1 := Nat.div_lt_self (by omega) (by omega)
      rw [ih f2 ((m + 1) / 256) (by omega) (by omega)]

/-- Unfolding equation for `pack_uint_last`. -/
theorem pack_uint_last_eq (n : Nat) :
    pack_uint_last n = if n = 0 then []
                       else (n % 256) :: pack_uint_last (n / 256) := by
  show pack_uint_last_aux n n = _
  match n with
  | 0 => rfl
  | m + 1 =>
    simp only [pack_uint_last_aux]
    have hd : (m + 1) / 256 < m + 1 := Nat.div_lt_self (by omega) (by omega)
    rw [pack_uint_last_aux_irrel m ((m + 1) / 256) ((m + 1) / 256) (by omega)
      (Nat.le_refl _)]
    rfl

theorem beBytesAux_irrel :
    ∀ fuel1 fuel2 n, n ≤ fuel1 → n ≤ fuel2 →
      beBytesAux fuel1 n = beBytesAux fuel2 n := by
  intro fuel1
  induction fuel1 with
  | zero =>
    intro fuel2 n h1 h2
    interval_cases n
    match fuel2 with
    | 0 => rfl
    | f + 1 => simp [beBytesAux]
  | succ f1 ih =>
    intro fuel2 n h1 h2
    match fuel2 with
    | 0 =>
      interval_cases n
      simp [beBytesAux]
    | f2 + 1 =>
      simp only [beBytesAux]
      by_cases hn : n < 256
      · simp [hn]
      · simp only [hn, if_false]
        have hd : n / 256 < n := Nat.div_lt_self (by omega) (by omega)
        rw [ih f2 (n / 256) (by omega) (by omega)]

/-- Unfolding equation for `beBytes`. -/
theorem beBytes_eq (n : Nat) :
    beBytes n = if n < 256 then [n] else beBytes (n / 256) ++ [n % 256] := by
  show beBytesAux n n = _
  match n with
  | 0 => simp [beBytesAux]
  | m + 1 =>
    simp only [beBytesAux]
    by_cases h : m + 1 < 256
    · simp [h]
    · simp only [h, if_false]
      have hd : (m + 1) / 256 < m + 1 := Nat.div_lt_self (by omega) (by omega)
      rw [beBytesAux_irrel m ((m + 1) / 256) ((m + 1) / 256) (by omega)
        (Nat.le_refl _)]
      rfl

theorem pickMin_decomp {α : Type} (lt : α → α → Bool) :
    ∀ (ss : List (List α)) b hd tl a,
      pickMin lt ss = some (b, hd, tl, a) → ss = b ++ (hd :: tl) :: a := by
  intro ss
  induction ss with
  | nil => intro b hd tl a h; simp [pickMin] at h
  | cons s rest ih =>
    intro b hd tl a h
    match s with
    | [] =>
      simp only [pickMin] at h
      match hrec : pickMin lt rest with
      | none => rw [hrec] at h; simp at h
      | some (b2, h2, t2, a2) =>
        rw [hrec] at h
        simp at h
        obtain ⟨hb, hh, ht, ha⟩ := h
        subst hb hh ht ha
        simpa using congrArg (List.cons ([] : List α)) (ih _ _ _ _ hrec)
    | x :: xs =>
      simp only [pickMin] at h
      match hrec : pickMin lt rest with
      | none =>
        rw [hrec] at h
        simp at h
        obtain ⟨hb, hh, ht, ha⟩ := h
        subst hb hh ht ha
        simp
      | some (b2, h2, t2, a2) =>
        rw [hrec] at h
        by_cases hlt : lt h2 x
        · simp [hlt] at h
          obtain ⟨hb, hh, ht, ha⟩ := h
          subst hb hh ht ha
          simpa using congrArg (List.cons (x :: xs)) (ih _ _ _ _ hrec)
        · simp [hlt] at h
          obtain ⟨hb, hh, ht, ha⟩ := h
          subst hb hh ht ha
          simp

theorem kMergeAux_irrel {α : Type} (lt : α → α → Bool) :
    ∀ fuel1 fuel2 ss, (ss.map List.length).sum ≤ fuel1 →
      (ss.map List.length).sum ≤ fuel2 →
      kMergeAux lt fuel1 ss = kMergeAux lt fuel2 ss := by
  intro fuel1
  induction fuel1 with
  | zero =>
    intro fuel2 ss h1 h2
    match fuel2 with
    | 0 => rfl
    | f2 + 1 =>
      simp only [kMergeAux]
      match hp : pickMin lt ss with
      | none => rfl
      | some (b, hd, tl, a) =>
        exfalso
        have := pickMin_decomp lt ss b hd tl a hp
        subst this
        simp [List.sum_append] at h1
  | succ f1 ih =>
    intro fuel2 ss h1 h2
    match fuel2 with
    | 0 =>
      simp only [kMergeAux]
      match hp : pickMin lt ss with
      | none => rfl
      | some (b, hd, tl, a) =>
        exfalso
        have := pickMin_decomp lt ss b hd tl a hp
        subst this
        simp [List.sum_append] at h2
    | f2 + 1 =>
      simp only [kMergeAux]
      match hp : pickMin lt ss with
      | none => rfl
      | some (b, hd, tl, a) =>
        have hdec := pickMin_decomp lt ss b hd tl a hp
        subst hdec
        have hs : ((b ++ tl :: a).map List.length).sum + 1 =
            ((b ++ (hd :: tl) :: a).map List.length).sum := by
          simp [List.sum_append]
          omega
        have hrec := ih f2 (b ++ tl :: a) (by omega) (by omega)
        simp [hrec]

/-- Unfolding equation for `kMerge`. -/
theorem kMerge_eq {α : Type} (lt : α → α → Bool) (ss : List (List α)) :
    kMerge lt ss =
      match pickMin lt ss with
      | none => []
      | some (b, hd, tl, a) => hd :: kMerge lt (b ++ tl :: a) := by
  show kMergeAux lt (ss.map List.length).sum ss = _
  match hp : pickMin lt ss with
  | none =>
    match hsum : (ss.map List.length).sum with
    | 0 => simp [kMergeAux, hp]
    | m + 1 => simp [kMergeAux, hp]
  | some (b, hd, tl, a) =>
    have hdec := pickMin_decomp lt ss b hd tl a hp
    subst hdec
    have hs : ((b ++ tl :: a).map List.length).sum + 1 =
        ((b ++ (hd :: tl) :: a).map List.length).sum := by
      simp [List.sum_append]
      omega
    match hsum : ((b ++ (hd :: tl) :: a).map List.length).sum with
    | 0 => omega
    | m + 1 =>
      simp only [kMergeAux, hp]
      rw [kMergeAux_irrel lt m ((b ++ tl :: a).map List.length).sum
        (b ++ tl :: a) (by omega) (Nat.le_refl _)]
      rfl

theorem spanKey_rest_length_le {α : Type} (keyOf : α → List Nat)
    (k : List Nat) : ∀ l : List α, (spanKey keyOf k l).2.length ≤ l.length := by
  intro l
  induction l with
  | nil => simp [spanKey]
  | cons e rest ih =>
    simp only [spanKey]
    by_cases h : keyOf e = k
    · simp only [h, if_pos rfl]
      exact Nat.le_trans ih (Nat.le_succ _)
    · simp [h]

theorem pairUp_length_le {α : Type} :
    ∀ l : List α, (pairUp l).length ≤ (l.length + 1) / 2 := by
  intro l
  induction l using pairUp.induct with
  | case1 => simp [pairUp]
  | case2 a => simp [pairUp]
  | case3 a b => simp [pairUp]
  | case4 a b c => simp [pairUp]
  | case5 a b rest h1 h2 ih =>
    simp only [pairUp, List.length_cons]
    omega

theorem buildRound_length (compactor : Option Resolver) :
    ∀ gs ts, buildRound compactor gs = .ok ts → ts.length = gs.length := by
  intro gs
  induction gs with
  | nil => intro ts h; simp [buildRound] at h; simp [← h]
  | cons g rest ih =>
    intro ts h
    simp only [buildRound] at h
    match h1 : buildTmpTable compactor g with
    | .error e => rw [h1] at h; simp at h
    | .ok t =>
      rw [h1] at h
      match h2 : buildRound compactor rest with
      | .error e => rw [h2] at h; simp at h
      | .ok ts2 =>
        rw [h2] at h
        simp at h
        subst h
        simp [ih ts2 h2]

theorem readRoundGroups_length :
    ∀ gs out, readRoundGroups gs = .ok out → out.length = gs.length := by
  intro gs
  induction gs with
  | nil => intro out h; simp [readRoundGroups] at h; simp [← h]
  | cons g rest ih =>
    intro out h
    simp only [readRoundGroups] at h
    match h1 : g.mapM recsOfTable with
    | .error e => rw [h1] at h; simp at h
    | .ok recss =>
      rw [h1] at h
      match h2 : readRoundGroups rest with
      | .error e => rw [h2] at h; simp at h
      | .ok gs2 =>
        rw [h2] at h
        simp at h
        subst h
        simp [ih gs2 h2]

theorem ltBytes_cons_same (x : Nat) (xs ys : List Nat) :
    ltBytes (x :: xs) (x :: ys) = ltBytes xs ys := by
  simp [ltBytes]

theorem leBytes_false_lt : ∀ a b : List Nat,
    leBytes a b = false → ltBytes b a = true := by
  intro a
  induction a with
  | nil =>
    intro b h
    match b with
    | [] => simp [leBytes, ltBytes] at h
    | x :: xs => simp [leBytes, ltBytes] at h
  | cons x xs ih =>
    intro b h
    match b with
    | [] => simp [ltBytes]
    | y :: ys =>
      rcases Nat.lt_trichotomy x y with hxy | hxy | hxy
      · exfalso
        simp [leBytes, ltBytes, hxy] at h
      · subst hxy
        rw [ltBytes_cons_same]
        apply ih
        simp only [leBytes, Bool.or_eq_false_iff] at h ⊢
        obtain ⟨h1, h2⟩ := h
        rw [ltBytes_cons_same] at h1
        refine ⟨h1, ?_⟩
        have h2' : xs ≠ ys := by
          intro hcon
          subst hcon
          simp at h2
        simpa [beq_eq_false_iff_ne] using h2'
      · simp [ltBytes, hxy]

/-- Claim C7 (counterexample): adding an empty key to a writable table whose
previous key is nonempty raises invalid-argument, not invalid-operation,
although the empty key is less than or equal to the previous key; so the
claimed "raises invalid-operation when the key is less than or equal to the
previously added key" is false as stated. -/
theorem c7_counterexample :
    leBytes [] ({ last_key := [97] } : SSTable).last_key = true ∧
    ({ last_key := [97] } : SSTable).add [] [] false =
      .error XErr.invalidArgument ∧
    ({ last_key := [97] } : SSTable).add [] [] false ≠
      .error XErr.invalidOperation := by
  refine ⟨by decide, by decide, by decide⟩

/-- Claim C7 (amended): `SSTable::add` checks read-only mode first, then the
key length, then the ordering: it raises invalid-operation if the table is
read-only; otherwise it raises invalid-argument iff the key length is 0 or
greater than 255; otherwise it raises invalid-operation iff the key is less
than or equal to the previously added key; a successful add records a key
strictly greater than the previous one (all checks precede all writes, so a
raise leaves the table unchanged and the sequence of keys successfully
added is strictly increasing). -/
theorem c7_add_errors_amended (t : SSTable) (key val : List Nat) (c : Bool) :
    (t.add key val c = .error XErr.invalidArgument ↔
      t.read_only = false ∧ (key.length = 0 ∨ 255 < key.length)) ∧
    (t.add key val c = .error XErr.invalidOperation ↔
      (t.read_only = true ∨
       (t.read_only = false ∧ 1 ≤ key.length ∧ key.length ≤ 255 ∧
        leBytes key t.last_key = true))) ∧
    (∀ t2, t.add key val c = .ok t2 →
      ltBytes t.last_key key = true ∧ t2.last_key = key) := by
  unfold SSTable.add
  split_ifs with hro hlen hle
  · exact ⟨by simp [hro], by simp [hro], by simp⟩
  · simp only [Bool.or_eq_true, decide_eq_true_eq] at hlen
    refine ⟨?_, ?_, by simp⟩
    · refine iff_of_true rfl ⟨by simpa using hro, hlen⟩
    · refine iff_of_false (by simp) ?_
      rintro (h | ⟨-, h1, h2, -⟩)
      · exact hro h
      · omega
  · simp only [Bool.or_eq_true, decide_eq_true_eq, not_or] at hlen
    refine ⟨?_, ?_, by simp⟩
    · refine iff_of_false (by simp) ?_
      rintro ⟨-, h⟩
      omega
    · refine iff_of_true rfl
        (Or.inr ⟨by simpa using hro, by omega, by omega, hle⟩)
  all_goals (
    simp only [Bool.or_eq_true, decide_eq_true_eq, not_or] at hlen
    have hle2 : leBytes key t.last_key = false := by simpa using hle
    refine ⟨?_, ?_, ?_⟩
    · refine iff_of_false (by simp) ?_
      rintro ⟨-, h⟩
      omega
    · refine iff_of_false (by simp) ?_
      rintro (h | ⟨-, -, -, h⟩)
      · exact hro h
      · rw [hle2] at h
        exact absurd h (by simp)
    · intro t2 h2
      simp only [Except.ok.injEq] at h2
      refine ⟨leBytes_false_lt key t.last_key hle2, ?_⟩
      rw [← h2])

/-- Claim C7 (witness): the amended characterisation at a concrete table
and key. -/
theorem c7_add_errors_amended_witness :
    ((({ last_key := [97] } : SSTable).add [] [] false =
        .error XErr.invalidArgument ↔
      ({ last_key := [97] } : SSTable).read_only = false ∧
        (([] : List Nat).length = 0 ∨ 255 < ([] : List Nat).length)) ∧
     (({ last_key := [97] } : SSTable).add [] [] false =
        .error XErr.invalidOperation ↔
      (({ last_key := [97] } : SSTable).read_only = true ∨
       (({ last_key := [97] } : SSTable).read_only = false ∧
        1 ≤ ([] : List Nat).length ∧ ([] : List Nat).length ≤ 255 ∧
        leBytes [] ({ last_key := [97] } : SSTable).last_key = true))) ∧
     (∀ t2, ({ last_key := [97] } : SSTable).add [] [] false = .ok t2 →
       ltBytes ({ last_key := [97] } : SSTable).last_key [] = true ∧
       t2.last_key = [])) :=
  c7_add_errors_amended { last_key := [97] } [] [] false

/-- Claim C8: a short write is not retried.  With five bytes buffered and a
kernel that accepts only one byte of the flushing `write`, the flushed file
holds a single byte, the buffer is discarded, and the remaining four bytes
are lost — contradicting the claim that every byte of the slice reaches the
file.  (The source marks these paths with FIXME comments, and the spec
requires the retry, so the code is wrong.) -/
theorem c8_short_write_lost :
    ((({ read_only := false, oracle := [1] } : BufferedFile).writeSlice
        [1, 2, 3, 4, 5]).flush).fileBytes = [1] ∧
    ((({ read_only := false, oracle := [1] } : BufferedFile).writeSlice
        [1, 2, 3, 4, 5]).flush).buf = [] ∧
    ([1] : List Nat) ≠ [1, 2, 3, 4, 5] := by
  refine ⟨by decide, by decide, by decide⟩

theorem addEntries_data_prefix :
    ∀ (calls : List (List Nat × Nat)) (ix : SSIndex),
      ∃ suffix, (ix.addEntries calls).data = ix.data ++ suffix := by
  intro calls
  induction calls with
  | nil => intro ix; exact ⟨[], by simp [SSIndex.addEntries]⟩
  | cons c rest ih =>
    intro ix
    obtain ⟨k, p⟩ := c
    simp only [SSIndex.addEntries]
    obtain ⟨s2, hs2⟩ := ih (ix.maybe_add_entry k p)
    unfold SSIndex.maybe_add_entry at hs2 ⊢
    by_cases hb : p / 1024 = ix.block
    · simp only [hb, if_pos rfl] at hs2 ⊢
      exact ⟨s2, hs2⟩
    · simp only [hb, if_false] at hs2 ⊢
      refine ⟨(commonPrefixLen ix.last_index_key k ::
        (k.length - commonPrefixLen ix.last_index_key k) ::
        List.drop (commonPrefixLen ix.last_index_key k) k ++ pack_uint p)
        ++ s2, ?_⟩
      rw [hs2]
      simp

/-- Claim C9: starting from a fresh index (block counter 0), a call with
`ptr / 1024 = 0` changes nothing; consequently if no appended offset
reaches 1024 the index block stays empty, and otherwise the first entry of
the index encodes exactly the first key whose offset is at least 1024
(zero reuse, full key, packed offset). -/
theorem c9_first_block_no_entry (calls : List (List Nat × Nat)) :
    (∀ (ix : SSIndex) (k : List Nat) (p : Nat), p < 1024 → ix.block = 0 →
      ix.maybe_add_entry k p = ix) ∧
    (calls.find? (fun c => decide (1024 ≤ c.2)) = none →
      (SSIndex.addEntries {} calls).data = []) ∧
    (∀ k p, calls.find? (fun c => decide (1024 ≤ c.2)) = some (k, p) →
      ∃ rest, (SSIndex.addEntries {} calls).data =
        0 :: k.length :: (k ++ pack_uint p ++ rest)) := by
  refine ⟨?_, ?_⟩
  · intro ix k p hp hb
    unfold SSIndex.maybe_add_entry
    have : p / 1024 = 0 := Nat.div_eq_of_lt hp
    simp [this, hb]
  · induction calls with
    | nil =>
      refine ⟨fun _ => rfl, fun k p h => ?_⟩
      simp at h
    | cons c rest ih =>
      obtain ⟨k0, p0⟩ := c
      by_cases hp0 : 1024 ≤ p0
      · have hfind : ((k0, p0) :: rest).find?
            (fun c => decide (1024 ≤ c.2)) = some (k0, p0) :=
          List.find?_cons_of_pos _ (by simpa using hp0)
        constructor
        · intro h
          rw [hfind] at h
          exact absurd h (by simp)
        · intro k p h
          rw [hfind] at h
          simp only [Option.some.injEq, Prod.mk.injEq] at h
          obtain ⟨hk, hp⟩ := h
          subst hk hp
          simp only [SSIndex.addEntries]
          have hcpl : commonPrefixLen ([] : List Nat) k0 = 0 := rfl
          have hb : ¬ p0 / 1024 = ({} : SSIndex).block := by
            show ¬ p0 / 1024 = 0
            have h1 : 1024 / 1024 ≤ p0 / 1024 := Nat.div_le_div_right hp0
            simp at h1
            omega
          have hstep : (SSIndex.maybe_add_entry {} k0 p0).data =
              0 :: k0.length :: (k0 ++ pack_uint p0) := by
            unfold SSIndex.maybe_add_entry
            simp only [hb, if_false]
            simp [hcpl]
          obtain ⟨s2, hs2⟩ :=
            addEntries_data_prefix rest (SSIndex.maybe_add_entry {} k0 p0)
          refine ⟨s2, ?_⟩
          rw [hs2, hstep]
          simp
      · have hskip : SSIndex.maybe_add_entry {} k0 p0 = {} := by
          unfold SSIndex.maybe_add_entry
          have : p0 / 1024 = 0 := Nat.div_eq_of_lt (by omega)
          simp [this]
        have hfind : ((k0, p0) :: rest).find? (fun c => decide (1024 ≤ c.2)) =
            rest.find? (fun c => decide (1024 ≤ c.2)) :=
          List.find?_cons_of_neg _ (by simpa using hp0)
        simp only [SSIndex.addEntries, hskip, hfind]
        exact ih

/-- Claim C9 (witness): a call below 1024 adds nothing, and with a first
entry at offset 2000 the index starts with the full key and packed offset. -/
theorem c9_first_block_no_entry_witness :
    ∃ rest, (SSIndex.addEntries {} [([97], 500), ([98], 2000)]).data =
      0 :: ([98] : List Nat).length :: ([98] ++ pack_uint 2000 ++ rest) :=
  (c9_first_block_no_entry [([97], 500), ([98], 2000)]).2.2 [98] 2000 (by decide)

/-- Claim C3 (counterexample): a valuestats group containing an entry that
decodes to frequency 0 ahead of a positive entry loses the zero entry's
bounds entirely: the emitted record's lower bound is 'm' although the
byte-wise minimum of the two input lower bounds is 'a'; so the claimed
"lower bound is the bytewise minimum of the input lower bounds" fails for
this group. -/
theorem c3_zero_freq_counterexample :
    mergePostlistsRaw none [0, 0]
      [[([0, 208, 7], encode_valuestats 0 [97] [122])],
       [([0, 208, 7], encode_valuestats 1 [109] [109])]] =
      .ok [([0, 208, 7], encode_valuestats 1 [109] [109])] ∧
    decodeValuestats (encode_valuestats 0 [97] [122]) = .ok (0, [97], [122]) ∧
    decodeValuestats (encode_valuestats 1 [109] [109]) =
      .ok (1, [109], [109]) ∧
    minBytes [97] [[109]] = [97] ∧
    ([109] : List Nat) ≠ [97] := by
  refine ⟨by decide, by decide, by decide, by decide, by decide⟩

/-- Claim C10 (counterexample): a valuestats entry decoding to frequency 0
that arrives after a positive entry does not merely overwrite the
accumulator — its bounds are merged and emitted: with inputs (1, m, m) and
then (0, a, z) the output record is (1, a, z), so the claimed "its bounds
only ever overwrite the accumulator without being emitted" is false. -/
theorem c10_zero_bounds_emitted :
    mergePostlistsRaw none [0, 0]
      [[([0, 208, 7], encode_valuestats 1 [109] [109])],
       [([0, 208, 7], encode_valuestats 0 [97] [122])]] =
      .ok [([0, 208, 7], encode_valuestats 1 [97] [122])] ∧
    decodeValuestats (encode_valuestats 0 [97] [122]) = .ok (0, [97], [122]) ∧
    decodeValuestats (encode_valuestats 1 [97] [122]) =
      .ok (1, [97], [122]) := by
  refine ⟨by decide, by decide, by decide⟩

/-- Claim C6 (counterexample): a 'W' key carried by a single source is
copied verbatim without decoding, so an input frequency of 0 raises no
corruption error — `merge_spellings` succeeds and emits the zero tag
unchanged, contradicting the claimed "a decoded frequency of 0 in any
input raises a DatabaseCorrupt error". -/
theorem c6_single_source_zero_freq :
    merge_spellings id [[([87, 120], pack_uint_last 0, false)]] =
      .ok [([87, 120], pack_uint_last 0, false)] ∧
    unpack_uint_last (pack_uint_last 0) = 0 := by
  refine ⟨by decide, by decide⟩

/-- Claim C4: with more than 3 sources and a metadata conflict resolver,
the cascaded merge resolves duplicates pairwise and then resolves the
intermediate results again, while the single-pass merge resolves all
duplicates in one call — with a resolver that reports how many tags it saw,
the two pipelines produce different records for the same inputs (four
sources sharing one user-metadata key).  The FIXME at the resolver call
site acknowledges that multipass mode should merge all duplicates in one
call, and the spec demands byte-for-byte equality, so this is a bug in the
code. -/
theorem c4_multimerge_divergence :
    multimerge_postlists (some c4resolver) c4sources [0, 0, 0, 0] =
      .ok [(c4key, [50])] ∧
    mergePostlistsRaw (some c4resolver) [0, 0, 0, 0] c4sources =
      .ok [(c4key, [52])] ∧
    multimerge_postlists (some c4resolver) c4sources [0, 0, 0, 0] ≠
      mergePostlistsRaw (some c4resolver) [0, 0, 0, 0] c4sources := by
  refine ⟨by decide, by decide, by decide⟩

theorem ltBytes_irrefl : ∀ a : List Nat, ltBytes a a = false := by
  intro a
  induction a with
  | nil => rfl
  | cons x xs ih => simp [ltBytes, ih]

theorem ltBytes_asymm : ∀ a b : List Nat,
    ltBytes a b = true → ltBytes b a = false := by
  intro a
  induction a with
  | nil =>
    intro b h
    match b with
    | [] => simp [ltBytes] at h
    | y :: ys => simp [ltBytes]
  | cons x xs ih =>
    intro b h
    match b with
    | [] => simp [ltBytes] at h
    | y :: ys =>
      rcases Nat.lt_trichotomy x y with hxy | hxy | hxy
      · simp [ltBytes]
        omega
      · subst hxy
        rw [ltBytes_cons_same] at h ⊢
        exact ih ys h
      · exfalso
        simp [ltBytes] at h
        omega

theorem ltBytes_ne : ∀ a b : List Nat, ltBytes a b = true → a ≠ b := by
  intro a b h hcon
  subst hcon
  rw [ltBytes_irrefl] at h
  exact absurd h (by simp)

theorem ltBytes_leBytes_false (a b : List Nat) (h : ltBytes a b = true) :
    leBytes b a = false := by
  have h1 := ltBytes_asymm a b h
  have h2 := ltBytes_ne a b h
  simp only [leBytes, Bool.or_eq_false_iff]
  exact ⟨h1, by simpa [beq_eq_false_iff_ne] using fun hc => h2 hc.symm⟩

theorem commonPrefixLen_le_left : ∀ a b : List Nat,
    commonPrefixLen a b ≤ a.length := by
  intro a
  induction a with
  | nil => intro b; simp [commonPrefixLen]
  | cons x xs ih =>
    intro b
    match b with
    | [] => simp [commonPrefixLen]
    | y :: ys =>
      simp only [commonPrefixLen]
      by_cases h : x = y
      · simp only [h, if_pos rfl, List.length_cons]
        exact Nat.succ_le_succ (ih ys)
      · simp [h]

theorem commonPrefixLen_le_right : ∀ a b : List Nat,
    commonPrefixLen a b ≤ b.length := by
  intro a
  induction a with
  | nil => intro b; simp [commonPrefixLen]
  | cons x xs ih =>
    intro b
    match b with
    | [] => simp [commonPrefixLen]
    | y :: ys =>
      simp only [commonPrefixLen]
      by_cases h : x = y
      · simp only [h, if_pos rfl, List.length_cons]
        exact Nat.succ_le_succ (ih ys)
      · simp [h]

theorem commonPrefixLen_take : ∀ a b : List Nat,
    a.take (commonPrefixLen a b) = b.take (commonPrefixLen a b) := by
  intro a
  induction a with
  | nil => intro b; simp [commonPrefixLen]
  | cons x xs ih =>
    intro b
    match b with
    | [] => simp [commonPrefixLen]
    | y :: ys =>
      by_cases h : x = y
      · subst h
        have hih := ih ys
        simp [commonPrefixLen, hih]
      · simp [commonPrefixLen, h]

theorem unpack_pack_uint : ∀ n rest,
    unpack_uint (pack_uint n ++ rest) = some (n, rest) := by
  intro n
  induction n using Nat.strong_induction_on with
  | _ n ih =>
    intro rest
    rw [pack_uint_eq]
    by_cases h : n < 128
    · simp [unpack_uint, h]
    · have hd : n / 128 < n := Nat.div_lt_self (by omega) (by omega)
      simp only [h, if_false, List.cons_append, unpack_uint]
      have hge : ¬ n % 128 + 128 < 128 := by omega
      simp only [hge, if_false]
      rw [ih (n / 128) hd rest]
      simp only [Option.some.injEq, Prod.mk.injEq]
      exact ⟨by omega, trivial⟩

theorem pack_uint_length_le : ∀ k n, 1 ≤ k → n < 128 ^ k →
    (pack_uint n).length ≤ k := by
  intro k
  induction k with
  | zero => intro n h; omega
  | succ k ih =>
    intro n h1 h2
    rw [pack_uint_eq]
    by_cases h : n < 128
    · simp [h]
    · simp only [h, if_false, List.length_cons]
      have hk : 1 ≤ k := by
        by_contra hk
        have : k = 0 := by omega
        subst this
        simp [pow_succ] at h2
        omega
      have hdiv : n / 128 < 128 ^ k := by
        rw [Nat.div_lt_iff_lt_mul (by omega)]
        calc n < 128 ^ (k + 1) := h2
        _ = 128 ^ k * 128 := by ring
      exact Nat.succ_le_succ (ih (n / 128) hk hdiv)

theorem varintLoop_pack : ∀ n rest fuel, (pack_uint n).length ≤ fuel →
    varintLoop (pack_uint n ++ rest) fuel = (pack_uint n, rest) := by
  intro n
  induction n using Nat.strong_induction_on with
  | _ n ih =>
    intro rest fuel hfuel
    rw [pack_uint_eq] at hfuel ⊢
    by_cases h : n < 128
    · simp only [h, if_true] at hfuel ⊢
      match fuel, hfuel with
      | fuel + 1, _ => simp [varintLoop, h]
    · have hd : n / 128 < n := Nat.div_lt_self (by omega) (by omega)
      simp only [h, if_false, List.length_cons] at hfuel ⊢
      match fuel, hfuel with
      | fuel + 1, hfuel =>
        have hge : ¬ n % 128 + 128 < 128 := by omega
        simp only [List.cons_append, varintLoop, hge, if_false,
          List.append_eq]
        rw [ih (n / 128) hd rest fuel (by omega)]

theorem write1_spec (f : BufferedFile) (ch : Nat) (h : f.oracle = []) :
    (f.write1 ch).content = f.content ++ [ch] ∧
    (f.write1 ch).oracle = [] ∧
    (f.write1 ch).readRem = f.readRem ∧
    (f.write1 ch).read_only = f.read_only := by
  unfold BufferedFile.write1 rawWrite BufferedFile.content
  by_cases hb : f.buf.length = 4096
  · simp [hb, h]
  · simp [hb, h]

theorem writeSlice_spec (f : BufferedFile) (p : List Nat)
    (h : f.oracle = []) :
    (f.writeSlice p).content = f.content ++ p ∧
    (f.writeSlice p).oracle = [] ∧
    (f.writeSlice p).readRem = f.readRem ∧
    (f.writeSlice p).read_only = f.read_only := by
  unfold BufferedFile.writeSlice BufferedFile.writevLoop BufferedFile.content
  by_cases hb : f.buf.length + p.length ≤ 4096
  · simp [hb, h]
  · simp only [hb, if_false]
    rw [h]
    simp [writevLoopAux, h]

theorem flush_spec (f : BufferedFile) (h : f.oracle = [])
    (hro : f.read_only = false) :
    (f.flush).fileBytes = f.content ∧
    (f.flush).buf = [] ∧
    (f.flush).oracle = [] ∧
    (f.flush).readRem = f.readRem ∧
    (f.flush).read_only = f.read_only := by
  unfold BufferedFile.flush rawWrite BufferedFile.content
  by_cases hb : f.buf.isEmpty
  · have : f.buf = [] := by simpa using hb
    simp [hro, hb, h, this]
  · simp [hro, hb, h]

theorem add_spec (t : SSTable) (k v : List Nat) (c : Bool)
    (hro : t.read_only = false) (hfro : t.fh.read_only = false)
    (horacle : t.fh.oracle = [])
    (hlen1 : 1 ≤ k.length) (hlen2 : k.length ≤ 255)
    (hgt : ltBytes t.last_key k = true) :
    ∃ t', t.add k v c = .ok t' ∧
      t'.read_only = false ∧ t'.fh.read_only = false ∧
      t'.fh.oracle = [] ∧ t'.fh.readRem = t.fh.readRem ∧
      t'.fh.content = t.fh.content ++ encRecord t.last_key (k, v, c) ∧
      t'.last_key = k ∧
      t'.index = t.index.maybe_add_entry k
        (t.fh.content.length + headerLen t.last_key k) ∧
      t'.num_entries = t.num_entries + 1 ∧
      t'.root = t.root := by
  have hle : leBytes k t.last_key = false := ltBytes_leBytes_false _ _ hgt
  have h1 : ¬ (t.read_only = true) := by simp [hro]
  have h2 : ¬ ((k.length = 0 || 255 < k.length) = true) := by
    simp only [Bool.or_eq_true, decide_eq_true_eq]
    push_neg
    omega
  have h3 : ¬ (leBytes k t.last_key = true) := by simp [hle]
  unfold SSTable.add
  rw [if_neg h1, if_neg h2, if_neg h3]
  by_cases hlk : t.last_key.isEmpty
  · have hlknil : t.last_key = [] := by simpa using hlk
    rw [if_neg (by simp [hlk])]
    obtain ⟨hc1, ho1, hr1, hb1⟩ := write1_spec t.fh k.length horacle
    obtain ⟨hc2, ho2, hr2, hb2⟩ :=
      writeSlice_spec (t.fh.write1 k.length) k ho1
    set fhc := (t.fh.write1 k.length).writeSlice k with hfhc
    have hgp : fhc.get_pos = t.fh.content.length + headerLen t.last_key k := by
      unfold BufferedFile.get_pos
      rw [if_neg (by rw [hb2, hb1, hfro]; simp)]
      have hlen := congrArg List.length (hc2.trans (congrArg (· ++ k) hc1))
      simp only [BufferedFile.content, List.length_append,
        List.length_cons] at hlen ⊢
      simp [headerLen, hlk, hlen]
      omega
    obtain ⟨hc3, ho3, hr3, hb3⟩ :=
      writeSlice_spec fhc (pack_uint (v.length * 2 + if c then 1 else 0)) ho2
    obtain ⟨hc4, ho4, hr4, hb4⟩ :=
      writeSlice_spec (fhc.writeSlice
        (pack_uint (v.length * 2 + if c then 1 else 0))) v ho3
    refine ⟨_, rfl, hro, ?_, ?_, ?_, ?_, rfl, ?_, rfl, rfl⟩
    · rw [hb4, hb3, hb2, hb1]
      exact hfro
    · rw [ho4]
    · rw [hr4, hr3, hr2, hr1]
    · rw [hc4, hc3, hc2, hc1]
      simp [encRecord, hlk, hlknil]
    · rw [hgp]
  · have hlkne : ¬ t.last_key.isEmpty = true := by simp_all
    rw [if_pos (by simp [hlkne])]
    obtain ⟨hc1, ho1, hr1, hb1⟩ :=
      write1_spec t.fh (commonPrefixLen t.last_key k) horacle
    obtain ⟨hc2, ho2, hr2, hb2⟩ :=
      write1_spec (t.fh.write1 (commonPrefixLen t.last_key k))
        (k.length - commonPrefixLen t.last_key k) ho1
    obtain ⟨hc3, ho3, hr3, hb3⟩ :=
      writeSlice_spec ((t.fh.write1 (commonPrefixLen t.last_key k)).write1
        (k.length - commonPrefixLen t.last_key k))
        (k.drop (commonPrefixLen t.last_key k)) ho2
    set fhc := ((t.fh.write1 (commonPrefixLen t.last_key k)).write1
      (k.length - commonPrefixLen t.last_key k)).writeSlice
      (k.drop (commonPrefixLen t.last_key k)) with hfhc
    have hgp : fhc.get_pos = t.fh.content.length + headerLen t.last_key k := by
      unfold BufferedFile.get_pos
      rw [if_neg (by rw [hb3, hb2, hb1, hfro]; simp)]
      have hlen := congrArg List.length
        (hc3.trans (congrArg (· ++ k.drop (commonPrefixLen t.last_key k))
          (hc2.trans (congrArg
            (· ++ [k.length - commonPrefixLen t.last_key k]) hc1))))
      simp only [BufferedFile.content, List.length_append,
        List.length_cons, List.length_drop, List.length_nil] at hlen ⊢
      simp only [headerLen, hlk, Bool.false_eq_true, if_false]
      omega
    obtain ⟨hc4, ho4, hr4, hb4⟩ :=
      writeSlice_spec fhc (pack_uint (v.length * 2 + if c then 1 else 0)) ho3
    obtain ⟨hc5, ho5, hr5, hb5⟩ :=
      writeSlice_spec (fhc.writeSlice
        (pack_uint (v.length * 2 + if c then 1 else 0))) v ho4
    refine ⟨_, rfl, hro, ?_, ?_, ?_, ?_, rfl, ?_, rfl, rfl⟩
    · rw [hb5, hb4, hb3, hb2, hb1]
      exact hfro
    · rw [ho5]
    · rw [hr5, hr4, hr3, hr2, hr1]
    · rw [hc5, hc4, hc3, hc2, hc1]
      simp [encRecord, hlk]
    · rw [hgp]

theorem addAllItems_spec : ∀ (adds : List Rec3) (t : SSTable),
    t.read_only = false → t.fh.read_only = false → t.fh.oracle = [] →
    (∀ r ∈ adds, 1 ≤ r.1.length ∧ r.1.length ≤ 255) →
    chainLt t.last_key (adds.map (·.1)) = true →
    ∃ t', addAllItems t adds = .ok t' ∧
      t'.read_only = false ∧ t'.fh.read_only = false ∧
      t'.fh.oracle = [] ∧ t'.fh.readRem = t.fh.readRem ∧
      t'.fh.content = t.fh.content ++ encAllFrom t.last_key adds ∧
      (t.index = {} →
        (∀ q ∈ recPtrs t.last_key t.fh.content.length adds, q < 1024) →
        t'.index = {}) := by
  intro adds
  induction adds with
  | nil =>
    intro t hro hfro ho hlen hchain
    exact ⟨t, rfl, hro, hfro, ho, rfl, by simp [encAllFrom], fun h _ => h⟩
  | cons r rest ih =>
    intro t hro hfro ho hlen hchain
    obtain ⟨k, v, c⟩ := r
    simp only [List.map_cons, chainLt, Bool.and_eq_true] at hchain
    obtain ⟨hgt, hchain2⟩ := hchain
    · obtain ⟨t1, hadd, h1ro, h1fro, h1o, h1rr, h1c, h1lk, h1ix, -, -⟩ :=
        add_spec t k v c hro hfro ho
          (hlen (k, v, c) (by simp)).1 (hlen (k, v, c) (by simp)).2 hgt
      obtain ⟨t2, hrec, h2ro, h2fro, h2o, h2rr, h2c, h2ix⟩ :=
        ih t1 h1ro h1fro h1o
          (fun x hx => hlen x (List.mem_cons_of_mem _ hx))
          (by rw [h1lk]; exact hchain2)
      refine ⟨t2, ?_, h2ro, h2fro, h2o, ?_, ?_, ?_⟩
      · simp only [addAllItems, hadd, hrec]
      · rw [h2rr, h1rr]
      · rw [h2c, h1c, h1lk]
        simp [encAllFrom]
      · intro hix hptr
        apply h2ix
        · rw [h1ix, hix]
          have hp0 : t.fh.content.length + headerLen t.last_key k < 1024 :=
            hptr _ (by simp [recPtrs])
          unfold SSIndex.maybe_add_entry
          have : (t.fh.content.length + headerLen t.last_key k) / 1024 = 0 :=
            Nat.div_eq_of_lt hp0
          simp [this]
        · intro q hq
          apply hptr
          simp only [recPtrs, List.mem_cons]
          right
          rw [h1lk] at hq
          have hcl : t1.fh.content.length =
              t.fh.content.length + (encRecord t.last_key (k, v, c)).length := by
            rw [h1c]
            simp
          rw [hcl] at hq
          exact hq

theorem flush_db_spec (t : SSTable) (hro : t.fh.read_only = false)
    (ho : t.fh.oracle = []) (hix : t.index.data = []) :
    (t.flush_db).fh.fileBytes = t.fh.content ∧
    (t.flush_db).fh.buf = [] ∧
    (t.flush_db).fh.read_only = false ∧
    (t.flush_db).root = some t.fh.content.length ∧
    (t.flush_db).read_only = t.read_only ∧
    (t.flush_db).last_key = t.last_key ∧
    (t.flush_db).num_entries = t.num_entries := by
  unfold SSTable.flush_db
  rw [hix]
  obtain ⟨hc1, ho1, hr1, hb1⟩ := writeSlice_spec t.fh [] ho
  simp only [List.append_nil] at hc1
  obtain ⟨hf1, hf2, hf3, hf4, hf5⟩ :=
    flush_spec (t.fh.writeSlice []) ho1 (by rw [hb1]; exact hro)
  refine ⟨?_, ?_, ?_, ?_, rfl, rfl, rfl⟩
  · rw [hf1, hc1]
  · exact hf2
  · rw [hf5, hb1]
    exact hro
  · unfold BufferedFile.get_pos
    rw [if_neg (by rw [hro]; simp)]
    simp [BufferedFile.content]

theorem commit_spec (t : SSTable) (r : Nat) (hroot : t.root = some r) :
    ∃ info, t.commit = .ok
      ({ t with read_only := true, fh := t.fh.rewind, last_key := [] },
       info) := by
  unfold SSTable.commit
  rw [hroot]
  exact ⟨_, rfl⟩

theorem readValAux_spec : ∀ (fuel : Nat) (v R : List Nat)
    (fh : BufferedFile), fh.readRem = v ++ R → v.length ≤ fuel →
    readValAux fuel fh v.length = .ok (v, { fh with readRem := R }) := by
  intro fuel
  induction fuel with
  | zero =>
    intro v R fh hrem hle
    have hv : v = [] := by
      cases v with
      | nil => rfl
      | cons a as => simp at hle
    subst hv
    simp only [List.nil_append] at hrem
    show readValAux 0 fh 0 = _
    rw [show ({ fh with readRem := R } : BufferedFile) = fh from by
      cases fh; simp_all]
    rfl
  | succ f ih =>
    intro v R fh hrem hle
    cases v with
    | nil =>
      simp only [List.nil_append] at hrem
      show readValAux (f + 1) fh 0 = _
      rw [show ({ fh with readRem := R } : BufferedFile) = fh from by
        cases fh; simp_all]
      rfl
    | cons b v' =>
      show readValAux (f + 1) fh (v'.length + 1) = _
      simp only [readValAux]
      have hlenv : (b :: v').length = v'.length + 1 := rfl
      set n := min (v'.length + 1) 4096 with hn
      have hn1 : 1 ≤ n := by omega
      have hnv : n ≤ (b :: v').length := by
        rw [hlenv]; omega
      have hread : fh.readN n =
          (true, (b :: v').take n,
           { fh with readRem := (b :: v').drop n ++ R }) := by
        unfold BufferedFile.readN
        rw [hrem]
        have hle2 : n ≤ ((b :: v') ++ R).length := by
          simp only [List.length_append]
          omega
        rw [if_pos hle2]
        rw [List.take_append_of_le_length hnv,
          List.drop_append_of_le_length hnv]
      rw [hread]
      simp only [if_pos rfl]
      have hdroplen : v'.length + 1 - n = ((b :: v').drop n).length := by
        rw [List.length_drop]
        rfl
      rw [hdroplen,
        ih ((b :: v').drop n) R { fh with readRem := (b :: v').drop n ++ R }
          rfl (by rw [List.length_drop]; omega)]
      simp [List.take_append_drop]

theorem read_item_spec (t : SSTable) (k v R : List Nat) (c : Bool)
    (hro : t.read_only = true)
    (hrem : t.fh.readRem = encRecord t.last_key (k, v, c) ++ R)
    (hval : (pack_uint (v.length * 2 + if c then 1 else 0)).length ≤ 8) :
    t.read_item = .ok (some (k, v, c),
      { t with fh := { t.fh with readRem := R }, last_key := k }) := by
  obtain ⟨ro, fh, lk, ix, rt, ne⟩ := t
  obtain ⟨fb, bf, rr, fro, orc⟩ := fh
  dsimp only at hro hrem hval ⊢
  subst hro
  cases c with
  | false =>
    have hmod : (v.length * 2) % 2 = 0 := by omega
    have hdiv : (v.length * 2) / 2 = v.length := by omega
    have hvl : varintLoop (pack_uint (v.length * 2) ++ (v ++ R)) 8 =
        (pack_uint (v.length * 2), v ++ R) :=
      varintLoop_pack _ _ 8 (by simpa using hval)
    have hunp : unpack_uint (pack_uint (v.length * 2)) =
        some (v.length * 2, []) := by
      simpa using unpack_pack_uint (v.length * 2) []
    have hrv : readValLoop
        ({ fileBytes := fb, buf := bf, readRem := v ++ R,
           read_only := fro, oracle := orc } : BufferedFile) v.length =
        .ok (v, { fileBytes := fb, buf := bf, readRem := R,
                  read_only := fro, oracle := orc }) :=
      readValAux_spec v.length v R _ rfl (Nat.le_refl _)
    cases lk with
    | nil =>
      subst hrem
      simp [SSTable.read_item, BufferedFile.read1, BufferedFile.readN,
        encRecord, hvl, hunp, hrv, hmod, hdiv]
    | cons x lk2 =>
      have hdl : (k.drop (commonPrefixLen (x :: lk2) k)).length =
          k.length - commonPrefixLen (x :: lk2) k := List.length_drop _ _
      have htake : (k.drop (commonPrefixLen (x :: lk2) k) ++
          (pack_uint (v.length * 2) ++ (v ++ R))).take
            (k.length - commonPrefixLen (x :: lk2) k) =
          k.drop (commonPrefixLen (x :: lk2) k) := by
        rw [← hdl]
        simp
      have hdrop : (k.drop (commonPrefixLen (x :: lk2) k) ++
          (pack_uint (v.length * 2) ++ (v ++ R))).drop
            (k.length - commonPrefixLen (x :: lk2) k) =
          pack_uint (v.length * 2) ++ (v ++ R) := by
        rw [← hdl]
        simp
      have hcle : k.length - commonPrefixLen (x :: lk2) k ≤
          (k.drop (commonPrefixLen (x :: lk2) k) ++
           (pack_uint (v.length * 2) ++ (v ++ R))).length := by
        rw [← hdl]
        simp
      have hkey : (x :: lk2).take (commonPrefixLen (x :: lk2) k) ++
          k.drop (commonPrefixLen (x :: lk2) k) = k := by
        rw [commonPrefixLen_take]
        exact List.take_append_drop _ _
      subst hrem
      simp [SSTable.read_item, BufferedFile.read1, BufferedFile.readN,
        encRecord, hvl, hunp, hrv, hmod, hdiv, htake, hdrop, hcle, hkey]
  | true =>
    have hmod : (v.length * 2 + 1) % 2 = 1 := by omega
    have hdiv : (v.length * 2 + 1) / 2 = v.length := by omega
    have hvl : varintLoop (pack_uint (v.length * 2 + 1) ++ (v ++ R)) 8 =
        (pack_uint (v.length * 2 + 1), v ++ R) :=
      varintLoop_pack _ _ 8 (by simpa using hval)
    have hunp : unpack_uint (pack_uint (v.length * 2 + 1)) =
        some (v.length * 2 + 1, []) := by
      simpa using unpack_pack_uint (v.length * 2 + 1) []
    have hrv : readValLoop
        ({ fileBytes := fb, buf := bf, readRem := v ++ R,
           read_only := fro, oracle := orc } : BufferedFile) v.length =
        .ok (v, { fileBytes := fb, buf := bf, readRem := R,
                  read_only := fro, oracle := orc }) :=
      readValAux_spec v.length v R _ rfl (Nat.le_refl _)
    cases lk with
    | nil =>
      subst hrem
      simp [SSTable.read_item, BufferedFile.read1, BufferedFile.readN,
        encRecord, hvl, hunp, hrv, hmod, hdiv]
    | cons x lk2 =>
      have hdl : (k.drop (commonPrefixLen (x :: lk2) k)).length =
          k.length - commonPrefixLen (x :: lk2) k := List.length_drop _ _
      have htake : (k.drop (commonPrefixLen (x :: lk2) k) ++
          (pack_uint (v.length * 2 + 1) ++ (v ++ R))).take
            (k.length - commonPrefixLen (x :: lk2) k) =
          k.drop (commonPrefixLen (x :: lk2) k) := by
        rw [← hdl]
        simp
      have hdrop : (k.drop (commonPrefixLen (x :: lk2) k) ++
          (pack_uint (v.length * 2 + 1) ++ (v ++ R))).drop
            (k.length - commonPrefixLen (x :: lk2) k) =
          pack_uint (v.length * 2 + 1) ++ (v ++ R) := by
        rw [← hdl]
        simp
      have hcle : k.length - commonPrefixLen (x :: lk2) k ≤
          (k.drop (commonPrefixLen (x :: lk2) k) ++
           (pack_uint (v.length * 2 + 1) ++ (v ++ R))).length := by
        rw [← hdl]
        simp
      have hkey : (x :: lk2).take (commonPrefixLen (x :: lk2) k) ++
          k.drop (commonPrefixLen (x :: lk2) k) = k := by
        rw [commonPrefixLen_take]
        exact List.take_append_drop _ _
      subst hrem
      simp [SSTable.read_item, BufferedFile.read1, BufferedFile.readN,
        encRecord, hvl, hunp, hrv, hmod, hdiv, htake, hdrop, hcle, hkey]

theorem readItems_succ (t : SSTable) (fuel : Nat) :
    readItems t (fuel + 1) =
      match t.read_item with
      | .error e => .error e
      | .ok (none, t2) => .ok ([], t2)
      | .ok (some r, t2) =>
        match readItems t2 fuel with
        | .error e => .error e
        | .ok (rs, t3) => .ok (r :: rs, t3) := rfl

theorem readItems_spec : ∀ (adds : List Rec3) (t : SSTable),
    t.read_only = true →
    t.fh.readRem = encAllFrom t.last_key adds →
    (∀ r ∈ adds,
      (pack_uint (r.2.1.length * 2 + if r.2.2 then 1 else 0)).length ≤ 8) →
    ∃ t', readItems t (adds.length + 1) = .ok (adds, t') := by
  intro adds
  induction adds with
  | nil =>
    intro t hro hrem hval
    simp only [encAllFrom] at hrem
    have h1 : t.read_item = .ok (none, { t with fh := t.fh }) := by
      unfold SSTable.read_item
      rw [if_neg (by rw [hro]; simp)]
      unfold BufferedFile.read1
      rw [hrem]
    refine ⟨{ t with fh := t.fh }, ?_⟩
    simp only [List.length_nil, readItems, h1]
  | cons r rest ih =>
    intro t hro hrem hval
    obtain ⟨k, v, c⟩ := r
    simp only [encAllFrom, List.append_assoc] at hrem
    have h1 := read_item_spec t k v (encAllFrom k rest) c hro
      (by simp [hrem])
      (hval (k, v, c) (by simp))
    set tnext : SSTable := { t with fh := { t.fh with readRem := encAllFrom k rest }, last_key := k } with htnext
    obtain ⟨t3, h3⟩ := ih tnext hro rfl
      (fun x hx => hval x (List.mem_cons_of_mem _ hx))
    refine ⟨t3, ?_⟩
    simp only [List.length_cons]
    rw [readItems_succ, h1]
    simp only [h3]

/-- Claim C2 (amended): for every sequence of add calls with strictly
increasing keys of length 1..255, values small enough for the 8-byte varint
reader, and post-header offsets all below 1024 (so the sparse index block
stays empty), flushing, committing and re-reading returns exactly the
written triples in order, with the following `read_item` returning false
(the fuel `adds.length + 1` means exactly one final false return). -/
theorem c2_roundtrip_amended (adds : List Rec3)
    (hchain : chainLt [] (adds.map (·.1)) = true)
    (hlen : ∀ r ∈ adds, 1 ≤ r.1.length ∧ r.1.length ≤ 255)
    (hval : ∀ r ∈ adds, r.2.1.length * 2 + 1 < 128 ^ 8)
    (hptr : ∀ q ∈ recPtrs [] 0 adds, q < 1024) :
    c2readBack adds (adds.length + 1) = .ok adds := by
  obtain ⟨t1, hadd, h1ro, h1fro, h1o, h1rr, h1c, h1ix⟩ :=
    addAllItems_spec adds newSSTable rfl rfl rfl hlen hchain
  have hcnil : (newSSTable.fh.content) = [] := rfl
  have hix : t1.index = {} := by
    apply h1ix rfl
    intro q hq
    apply hptr
    simpa [hcnil] using hq
  obtain ⟨hf1, hf2, hf3, hf4, hf5, hf6, hf7⟩ :=
    flush_db_spec t1 h1fro h1o (by rw [hix])
  obtain ⟨info, hcommit⟩ := commit_spec t1.flush_db _ hf4
  have hc1 : t1.fh.content = encAllFrom [] adds := by
    rw [h1c]
    rfl
  have hrem : (t1.flush_db.fh.rewind).readRem = encAllFrom [] adds := by
    unfold BufferedFile.rewind
    rw [hf1, hc1]
  obtain ⟨t4, hread⟩ := readItems_spec adds
    { t1.flush_db with read_only := true, fh := t1.flush_db.fh.rewind,
                       last_key := [] }
    rfl hrem
    (by
      intro r hr
      apply pack_uint_length_le 8 _ (by omega)
      have h2 := hval r hr
      cases hc : r.2.2
      · simp only [hc, Bool.false_eq_true, if_false]
        omega
      · simp only [hc, if_true]
        omega)
  simp only [c2readBack, hadd, hcommit, hread]

/-- Claim C2 (witness): the amended round trip at a concrete three-record
add sequence (with a compressed record among them). -/
theorem c2_roundtrip_amended_witness :
    chainLt []
      (([([97], [5, 6], false), ([97, 98], [], true),
         ([99], [7], false)] : List Rec3).map (·.1)) = true ∧
    c2readBack [([97], [5, 6], false), ([97, 98], [], true),
      ([99], [7], false)] 4 =
      .ok [([97], [5, 6], false), ([97, 98], [], true),
        ([99], [7], false)] :=
  ⟨by decide,
   c2_roundtrip_amended _ (by decide) (by decide) (by decide) (by decide)⟩

theorem ltBytes_trans : ∀ a b c : List Nat,
    ltBytes a b = true → ltBytes b c = true → ltBytes a c = true := by
  intro a
  induction a with
  | nil =>
    intro b c h1 h2
    match b, c with
    | [], _ => simp [ltBytes] at h1
    | _ :: _, [] => simp [ltBytes] at h2
    | _ :: _, _ :: _ => simp [ltBytes]
  | cons x xs ih =>
    intro b c h1 h2
    match b, c with
    | [], _ => simp [ltBytes] at h1
    | _ :: _, [] => simp [ltBytes] at h2
    | y :: ys, z :: zs =>
      rcases Nat.lt_trichotomy x y with hxy | hxy | hxy
      · rcases Nat.lt_trichotomy y z with hyz | hyz | hyz
        · simp [ltBytes]
          omega
        · subst hyz
          simp [ltBytes, hxy]
        · exfalso
          simp [ltBytes, hyz] at h2
          omega
      · subst hxy
        rw [ltBytes_cons_same] at h1
        rcases Nat.lt_trichotomy x z with hyz | hyz | hyz
        · simp [ltBytes, hyz]
        · subst hyz
          rw [ltBytes_cons_same] at h2 ⊢
          exact ih ys zs h1 h2
        · exfalso
          simp [ltBytes, hyz] at h2
          omega
      · exfalso
        simp [ltBytes, hxy] at h1
        omega

theorem ltBytes_total (a b : List Nat) (h1 : ltBytes a b = false)
    (h2 : a ≠ b) : ltBytes b a = true := by
  apply leBytes_false_lt
  simp only [leBytes, Bool.or_eq_false_iff]
  exact ⟨h1, by simpa [beq_eq_false_iff_ne] using h2⟩

theorem plLt_trans : ∀ a b c : PLEntry,
    plLt a b = true → plLt b c = true → plLt a c = true := by
  intro a b c h1 h2
  simp only [plLt, Bool.or_eq_true, Bool.and_eq_true, beq_iff_eq,
    Nat.blt_eq] at h1 h2 ⊢
  rcases h1 with h1 | ⟨h1e, h1f⟩
  · rcases h2 with h2 | ⟨h2e, h2f⟩
    · exact Or.inl (ltBytes_trans _ _ _ h1 h2)
    · rw [h2e] at h1
      exact Or.inl h1
  · rcases h2 with h2 | ⟨h2e, h2f⟩
    · rw [h1e]
      exact Or.inl h2
    · exact Or.inr ⟨h1e.trans h2e, Nat.lt_trans h1f h2f⟩

theorem plLt_asymm : ∀ a b : PLEntry,
    plLt a b = true → plLt b a = false := by
  intro a b h
  simp only [plLt, Bool.or_eq_true, Bool.and_eq_true, beq_iff_eq,
    Nat.blt_eq] at h
  simp only [plLt, Bool.or_eq_false_iff, Bool.and_eq_false_iff]
  rcases h with h | ⟨he, hf⟩
  · refine ⟨ltBytes_asymm _ _ h, Or.inl ?_⟩
    have := ltBytes_ne _ _ h
    simpa [beq_eq_false_iff_ne] using fun hc => this hc.symm
  · refine ⟨?_, Or.inr ?_⟩
    · rw [he, ltBytes_irrefl]
    · have hnb : ¬ b.firstdid < a.firstdid := Nat.not_lt.mpr (Nat.le_of_lt hf)
      simpa [Bool.eq_false_iff, Nat.blt_eq] using hnb

theorem pickMin_none {α : Type} (lt : α → α → Bool) :
    ∀ ss : List (List α), pickMin lt ss = none → ∀ l ∈ ss, l = [] := by
  intro ss
  induction ss with
  | nil => intro h l hl; simp at hl
  | cons s rest ih =>
    intro h l hl
    match s, hl with
    | [], hl =>
      simp only [pickMin] at h
      match hrec : pickMin lt rest with
      | none =>
        rcases List.mem_cons.mp hl with h1 | h1
        · exact h1
        · exact ih (by rw [hrec]) l h1
      | some r =>
        rw [hrec] at h
        simp at h
    | x :: xs, hl =>
      exfalso
      simp only [pickMin] at h
      match hrec : pickMin lt rest with
      | none => rw [hrec] at h; simp at h
      | some (b, h2, t2, a) =>
        rw [hrec] at h
        by_cases hc : lt h2 x <;> simp [hc] at h

theorem pickMin_min {α : Type} (lt : α → α → Bool)
    (hasymm : ∀ a b, lt a b = true → lt b a = false)
    (hnegtrans : ∀ a b c, lt a b = false → lt b c = false → lt a c = false) :
    ∀ (ss : List (List α)) b hd tl a,
      pickMin lt ss = some (b, hd, tl, a) →
      ∀ x xs, (x :: xs) ∈ ss → lt x hd = false := by
  have hirr : ∀ a, lt a a = false := by
    intro a
    by_cases h : lt a a
    · have h2 := hasymm a a h
      rw [h] at h2
      exact absurd h2 (by simp)
    · simpa using h
  intro ss
  induction ss with
  | nil => intro b hd tl a h; simp [pickMin] at h
  | cons s rest ih =>
    intro b hd tl a h x xs hmem
    match s with
    | [] =>
      simp only [pickMin] at h
      match hrec : pickMin lt rest with
      | none => rw [hrec] at h; simp at h
      | some (b2, h2, t2, a2) =>
        rw [hrec] at h
        simp at h
        obtain ⟨hb, hh, ht, ha⟩ := h
        subst hh
        rcases List.mem_cons.mp hmem with h1 | h1
        · exact absurd h1 (by simp)
        · exact ih _ _ _ _ hrec x xs h1
    | y :: ys =>
      simp only [pickMin] at h
      match hrec : pickMin lt rest with
      | none =>
        rw [hrec] at h
        simp at h
        obtain ⟨hb, hh, ht, ha⟩ := h
        subst hh
        rcases List.mem_cons.mp hmem with h1 | h1
        · obtain ⟨hx, -⟩ := List.cons_eq_cons.mp h1
          subst hx
          exact hirr _
        · have := pickMin_none lt rest hrec _ h1
          exact absurd this (by simp)
      | some (b2, h2, t2, a2) =>
        rw [hrec] at h
        by_cases hc : lt h2 y
        · simp [hc] at h
          obtain ⟨hb, hh, ht, ha⟩ := h
          subst hh
          rcases List.mem_cons.mp hmem with h1 | h1
          · obtain ⟨hx, -⟩ := List.cons_eq_cons.mp h1
            subst hx
            exact hasymm _ _ hc
          · exact ih _ _ _ _ hrec x xs h1
        · simp [hc] at h
          obtain ⟨hb, hh, ht, ha⟩ := h
          subst hh
          rcases List.mem_cons.mp hmem with h1 | h1
          · obtain ⟨hx, -⟩ := List.cons_eq_cons.mp h1
            subst hx
            exact hirr _
          · have hxh2 := ih _ _ _ _ hrec x xs h1
            exact hnegtrans x h2 y hxh2 (by simpa using hc)

theorem pickMin_first {α : Type} (lt : α → α → Bool) :
    ∀ (ss : List (List α)) b hd tl a,
      pickMin lt ss = some (b, hd, tl, a) →
      ∀ x xs, (x :: xs) ∈ b → lt hd x = true := by
  intro ss
  induction ss with
  | nil => intro b hd tl a h; simp [pickMin] at h
  | cons s rest ih =>
    intro b hd tl a h x xs hmem
    match s with
    | [] =>
      simp only [pickMin] at h
      match hrec : pickMin lt rest with
      | none => rw [hrec] at h; simp at h
      | some (b2, h2, t2, a2) =>
        rw [hrec] at h
        simp at h
        obtain ⟨hb, hh, ht, ha⟩ := h
        subst hb hh
        rcases List.mem_cons.mp hmem with h1 | h1
        · exact absurd h1 (by simp)
        · exact ih _ _ _ _ hrec x xs h1
    | y :: ys =>
      simp only [pickMin] at h
      match hrec : pickMin lt rest with
      | none =>
        rw [hrec] at h
        simp at h
        obtain ⟨hb, hh, ht, ha⟩ := h
        subst hb
        exact absurd hmem (by simp)
      | some (b2, h2, t2, a2) =>
        rw [hrec] at h
        by_cases hc : lt h2 y
        · simp [hc] at h
          obtain ⟨hb, hh, ht, ha⟩ := h
          subst hb hh
          rcases List.mem_cons.mp hmem with h1 | h1
          · obtain ⟨hx, -⟩ := List.cons_eq_cons.mp h1
            subst hx
            exact hc
          · exact ih _ _ _ _ hrec x xs h1
        · simp [hc] at h
          obtain ⟨hb, hh, ht, ha⟩ := h
          subst hb
          exact absurd hmem (by simp)

/-- Claim C2 (counterexample): two records whose total size passes the
first index block make `flush_db` append a non-empty sparse index after the
data; the re-read does not stop there but parses the index bytes as a
record and fails, instead of returning the two written triples and then
false. -/
theorem c2_reread_counterexample :
    c2readBack c2bigAdds (c2bigAdds.length + 1) = .error XErr.databaseError ∧
    c2readBack c2bigAdds (c2bigAdds.length + 1) ≠ .ok c2bigAdds ∧
    (match addAllItems newSSTable c2bigAdds with
     | .ok t1 => t1.index.data
     | .error _ => []) ≠ [] := by
  refine ⟨by decide, by decide, by decide⟩

theorem chainB_tail {α : Type} (lt : α → α → Bool) (a : α) (l : List α)
    (h : chainB lt (a :: l) = true) : chainB lt l = true := by
  match l with
  | [] => rfl
  | b :: rest =>
    simp only [chainB, Bool.and_eq_true] at h
    exact h.2

theorem chainB_head {α : Type} (lt : α → α → Bool)
    (htrans : ∀ a b c, lt a b = true → lt b c = true → lt a c = true) :
    ∀ (l : List α) (a : α), chainB lt (a :: l) = true →
      ∀ x ∈ l, lt a x = true := by
  intro l
  induction l with
  | nil => intro a h x hx; simp at hx
  | cons b rest ih =>
    intro a h x hx
    simp only [chainB, Bool.and_eq_true] at h
    rcases List.mem_cons.mp hx with h1 | h1
    · subst h1; exact h.1
    · exact htrans a b x h.1 (ih b h.2 x h1)

theorem exCat_ok_nil {α : Type} (x : Except XErr (List α)) :
    exCat x (.ok []) = x := by
  cases x with
  | error e => rfl
  | ok a => simp [exCat]

theorem exCat_assoc {α : Type} (a b c : Except XErr (List α)) :
    exCat (exCat a b) c = exCat a (exCat b c) := by
  cases a with
  | error e => rfl
  | ok la =>
    cases b with
    | error e => rfl
    | ok lb =>
      cases c with
      | error e => rfl
      | ok lc => simp [exCat]

theorem spanKey_append {α : Type} (keyOf : α → List Nat) (k : List Nat) :
    ∀ l : List α, (spanKey keyOf k l).1 ++ (spanKey keyOf k l).2 = l := by
  intro l
  induction l with
  | nil => rfl
  | cons e rest ih =>
    by_cases h : keyOf e = k
    · simp only [spanKey, if_pos h, List.cons_append, List.cons.injEq, true_and]
      exact ih
    · simp [spanKey, h]

theorem spanKey_fst_keys {α : Type} (keyOf : α → List Nat) (k : List Nat) :
    ∀ l : List α, ∀ x ∈ (spanKey keyOf k l).1, keyOf x = k := by
  intro l
  induction l with
  | nil => intro x hx; simp [spanKey] at hx
  | cons e rest ih =>
    intro x hx
    by_cases h : keyOf e = k
    · simp only [spanKey, if_pos h] at hx
      rcases List.mem_cons.mp hx with h1 | h1
      · subst h1; exact h
      · exact ih x h1
    · simp [spanKey, h] at hx

theorem spanKey_snd_ne {α : Type} (keyOf : α → List Nat) (k : List Nat) :
    ∀ (l : List α) y ys, (spanKey keyOf k l).2 = y :: ys → keyOf y ≠ k := by
  intro l
  induction l with
  | nil => intro y ys h; simp [spanKey] at h
  | cons e rest ih =>
    intro y ys h
    by_cases he : keyOf e = k
    · simp only [spanKey, if_pos he] at h
      exact ih y ys h
    · simp only [spanKey, if_neg he] at h
      obtain ⟨h1, -⟩ := List.cons_eq_cons.mp h
      subst h1
      exact he

theorem spanKey_stop {α : Type} (keyOf : α → List Nat) (k : List Nat) :
    ∀ (l1 l2 : List α), (∀ x ∈ l1, keyOf x = k) →
      (∀ y ys, l2 = y :: ys → keyOf y ≠ k) →
      spanKey keyOf k (l1 ++ l2) = (l1, l2) := by
  intro l1
  induction l1 with
  | nil =>
    intro l2 h1 h2
    match l2 with
    | [] => rfl
    | y :: ys =>
      have := h2 y ys rfl
      simp [spanKey, this]
  | cons x xs ih =>
    intro l2 h1 h2
    have hx : keyOf x = k := h1 x (by simp)
    simp only [List.cons_append, spanKey, if_pos hx, List.append_eq,
      ih l2 (fun a ha => h1 a (by simp [ha])) h2]

theorem spanKey_snd_sublist {α : Type} (keyOf : α → List Nat) (k : List Nat)
    (l : List α) : (spanKey keyOf k l).2.Sublist l := by
  conv_rhs => rw [← spanKey_append keyOf k l]
  exact List.sublist_append_right _ _

theorem spanKey_snd_keys_gt {α : Type} (keyOf : α → List Nat) (e : α)
    (rest : List α)
    (hs : (e :: rest).Pairwise
      (fun a b => ltBytes (keyOf b) (keyOf a) = false)) :
    ∀ y ∈ (spanKey keyOf (keyOf e) rest).2,
      ltBytes (keyOf e) (keyOf y) = true := by
  intro y hy
  rcases List.pairwise_cons.mp hs with ⟨hhead, hrest⟩
  match hsnd : (spanKey keyOf (keyOf e) rest).2 with
  | [] => rw [hsnd] at hy; simp at hy
  | y0 :: ys =>
    rw [hsnd] at hy
    have hy0ne : keyOf y0 ≠ keyOf e := spanKey_snd_ne keyOf _ rest y0 ys hsnd
    have hsub : (y0 :: ys).Sublist rest := by
      rw [← hsnd]; exact spanKey_snd_sublist keyOf _ rest
    have hy0mem : y0 ∈ rest := hsub.mem (by simp)
    have hy0gt : ltBytes (keyOf e) (keyOf y0) = true :=
      ltBytes_total _ _ (hhead y0 hy0mem) hy0ne
    rcases List.mem_cons.mp hy with h1 | h1
    · subst h1; exact hy0gt
    · have hymem : y ∈ rest := hsub.mem (by simp [h1])
      have hpw : (y0 :: ys).Pairwise
          (fun a b => ltBytes (keyOf b) (keyOf a) = false) :=
        hrest.sublist hsub
      have hyy0 : ltBytes (keyOf y) (keyOf y0) = false :=
        (List.pairwise_cons.mp hpw).1 y h1
      by_cases hc : ltBytes (keyOf e) (keyOf y)
      · exact hc
      · exfalso
        have hyne : keyOf y ≠ keyOf e := by
          intro hk
          rw [hk] at hyy0
          rw [hyy0] at hy0gt
          exact absurd hy0gt (by simp)
        have := ltBytes_total _ _ (hhead y hymem) hyne
        exact absurd this (by simpa using hc)

theorem keyRunsAux_flatten {α : Type} (keyOf : α → List Nat) :
    ∀ (fuel : Nat) (l : List α), l.length ≤ fuel →
      ((keyRunsAux keyOf fuel l).map Prod.snd).flatten = l := by
  intro fuel
  induction fuel with
  | zero =>
    intro l h
    match l with
    | [] => rfl
    | _ :: _ => simp at h
  | succ f ih =>
    intro l h
    match l with
    | [] => rfl
    | e :: rest =>
      simp only [keyRunsAux, List.map_cons, List.flatten_cons]
      have hlen : (spanKey keyOf (keyOf e) rest).2.length ≤ f := by
        have := spanKey_rest_length_le keyOf (keyOf e) rest
        simp only [List.length_cons] at h
        omega
      rw [ih _ hlen]
      simp only [List.cons_append, List.cons.injEq, true_and]
      exact spanKey_append keyOf (keyOf e) rest

theorem keyRunsAux_runs {α : Type} (keyOf : α → List Nat) :
    ∀ (fuel : Nat) (l : List α) g, g ∈ keyRunsAux keyOf fuel l →
      g.2 ≠ [] ∧ ∀ e ∈ g.2, keyOf e = g.1 := by
  intro fuel
  induction fuel with
  | zero => intro l g hg; cases l <;> simp [keyRunsAux] at hg
  | succ f ih =>
    intro l g hg
    match l with
    | [] => simp [keyRunsAux] at hg
    | e :: rest =>
      simp only [keyRunsAux, List.mem_cons] at hg
      rcases hg with hg | hg
      · subst hg
        refine ⟨by simp, ?_⟩
        intro x hx
        rcases List.mem_cons.mp hx with h1 | h1
        · subst h1; rfl
        · exact spanKey_fst_keys keyOf _ rest x h1
      · exact ih _ g hg

theorem keyRunsAux_keys_mem {α : Type} (keyOf : α → List Nat) :
    ∀ (fuel : Nat) (l : List α) g, g ∈ keyRunsAux keyOf fuel l →
      ∃ e ∈ l, keyOf e = g.1 := by
  intro fuel
  induction fuel with
  | zero => intro l g hg; cases l <;> simp [keyRunsAux] at hg
  | succ f ih =>
    intro l g hg
    match l with
    | [] => simp [keyRunsAux] at hg
    | e :: rest =>
      simp only [keyRunsAux, List.mem_cons] at hg
      rcases hg with hg | hg
      · exact ⟨e, by simp, by rw [hg]⟩
      · obtain ⟨x, hx, hk⟩ := ih _ g hg
        have : x ∈ rest := (spanKey_snd_sublist keyOf (keyOf e) rest).mem hx
        exact ⟨x, by simp [this], hk⟩

theorem keyRunsAux_pairwise_lt {α : Type} (keyOf : α → List Nat) :
    ∀ (fuel : Nat) (l : List α), l.length ≤ fuel →
      l.Pairwise (fun a b => ltBytes (keyOf b) (keyOf a) = false) →
      (keyRunsAux keyOf fuel l).Pairwise
        (fun g1 g2 => ltBytes g1.1 g2.1 = true) := by
  intro fuel
  induction fuel with
  | zero => intro l h hs; cases l <;> simp [keyRunsAux]
  | succ f ih =>
    intro l h hs
    match l with
    | [] => simp [keyRunsAux]
    | e :: rest =>
      simp only [keyRunsAux]
      have hlen : (spanKey keyOf (keyOf e) rest).2.length ≤ f := by
        have := spanKey_rest_length_le keyOf (keyOf e) rest
        simp only [List.length_cons] at h
        omega
      have hsub : (spanKey keyOf (keyOf e) rest).2.Sublist (e :: rest) :=
        (spanKey_snd_sublist keyOf (keyOf e) rest).trans (by simp)
      refine List.Pairwise.cons ?_ (ih _ hlen (hs.sublist hsub))
      intro g hg
      obtain ⟨x, hx, hk⟩ := keyRunsAux_keys_mem keyOf f _ g hg
      rw [← hk]
      exact spanKey_snd_keys_gt keyOf e rest hs x hx

theorem keyRunsAux_nodup {α : Type} (keyOf : α → List Nat)
    (fuel : Nat) (l : List α) (h : l.length ≤ fuel)
    (hs : l.Pairwise (fun a b => ltBytes (keyOf b) (keyOf a) = false)) :
    ((keyRunsAux keyOf fuel l).map Prod.fst).Nodup := by
  have hp := keyRunsAux_pairwise_lt keyOf fuel l h hs
  refine (List.pairwise_map).mpr ?_
  exact hp.imp (fun {a b} hab => ltBytes_ne _ _ hab)

theorem ltBytes_false_asymm_eq (a b : List Nat)
    (h1 : ltBytes a b = false) (h2 : ltBytes b a = false) : a = b := by
  by_contra hne
  have := ltBytes_total a b h1 hne
  rw [this] at h2
  exact absurd h2 (by simp)

theorem ltBytes_negtrans (a b c : List Nat)
    (h1 : ltBytes a b = false) (h2 : ltBytes b c = false) :
    ltBytes a c = false := by
  by_cases hac : ltBytes a c
  · exfalso
    by_cases hab : a = b
    · subst hab
      rw [hac] at h2
      exact absurd h2 (by simp)
    · have hba : ltBytes b a = true := ltBytes_total a b h1 hab
      have : ltBytes b c = true := ltBytes_trans b a c hba hac
      rw [this] at h2
      exact absurd h2 (by simp)
  · simpa using hac

theorem natBlt_false (x y : Nat) (h : Nat.blt x y = false) : y ≤ x := by
  by_cases hc : x < y
  · have hb : Nat.blt x y = true := by simpa [Nat.blt_eq] using hc
    rw [hb] at h
    exact absurd h (by simp)
  · omega

theorem natBlt_false_of_le (x y : Nat) (h : y ≤ x) : Nat.blt x y = false := by
  by_cases hb : Nat.blt x y
  · have : x < y := by simpa [Nat.blt_eq] using hb
    omega
  · exact Bool.eq_false_iff.mpr hb

theorem plLt_negtrans (a b c : PLEntry)
    (h1 : plLt a b = false) (h2 : plLt b c = false) : plLt a c = false := by
  simp only [plLt, Bool.or_eq_false_iff, Bool.and_eq_false_iff] at h1 h2 ⊢
  obtain ⟨h1k, h1f⟩ := h1
  obtain ⟨h2k, h2f⟩ := h2
  refine ⟨ltBytes_negtrans _ _ _ h1k h2k, ?_⟩
  by_cases hac : a.key = c.key
  · have hba : ltBytes b.key a.key = false := by rw [hac]; exact h2k
    have hab : a.key = b.key := ltBytes_false_asymm_eq _ _ h1k hba
    have hbc : b.key = c.key := hab.symm.trans hac
    have hfab : b.firstdid ≤ a.firstdid := by
      rcases h1f with h | h
      · exact absurd h (by simp [hab])
      · exact natBlt_false _ _ h
    have hfbc : c.firstdid ≤ b.firstdid := by
      rcases h2f with h | h
      · exact absurd h (by simp [hbc])
      · exact natBlt_false _ _ h
    exact Or.inr (natBlt_false_of_le _ _ (le_trans hfbc hfab))
  · exact Or.inl (by simpa [beq_eq_false_iff_ne] using hac)

theorem spellLt_trans (a b c : Rec3) (h1 : spellLt a b = true)
    (h2 : spellLt b c = true) : spellLt a c = true :=
  ltBytes_trans _ _ _ h1 h2

theorem spellLt_asymm (a b : Rec3) (h : spellLt a b = true) :
    spellLt b a = false :=
  ltBytes_asymm _ _ h

theorem spellLt_negtrans (a b c : Rec3) (h1 : spellLt a b = false)
    (h2 : spellLt b c = false) : spellLt a c = false :=
  ltBytes_negtrans _ _ _ h1 h2

theorem kMergeAux_perm {α : Type} (lt : α → α → Bool) :
    ∀ (fuel : Nat) (ss : List (List α)),
      (ss.map List.length).sum ≤ fuel →
      List.Perm (kMergeAux lt fuel ss) ss.flatten := by
  intro fuel
  induction fuel with
  | zero =>
    intro ss h
    have hlen : ss.flatten.length = 0 := by
      rw [List.length_flatten]
      omega
    rw [List.eq_nil_of_length_eq_zero hlen]
    exact List.Perm.refl _
  | succ f ih =>
    intro ss h
    simp only [kMergeAux]
    match hp : pickMin lt ss with
    | none =>
      have hall := pickMin_none lt ss hp
      have : ss.flatten = [] := List.flatten_eq_nil_iff.mpr hall
      rw [this]
    | some (b, hd, tl, a) =>
      have hdec := pickMin_decomp lt ss b hd tl a hp
      subst hdec
      have hsum : ((b ++ tl :: a).map List.length).sum ≤ f := by
        simp only [List.map_append, List.sum_append, List.map_cons,
          List.sum_cons, List.length_cons] at h ⊢
        omega
      have hperm := (ih (b ++ tl :: a) hsum).cons hd
      refine hperm.trans ?_
      simp only [List.flatten_append, List.flatten_cons, List.cons_append]
      exact List.perm_middle.symm

/-- The k-way merge is a permutation of the concatenated sources. -/
theorem kMerge_perm {α : Type} (lt : α → α → Bool) (ss : List (List α)) :
    List.Perm (kMerge lt ss) ss.flatten :=
  kMergeAux_perm lt _ ss (Nat.le_refl _)

theorem kMergeAux_sorted {α : Type} (lt : α → α → Bool)
    (htrans : ∀ a b c, lt a b = true → lt b c = true → lt a c = true)
    (hasymm : ∀ a b, lt a b = true → lt b a = false)
    (hnegtrans : ∀ a b c, lt a b = false → lt b c = false → lt a c = false) :
    ∀ (fuel : Nat) (ss : List (List α)),
      (ss.map List.length).sum ≤ fuel →
      (∀ src ∈ ss, chainB lt src = true) →
      (kMergeAux lt fuel ss).Pairwise (fun x y => lt y x = false) := by
  intro fuel
  induction fuel with
  | zero => intro ss h hsrcs; simp [kMergeAux]
  | succ f ih =>
    intro ss h hsrcs
    simp only [kMergeAux]
    match hp : pickMin lt ss with
    | none => simp
    | some (b, hd, tl, a) =>
      have hdec := pickMin_decomp lt ss b hd tl a hp
      subst hdec
      have hsum : ((b ++ tl :: a).map List.length).sum ≤ f := by
        simp only [List.map_append, List.sum_append, List.map_cons,
          List.sum_cons, List.length_cons] at h ⊢
        omega
      have hchains : ∀ src ∈ b ++ tl :: a, chainB lt src = true := by
        intro src hsrc
        rcases List.mem_append.mp hsrc with h1 | h1
        · exact hsrcs src (List.mem_append_left _ h1)
        · rcases List.mem_cons.mp h1 with h2 | h2
          · subst h2
            exact chainB_tail lt hd src
              (hsrcs _ (List.mem_append_right _ (List.mem_cons_self _ _)))
          · exact hsrcs src (List.mem_append_right _ (List.mem_cons_of_mem _ h2))
      refine List.Pairwise.cons ?_ (ih _ hsum hchains)
      intro y hy
      have hyflat : y ∈ (b ++ tl :: a).flatten :=
        (kMergeAux_perm lt f _ hsum).mem_iff.mp hy
      obtain ⟨src, hsrcmem, hysrc⟩ := List.mem_flatten.mp hyflat
      rcases List.mem_append.mp hsrcmem with h1 | h1
      · match src, hysrc with
        | x :: xs, hysrc =>
          have hmin := pickMin_min lt hasymm hnegtrans _ _ _ _ _ hp x xs
            (List.mem_append_left _ h1)
          rcases List.mem_cons.mp hysrc with h2 | h2
          · subst h2; exact hmin
          · have hchain := hsrcs (x :: xs) (List.mem_append_left _ h1)
            have hxy := chainB_head lt htrans xs x hchain y h2
            by_cases hc : lt y hd
            · exfalso
              have := htrans x y hd hxy hc
              rw [this] at hmin
              exact absurd hmin (by simp)
            · simpa using hc
      · rcases List.mem_cons.mp h1 with h2 | h2
        · subst h2
          have hchain := hsrcs (hd :: src)
            (List.mem_append_right _ (List.mem_cons_self _ _))
          exact hasymm _ _ (chainB_head lt htrans src hd hchain y hysrc)
        · match src, hysrc with
          | x :: xs, hysrc =>
            have hmemss : (x :: xs) ∈ b ++ (hd :: tl) :: a :=
              List.mem_append_right _ (List.mem_cons_of_mem _ h2)
            have hmin := pickMin_min lt hasymm hnegtrans _ _ _ _ _ hp x xs hmemss
            rcases List.mem_cons.mp hysrc with h3 | h3
            · subst h3; exact hmin
            · have hchain := hsrcs (x :: xs) hmemss
              have hxy := chainB_head lt htrans xs x hchain y h3
              by_cases hc : lt y hd
              · exfalso
                have := htrans x y hd hxy hc
                rw [this] at hmin
                exact absurd hmin (by simp)
              · simpa using hc

/-- The k-way merge of strictly sorted sources is (weakly) sorted. -/
theorem kMerge_sorted {α : Type} (lt : α → α → Bool)
    (htrans : ∀ a b c, lt a b = true → lt b c = true → lt a c = true)
    (hasymm : ∀ a b, lt a b = true → lt b a = false)
    (hnegtrans : ∀ a b c, lt a b = false → lt b c = false → lt a c = false)
    (ss : List (List α)) (hsrcs : ∀ src ∈ ss, chainB lt src = true) :
    (kMerge lt ss).Pairwise (fun x y => lt y x = false) :=
  kMergeAux_sorted lt htrans hasymm hnegtrans _ ss (Nat.le_refl _) hsrcs

theorem kMergeAux_stable {α : Type} (lt : α → α → Bool) (p : α → Bool)
    (htrans : ∀ a b c, lt a b = true → lt b c = true → lt a c = true) :
    ∀ (fuel : Nat) (ss : List (List α)),
      (ss.map List.length).sum ≤ fuel →
      (∀ src ∈ ss, chainB lt src = true) →
      (∀ x y, x ∈ ss.flatten → y ∈ ss.flatten → p x = true → p y = true →
        lt x y = false) →
      (kMergeAux lt fuel ss).filter p = (ss.map (List.filter p)).flatten := by
  intro fuel
  induction fuel with
  | zero =>
    intro ss h hsrcs hequiv
    have hall : ∀ src ∈ ss, src = [] := by
      intro src hsrc
      have : src.length = 0 := by
        have hz : (ss.map List.length).sum = 0 := Nat.le_zero.mp h
        have := (List.sum_eq_zero_iff ..).mp hz src.length
          (List.mem_map_of_mem List.length hsrc)
        exact this
      exact List.eq_nil_of_length_eq_zero this
    symm
    apply List.flatten_eq_nil_iff.mpr
    intro l hl
    obtain ⟨src, hsrc, hfilter⟩ := List.mem_map.mp hl
    rw [← hfilter, hall src hsrc]
    rfl
  | succ f ih =>
    intro ss h hsrcs hequiv
    simp only [kMergeAux]
    match hp : pickMin lt ss with
    | none =>
      have hall := pickMin_none lt ss hp
      symm
      apply List.flatten_eq_nil_iff.mpr
      intro l hl
      obtain ⟨src, hsrc, hfilter⟩ := List.mem_map.mp hl
      rw [← hfilter, hall src hsrc]
      rfl
    | some (b, hd, tl, a) =>
      have hdec := pickMin_decomp lt ss b hd tl a hp
      subst hdec
      have hsum : ((b ++ tl :: a).map List.length).sum ≤ f := by
        simp only [List.map_append, List.sum_append, List.map_cons,
          List.sum_cons, List.length_cons] at h ⊢
        omega
      have hchains : ∀ src ∈ b ++ tl :: a, chainB lt src = true := by
        intro src hsrc
        rcases List.mem_append.mp hsrc with h1 | h1
        · exact hsrcs src (List.mem_append_left _ h1)
        · rcases List.mem_cons.mp h1 with h2 | h2
          · subst h2
            exact chainB_tail lt hd src
              (hsrcs _ (List.mem_append_right _ (List.mem_cons_self _ _)))
          · exact hsrcs src (List.mem_append_right _ (List.mem_cons_of_mem _ h2))
      have hnextsub : ∀ z ∈ (b ++ tl :: a).flatten,
          z ∈ (b ++ (hd :: tl) :: a).flatten := by
        intro z hz
        obtain ⟨src, hsrc, hzsrc⟩ := List.mem_flatten.mp hz
        rcases List.mem_append.mp hsrc with h1 | h1
        · exact List.mem_flatten.mpr ⟨src, List.mem_append_left _ h1, hzsrc⟩
        · rcases List.mem_cons.mp h1 with h2 | h2
          · subst h2
            exact List.mem_flatten.mpr ⟨hd :: src,
              List.mem_append_right _ (List.mem_cons_self _ _),
              List.mem_cons_of_mem _ hzsrc⟩
          · exact List.mem_flatten.mpr ⟨src,
              List.mem_append_right _ (List.mem_cons_of_mem _ h2), hzsrc⟩
      have hih := ih (b ++ tl :: a) hsum hchains
        (fun x y hx hy => hequiv x y (hnextsub x hx) (hnextsub y hy))
      have hhdmem : hd ∈ (b ++ (hd :: tl) :: a).flatten :=
        List.mem_flatten.mpr ⟨hd :: tl,
          List.mem_append_right _ (List.mem_cons_self _ _),
          List.mem_cons_self _ _⟩
      by_cases php : p hd
      · have hb : ∀ src ∈ b, src.filter p = [] := by
          intro src hsrc
          apply List.filter_eq_nil_iff.mpr
          intro y hy
          match src, hy with
          | x :: xs, hy =>
            have hfirst := pickMin_first lt _ _ _ _ _ hp x xs hsrc
            intro hpy
            have hpy' : p y = true := hpy
            have hymem : y ∈ (b ++ (hd :: tl) :: a).flatten :=
              List.mem_flatten.mpr ⟨x :: xs, List.mem_append_left _ hsrc, hy⟩
            rcases List.mem_cons.mp hy with h2 | h2
            · subst h2
              have := hequiv hd y hhdmem hymem php hpy'
              rw [this] at hfirst
              exact absurd hfirst (by simp)
            · have hchain := hsrcs (x :: xs) (List.mem_append_left _ hsrc)
              have hxy := chainB_head lt htrans xs x hchain y h2
              have hhdy := htrans hd x y hfirst hxy
              have := hequiv hd y hhdmem hymem php hpy'
              rw [this] at hhdy
              exact absurd hhdy (by simp)
        have hbflat : (b.map (List.filter p)).flatten = [] := by
          apply List.flatten_eq_nil_iff.mpr
          intro l hl
          obtain ⟨src, hsrc, hfilter⟩ := List.mem_map.mp hl
          rw [← hfilter]
          exact hb src hsrc
        rw [List.filter_cons_of_pos php, hih]
        simp only [List.map_append, List.flatten_append, List.map_cons,
          List.flatten_cons, hbflat, List.nil_append,
          List.filter_cons_of_pos php, List.cons_append]
      · have hphp : p hd = false := by simpa using php
        rw [List.filter_cons_of_neg (by simp [hphp]), hih]
        simp only [List.map_append, List.flatten_append, List.map_cons,
          List.flatten_cons, List.filter_cons_of_neg (by simp [hphp] : ¬ p hd = true)]

/-- Stability of the k-way merge: elements satisfying `p` that are mutually
incomparable come out in source order. -/
theorem kMerge_stable {α : Type} (lt : α → α → Bool) (p : α → Bool)
    (htrans : ∀ a b c, lt a b = true → lt b c = true → lt a c = true)
    (ss : List (List α)) (hsrcs : ∀ src ∈ ss, chainB lt src = true)
    (hequiv : ∀ x y, x ∈ ss.flatten → y ∈ ss.flatten → p x = true →
      p y = true → lt x y = false) :
    (kMerge lt ss).filter p = (ss.map (List.filter p)).flatten :=
  kMergeAux_stable lt p htrans _ ss (Nat.le_refl _) hsrcs hequiv

theorem flushMeta_eq (c : Option Resolver) (k : List Nat) (t0 : List Nat)
    (ts : List (List Nat)) :
    flushMeta c k (t0 :: ts) = [(k, metaOut c k (t0 :: ts))] := by
  cases c with
  | none => simp [flushMeta, metaOut]
  | some f =>
    by_cases h : 0 < ts.length <;> simp [flushMeta, metaOut, h]

theorem phaseMeta_stop (c : Option Resolver) (s : List PLEntry)
    (hs : ∀ e rest, s = e :: rest → is_user_metadata_key e.key = false) :
    phaseMeta c s [] [] = ([], [], s) := by
  match s with
  | [] => rfl
  | e :: rest =>
    have he := hs e rest rfl
    simp [phaseMeta, he, flushMeta]

theorem phaseVS_stop (s : List PLEntry) (lk lb ub : List Nat)
    (hs : ∀ e rest, s = e :: rest → is_valuestats_key e.key = false) :
    phaseVS s lk 0 lb ub = .ok ([], lk, s) := by
  match s with
  | [] => simp [phaseVS, flushVS]
  | e :: rest =>
    have he := hs e rest rfl
    simp [phaseVS, he, flushVS]

theorem phaseVC_stop (s : List PLEntry)
    (hs : ∀ e rest, s = e :: rest → is_valuechunk_key e.key = false) :
    phaseVC s = ([], s) := by
  match s with
  | [] => rfl
  | e :: rest =>
    have he := hs e rest rfl
    simp [phaseVC, he]

theorem phasePost_absorb :
    ∀ (run rest : List PLEntry) (k : List Nat) (tf cf : Nat)
      (tags : List (Nat × List Nat)),
      (∀ e ∈ run, e.key = k) →
      phasePost (run ++ rest) k tf cf tags =
        phasePost rest k (tf + (run.map PLEntry.tf).sum)
          (cf + (run.map PLEntry.cf).sum)
          (tags ++ run.map (fun e => (e.firstdid, e.tag))) := by
  intro run
  induction run with
  | nil =>
    intro rest k tf cf tags h
    simp
  | cons e run' ih =>
    intro rest k tf cf tags h
    have he : e.key = k := h e (by simp)
    rw [List.cons_append]
    show (if e.key ≠ k then _ else
      phasePost (run' ++ rest) k (tf + e.tf) (cf + e.cf)
        (tags ++ [(e.firstdid, e.tag)])) = _
    rw [if_neg (by simp [he])]
    have h1 : tf + ((e :: run').map PLEntry.tf).sum =
        tf + e.tf + (run'.map PLEntry.tf).sum := by
      simp only [List.map_cons, List.sum_cons]
      omega
    have h2 : cf + ((e :: run').map PLEntry.cf).sum =
        cf + e.cf + (run'.map PLEntry.cf).sum := by
      simp only [List.map_cons, List.sum_cons]
      omega
    have h3 : tags ++ (e :: run').map (fun x => (x.firstdid, x.tag)) =
        (tags ++ [(e.firstdid, e.tag)]) ++
          run'.map (fun x => (x.firstdid, x.tag)) := by
      simp
    rw [h1, h2, h3]
    exact ih rest k (tf + e.tf) (cf + e.cf) (tags ++ [(e.firstdid, e.tag)])
      (fun x hx => h x (by simp [hx]))

theorem phasePost_groups :
    ∀ (gs : List (List Nat × List PLEntry)) (lk : List Nat) (tf cf : Nat)
      (tags : List (Nat × List Nat)),
      (∀ g ∈ gs, g.2 ≠ [] ∧ ∀ e ∈ g.2, e.key = g.1) →
      gs.Pairwise (fun g1 g2 => ltBytes g1.1 g2.1 = true) →
      (∀ g0 gs2, gs = g0 :: gs2 → g0.1 ≠ lk) →
      phasePost ((gs.map Prod.snd).flatten) lk tf cf tags =
        exCat (emitPostGroup lk tf cf tags) (postGroupsOut gs) := by
  intro gs
  induction gs with
  | nil =>
    intro lk tf cf tags hwf hpw hfirst
    show phasePost [] lk tf cf tags = _
    show emitPostGroup lk tf cf tags = _
    rw [show postGroupsOut [] = .ok [] from rfl, exCat_ok_nil]
  | cons g0 gs' ih =>
    intro lk tf cf tags hwf hpw hfirst
    obtain ⟨k, run⟩ := g0
    obtain ⟨hne, hkeys⟩ := hwf (k, run) (by simp)
    match run, hne, hkeys with
    | e0 :: run', _, hkeys =>
      have he0 : e0.key = k := hkeys e0 (by simp)
      have hkne : k ≠ lk := hfirst (k, e0 :: run') gs' rfl
      simp only [List.map_cons, List.flatten_cons, List.cons_append,
        List.append_assoc]
      show (if e0.key ≠ lk then _ else _) = _
      rw [if_pos (by rw [he0]; exact hkne)]
      rw [he0]
      have habs := phasePost_absorb run' ((gs'.map Prod.snd).flatten) k
        e0.tf e0.cf [(e0.firstdid, e0.tag)]
        (fun x hx => hkeys x (by simp [hx]))
      rw [habs]
      have hih := ih k
        (e0.tf + (run'.map PLEntry.tf).sum)
        (e0.cf + (run'.map PLEntry.cf).sum)
        ([(e0.firstdid, e0.tag)] ++ run'.map (fun e => (e.firstdid, e.tag)))
        (fun g hg => hwf g (by simp [hg]))
        (List.pairwise_cons.mp hpw).2
        (fun g1 gs2 hgs => by
          have hlt := (List.pairwise_cons.mp hpw).1 g1 (by simp [hgs])
          exact fun hk => absurd hlt (by simp [hk, ltBytes_irrefl]))
      rw [hih]
      have hout : postGroupsOut ((k, e0 :: run') :: gs') =
          exCat (emitPostGroup k
            (e0.tf + (run'.map PLEntry.tf).sum)
            (e0.cf + (run'.map PLEntry.cf).sum)
            ([(e0.firstdid, e0.tag)] ++
              run'.map (fun e => (e.firstdid, e.tag))))
            (postGroupsOut gs') := by
        show exCat (emitPostGroup k ((List.map PLEntry.tf (e0 :: run')).sum)
          ((List.map PLEntry.cf (e0 :: run')).sum)
          ((e0 :: run').map (fun e => (e.firstdid, e.tag)))) _ = _
        simp only [List.map_cons, List.sum_cons, List.singleton_append]
        rfl
      rw [hout]
      cases hE : emitPostGroup lk tf cf tags with
      | error e => rfl
      | ok out1 =>
        cases hI : exCat (emitPostGroup k
            (e0.tf + (run'.map PLEntry.tf).sum)
            (e0.cf + (run'.map PLEntry.cf).sum)
            ([(e0.firstdid, e0.tag)] ++
              run'.map (fun e => (e.firstdid, e.tag))))
            (postGroupsOut gs') with
        | error e => simp [exCat]
        | ok out2 => simp [exCat]

theorem phaseMeta_absorb (c : Option Resolver) :
    ∀ (run rest : List PLEntry) (k : List Nat) (tags : List (List Nat)),
      (∀ e ∈ run, e.key = k) →
      is_user_metadata_key k = true →
      phaseMeta c (run ++ rest) k tags =
        phaseMeta c rest k (tags ++ run.map PLEntry.tag) := by
  intro run
  induction run with
  | nil => intro rest k tags h hk; simp
  | cons e run' ih =>
    intro rest k tags h hk
    have he : e.key = k := h e (by simp)
    rw [List.cons_append]
    show (if is_user_metadata_key e.key then
            (if e.key ≠ k then _ else phaseMeta c (run' ++ rest) k (tags ++ [e.tag]))
          else _) = _
    rw [if_pos (by rw [he]; exact hk), if_neg (by simp [he])]
    have h3 : tags ++ (e :: run').map PLEntry.tag =
        (tags ++ [e.tag]) ++ run'.map PLEntry.tag := by
      simp
    rw [h3]
    exact ih rest k (tags ++ [e.tag]) (fun x hx => h x (by simp [hx])) hk

theorem phaseMeta_groups (c : Option Resolver) :
    ∀ (gs : List (List Nat × List PLEntry)) (lk : List Nat)
      (tags : List (List Nat)),
      (∀ g ∈ gs, g.2 ≠ [] ∧ ∀ e ∈ g.2, e.key = g.1) →
      (∀ g ∈ gs, is_user_metadata_key g.1 = true) →
      gs.Pairwise (fun g1 g2 => ltBytes g1.1 g2.1 = true) →
      (∀ g0 gs2, gs = g0 :: gs2 → g0.1 ≠ lk) →
      phaseMeta c ((gs.map Prod.snd).flatten) lk tags =
        (flushMeta c lk tags ++
           gs.map (fun g => (g.1, metaOut c g.1 (g.2.map PLEntry.tag))),
         gs.foldl (fun _ g => g.1) lk, []) := by
  intro gs
  induction gs with
  | nil =>
    intro lk tags hwf hmeta hpw hfirst
    show (flushMeta c lk tags, lk, []) = _
    simp
  | cons g0 gs' ih =>
    intro lk tags hwf hmeta hpw hfirst
    obtain ⟨k, run⟩ := g0
    obtain ⟨hne, hkeys⟩ := hwf (k, run) (by simp)
    match run, hne, hkeys with
    | e0 :: run', _, hkeys =>
      have he0 : e0.key = k := hkeys e0 (by simp)
      have hkmeta : is_user_metadata_key k = true := hmeta (k, e0 :: run') (by simp)
      have hkne : k ≠ lk := hfirst (k, e0 :: run') gs' rfl
      simp only [List.map_cons, List.flatten_cons, List.cons_append,
        List.append_assoc]
      show (if is_user_metadata_key e0.key then
              (if e0.key ≠ lk then
                 (flushMeta c lk tags ++
                    (phaseMeta c (run' ++ (gs'.map Prod.snd).flatten) e0.key [e0.tag]).1,
                  (phaseMeta c (run' ++ (gs'.map Prod.snd).flatten) e0.key [e0.tag]).2)
               else _)
            else _) = _
      rw [if_pos (by rw [he0]; exact hkmeta), if_pos (by rw [he0]; exact hkne)]
      rw [he0]
      have habs := phaseMeta_absorb c run' ((gs'.map Prod.snd).flatten) k
        [e0.tag] (fun x hx => hkeys x (by simp [hx])) hkmeta
      rw [habs]
      have hih := ih k ([e0.tag] ++ run'.map PLEntry.tag)
        (fun g hg => hwf g (by simp [hg]))
        (fun g hg => hmeta g (by simp [hg]))
        (List.pairwise_cons.mp hpw).2
        (fun g1 gs2 hgs => by
          have hlt := (List.pairwise_cons.mp hpw).1 g1 (by simp [hgs])
          exact fun hk => absurd hlt (by simp [hk, ltBytes_irrefl]))
      rw [hih]
      have hflush : flushMeta c k ([e0.tag] ++ run'.map PLEntry.tag) =
          [(k, metaOut c k ((e0 :: run').map PLEntry.tag))] := by
        rw [List.singleton_append, ← List.map_cons]
        exact flushMeta_eq c k e0.tag (run'.map PLEntry.tag)
      rw [hflush]
      simp

theorem vsAccum_cons_zero (d : Nat × List Nat × List Nat)
    (ds : List (Nat × List Nat × List Nat)) (X Y : List Nat) :
    vsAccum (d :: ds) (0, X, Y) = vsAccum ds d := by
  simp [vsAccum, vsStep]

theorem vsDec_ok (e : PLEntry) (h : vsDecOkB e = true) :
    decodeValuestats e.tag = .ok (vsDec e) := by
  unfold vsDecOkB at h
  unfold vsDec
  match hd : decodeValuestats e.tag with
  | .ok d => rfl
  | .error er => rw [hd] at h; simp at h

theorem vsAccum_cons (d : Nat × List Nat × List Nat)
    (ds : List (Nat × List Nat × List Nat)) (st : Nat × List Nat × List Nat) :
    vsAccum (d :: ds) st = vsAccum ds (vsStep st d) := rfl

theorem phaseVS_absorb :
    ∀ (run rest : List PLEntry) (k : List Nat) (freq : Nat) (lb ub : List Nat),
      (∀ e ∈ run, e.key = k) →
      (∀ e ∈ run, is_valuestats_key e.key = true) →
      (∀ e ∈ run, vsDecOkB e = true) →
      phaseVS (run ++ rest) k freq lb ub =
        phaseVS rest k (vsAccum (run.map vsDec) (freq, lb, ub)).1
          (vsAccum (run.map vsDec) (freq, lb, ub)).2.1
          (vsAccum (run.map vsDec) (freq, lb, ub)).2.2 := by
  intro run
  induction run with
  | nil => intro rest k freq lb ub h1 h2 h3; simp [vsAccum]
  | cons e run' ih =>
    intro rest k freq lb ub h1 h2 h3
    have he : e.key = k := h1 e (by simp)
    have hvs : is_valuestats_key e.key = true := h2 e (by simp)
    have hok := vsDec_ok e (h3 e (by simp))
    rcases hvd : vsDec e with ⟨f, l, u⟩
    rw [hvd] at hok
    have h1' : ∀ x ∈ run', x.key = k := fun x hx => h1 x (by simp [hx])
    have h2' : ∀ x ∈ run', is_valuestats_key x.key = true :=
      fun x hx => h2 x (by simp [hx])
    have h3' : ∀ x ∈ run', vsDecOkB x = true := fun x hx => h3 x (by simp [hx])
    rw [List.cons_append]
    by_cases hfz : freq = 0
    · subst hfz
      simp only [phaseVS, if_pos hvs, if_neg (by simp [he] : ¬ e.key ≠ k), hok]
      rw [if_pos True.intro]
      rw [List.map_cons, hvd, vsAccum_cons_zero]
      rw [ih rest k f l u h1' h2' h3']
      cases hX : phaseVS rest k (vsAccum (run'.map vsDec) (f, l, u)).1
          (vsAccum (run'.map vsDec) (f, l, u)).2.1
          (vsAccum (run'.map vsDec) (f, l, u)).2.2 with
      | error er => rfl
      | ok v =>
        obtain ⟨o, lk2, rem⟩ := v
        simp
    · simp only [phaseVS, if_pos hvs, if_neg (by simp [he] : ¬ e.key ≠ k), hok,
        if_neg hfz]
      rw [List.map_cons, hvd, vsAccum_cons]
      have hstep : vsStep (freq, lb, ub) (f, l, u) =
          (freq + f, if ltBytes l lb then l else lb,
           if ltBytes ub u then u else ub) := by
        simp [vsStep, hfz]
      rw [hstep]
      rw [ih rest k (freq + f) (if ltBytes l lb then l else lb)
        (if ltBytes ub u then u else ub) h1' h2' h3']
      cases hX : phaseVS rest k
          (vsAccum (run'.map vsDec)
            (freq + f, if ltBytes l lb then l else lb,
             if ltBytes ub u then u else ub)).1
          (vsAccum (run'.map vsDec)
            (freq + f, if ltBytes l lb then l else lb,
             if ltBytes ub u then u else ub)).2.1
          (vsAccum (run'.map vsDec)
            (freq + f, if ltBytes l lb then l else lb,
             if ltBytes ub u then u else ub)).2.2 with
      | error er => rfl
      | ok v =>
        obtain ⟨o, lk2, rem⟩ := v
        simp

theorem phaseVS_groups :
    ∀ (gs : List (List Nat × List PLEntry)) (lk : List Nat) (freq : Nat)
      (lb ub : List Nat),
      (∀ g ∈ gs, g.2 ≠ [] ∧ ∀ e ∈ g.2, e.key = g.1) →
      (∀ g ∈ gs, is_valuestats_key g.1 = true) →
      (∀ g ∈ gs, ∀ e ∈ g.2, vsDecOkB e = true) →
      gs.Pairwise (fun g1 g2 => ltBytes g1.1 g2.1 = true) →
      (∀ g0 gs2, gs = g0 :: gs2 → g0.1 ≠ lk) →
      phaseVS ((gs.map Prod.snd).flatten) lk freq lb ub =
        .ok (flushVS lk freq lb ub ++ (gs.map vsGroupRec).flatten,
             gs.foldl (fun _ g => g.1) lk, []) := by
  intro gs
  induction gs with
  | nil =>
    intro lk freq lb ub hwf hvs hdec hpw hfirst
    show Except.ok (flushVS lk freq lb ub, lk, []) = _
    simp
  | cons g0 gs' ih =>
    intro lk freq lb ub hwf hvs hdec hpw hfirst
    obtain ⟨k, run⟩ := g0
    obtain ⟨hne, hkeys⟩ := hwf (k, run) (by simp)
    match run, hne, hkeys with
    | e0 :: run', _, hkeys =>
      have he0 : e0.key = k := hkeys e0 (by simp)
      have hkvs : is_valuestats_key k = true := hvs (k, e0 :: run') (by simp)
      have hkne : k ≠ lk := hfirst (k, e0 :: run') gs' rfl
      have hok := vsDec_ok e0 (hdec (k, e0 :: run') (by simp) e0 (by simp))
      rcases hvd : vsDec e0 with ⟨f, l, u⟩
      rw [hvd] at hok
      simp only [List.map_cons, List.flatten_cons, List.cons_append,
        List.append_assoc]
      show (if is_valuestats_key e0.key then _ else _) = _
      rw [if_pos (by rw [he0]; exact hkvs)]
      rw [if_pos (by rw [he0]; exact hkne), hok]
      rw [he0]
      show (match phaseVS (run' ++ (gs'.map Prod.snd).flatten) k f l u with
            | Except.error er => Except.error er
            | Except.ok (o, lk2, rem) =>
                Except.ok (flushVS lk freq lb ub ++ o, lk2, rem)) = _
      have habs := phaseVS_absorb run' ((gs'.map Prod.snd).flatten) k f l u
        (fun x hx => hkeys x (by simp [hx]))
        (fun x hx => by
          rw [hkeys x (by simp [hx])]
          exact hkvs)
        (fun x hx => hdec (k, e0 :: run') (by simp) x (by simp [hx]))
      rw [habs]
      have hih := ih k (vsAccum (run'.map vsDec) (f, l, u)).1
        (vsAccum (run'.map vsDec) (f, l, u)).2.1
        (vsAccum (run'.map vsDec) (f, l, u)).2.2
        (fun g hg => hwf g (by simp [hg]))
        (fun g hg => hvs g (by simp [hg]))
        (fun g hg => hdec g (by simp [hg]))
        (List.pairwise_cons.mp hpw).2
        (fun g1 gs2 hgs => by
          have hlt := (List.pairwise_cons.mp hpw).1 g1 (by simp [hgs])
          exact fun hk => absurd hlt (by simp [hk, ltBytes_irrefl]))
      rw [hih]
      have hgrp : vsGroupRec (k, e0 :: run') =
          flushVS k (vsAccum (run'.map vsDec) (f, l, u)).1
            (vsAccum (run'.map vsDec) (f, l, u)).2.1
            (vsAccum (run'.map vsDec) (f, l, u)).2.2 := by
        show flushVS k (vsAccum ((e0 :: run').map vsDec) (0, [], [])).1 _ _ = _
        rw [List.map_cons, hvd, vsAccum_cons_zero]
      simp [hgrp]

theorem keyRunsAux_filter {α : Type} (keyOf : α → List Nat) :
    ∀ (fuel : Nat) (l : List α), l.length ≤ fuel →
      l.Pairwise (fun a b => ltBytes (keyOf b) (keyOf a) = false) →
      ∀ g ∈ keyRunsAux keyOf fuel l,
        l.filter (fun x => keyOf x == g.1) = g.2 := by
  intro fuel
  induction fuel with
  | zero => intro l h hs g hg; cases l <;> simp [keyRunsAux] at hg
  | succ f ih =>
    intro l h hs g hg
    match l with
    | [] => simp [keyRunsAux] at hg
    | e :: rest =>
      have hlen : (spanKey keyOf (keyOf e) rest).2.length ≤ f := by
        have := spanKey_rest_length_le keyOf (keyOf e) rest
        simp only [List.length_cons] at h
        omega
      have hsub2 : (spanKey keyOf (keyOf e) rest).2.Sublist (e :: rest) :=
        (spanKey_snd_sublist keyOf (keyOf e) rest).trans (by simp)
      have hsplit := spanKey_append keyOf (keyOf e) rest
      simp only [keyRunsAux, List.mem_cons] at hg
      rcases hg with hg | hg
      · subst hg
        simp only []
        rw [List.filter_cons_of_pos (by simp)]
        have hfr : rest.filter (fun x => keyOf x == keyOf e) =
            (spanKey keyOf (keyOf e) rest).1.filter
              (fun x => keyOf x == keyOf e) ++
            (spanKey keyOf (keyOf e) rest).2.filter
              (fun x => keyOf x == keyOf e) := by
          conv_lhs => rw [← hsplit]
          rw [List.filter_append]
        rw [hfr]
        rw [List.filter_eq_self.mpr (fun x hx => by
          simp [spanKey_fst_keys keyOf (keyOf e) rest x hx])]
        rw [List.filter_eq_nil_iff.mpr (fun y hy => by
          have hgt := spanKey_snd_keys_gt keyOf e rest hs y hy
          have hne := ltBytes_ne _ _ hgt
          simp [beq_eq_false_iff_ne]
          exact fun hc => hne hc.symm)]
        simp
      · obtain ⟨x, hx, hk⟩ := keyRunsAux_keys_mem keyOf f _ g hg
        have hgt := spanKey_snd_keys_gt keyOf e rest hs x hx
        have hne : keyOf e ≠ g.1 := by rw [← hk]; exact ltBytes_ne _ _ hgt
        rw [List.filter_cons_of_neg (by simp [beq_eq_false_iff_ne]; exact hne)]
        have hfr : rest.filter (fun x => keyOf x == g.1) =
            (spanKey keyOf (keyOf e) rest).1.filter
              (fun x => keyOf x == g.1) ++
            (spanKey keyOf (keyOf e) rest).2.filter
              (fun x => keyOf x == g.1) := by
          conv_lhs => rw [← hsplit]
          rw [List.filter_append]
        rw [hfr]
        rw [List.filter_eq_nil_iff.mpr (fun y hy => by
          have hky := spanKey_fst_keys keyOf (keyOf e) rest y hy
          simp [beq_eq_false_iff_ne, hky]
          exact fun hc => hne hc)]
        rw [ih _ hlen (hs.sublist hsub2) g hg]
        simp

theorem keyRunsAux_sublist {α : Type} (keyOf : α → List Nat) :
    ∀ (fuel : Nat) (l : List α) g, g ∈ keyRunsAux keyOf fuel l →
      g.2.Sublist l := by
  intro fuel
  induction fuel with
  | zero => intro l g hg; cases l <;> simp [keyRunsAux] at hg
  | succ f ih =>
    intro l g hg
    match l with
    | [] => simp [keyRunsAux] at hg
    | e :: rest =>
      simp only [keyRunsAux, List.mem_cons] at hg
      rcases hg with hg | hg
      · subst hg
        refine List.Sublist.cons₂ e ?_
        conv_rhs => rw [← spanKey_append keyOf (keyOf e) rest]
        exact List.sublist_append_left _ _
      · exact (ih _ g hg).trans
          ((spanKey_snd_sublist keyOf (keyOf e) rest).trans (by simp))

theorem vs_not_meta (k : List Nat) (h : is_valuestats_key k = true) :
    is_user_metadata_key k = false := by
  match k with
  | [] => simp [is_valuestats_key] at h
  | [_] => simp [is_valuestats_key] at h
  | a :: b :: rest =>
    simp only [is_valuestats_key] at h
    match a, b, h with
    | 0, 208, _ => rfl

theorem meta_key_ne_nil (k : List Nat) (h : is_user_metadata_key k = true) :
    k ≠ [] := by
  match k with
  | [] => simp [is_user_metadata_key] at h
  | _ :: _ => simp

theorem vs_key_ne_nil (k : List Nat) (h : is_valuestats_key k = true) :
    k ≠ [] := by
  match k with
  | [] => simp [is_valuestats_key] at h
  | _ :: _ => simp

theorem plLt_false_key (a b : PLEntry) (h : plLt a b = false) :
    ltBytes a.key b.key = false := by
  simp only [plLt, Bool.or_eq_false_iff] at h
  exact h.1

theorem memPair_false (p : List Nat × Nat) :
    ∀ l, memPair p l = false → p ∉ l := by
  intro l
  induction l with
  | nil => intro h hmem; simp at hmem
  | cons q rest ih =>
    intro h hmem
    simp only [memPair, Bool.or_eq_false_iff, Bool.and_eq_false_iff,
      beq_eq_false_iff_ne] at h
    rcases List.mem_cons.mp hmem with h1 | h1
    · subst h1
      rcases h.1 with h2 | h2 <;> exact h2 rfl
    · exact ih h.2 h1

theorem nodupPairsB_nodup :
    ∀ l, nodupPairsB l = true → l.Nodup := by
  intro l
  induction l with
  | nil => intro h; exact List.nodup_nil
  | cons p rest ih =>
    intro h
    simp only [nodupPairsB, Bool.and_eq_true] at h
    obtain ⟨h1, h2⟩ := h
    refine List.Nodup.cons ?_ (ih h2)
    exact memPair_false p rest (by simpa using h1)

theorem keyRunsG_flatten {α : Type} (keyOf : α → List Nat) (l : List α) :
    ((keyRunsG keyOf l).map Prod.snd).flatten = l :=
  keyRunsAux_flatten keyOf l.length l (Nat.le_refl _)

theorem keyRunsG_wf {α : Type} (keyOf : α → List Nat) (l : List α) :
    ∀ g ∈ keyRunsG keyOf l, g.2 ≠ [] ∧ ∀ e ∈ g.2, keyOf e = g.1 :=
  keyRunsAux_runs keyOf l.length l

theorem keyRunsG_keys_mem {α : Type} (keyOf : α → List Nat) (l : List α) :
    ∀ g ∈ keyRunsG keyOf l, ∃ e ∈ l, keyOf e = g.1 :=
  keyRunsAux_keys_mem keyOf l.length l

theorem keyRunsG_pairwise {α : Type} (keyOf : α → List Nat) (l : List α)
    (hs : l.Pairwise (fun a b => ltBytes (keyOf b) (keyOf a) = false)) :
    (keyRunsG keyOf l).Pairwise (fun g1 g2 => ltBytes g1.1 g2.1 = true) :=
  keyRunsAux_pairwise_lt keyOf l.length l (Nat.le_refl _) hs

theorem keyRunsG_nodup {α : Type} (keyOf : α → List Nat) (l : List α)
    (hs : l.Pairwise (fun a b => ltBytes (keyOf b) (keyOf a) = false)) :
    ((keyRunsG keyOf l).map Prod.fst).Nodup :=
  keyRunsAux_nodup keyOf l.length l (Nat.le_refl _) hs

theorem keyRunsG_filter {α : Type} (keyOf : α → List Nat) (l : List α)
    (hs : l.Pairwise (fun a b => ltBytes (keyOf b) (keyOf a) = false)) :
    ∀ g ∈ keyRunsG keyOf l, l.filter (fun x => keyOf x == g.1) = g.2 :=
  keyRunsAux_filter keyOf l.length l (Nat.le_refl _) hs

theorem keyRunsG_sublist {α : Type} (keyOf : α → List Nat) (l : List α) :
    ∀ g ∈ keyRunsG keyOf l, g.2.Sublist l :=
  keyRunsAux_sublist keyOf l.length l

theorem keyRuns_flatten (l : List PLEntry) :
    ((keyRuns l).map Prod.snd).flatten = l :=
  keyRunsG_flatten PLEntry.key l

theorem keyRuns3_flatten (l : List Rec3) :
    ((keyRuns3 l).map Prod.snd).flatten = l :=
  keyRunsG_flatten (fun r : Rec3 => r.1) l

/-- Claim C5 (counterexample): "first source wins" fails on a key tie,
because `std::priority_queue` is not stable.  Source 0 holds keys
`00 C0 4A` and `00 C0 4B` (tags `[74]`, `[88]`), source 1 holds key
`00 C0 4B` (tag `[89]`).  After source 0's cursor is popped at the first
key, advanced and re-pushed, `push_heap` sifts it up only past elements
comparing strictly greater under `PostlistCursorGt`, so it stays below
source 1's resident equal-key cursor; source 1 therefore pops first at
`00 C0 4B` and, with no resolver, its tag `[89]` is the output tag — not
tag `[88]` of the earliest source containing the key. -/
theorem c5_heap_tie_counterexample :
    metaMergePQ none c5pqSources =
      [([0, 192, 74], [74]), ([0, 192, 75], [89])] ∧
    ((c5pqSources.headD []).filter
        (fun e => e.key == [0, 192, 75])).map PLEntry.tag = [[88]] ∧
    metaMergePQ none c5pqSources ≠
      [([0, 192, 74], [74]), ([0, 192, 75], [88])] := by
  decide

/-- Claim C5 (amended): for pure user-metadata inputs (each source a
strictly sorted cursor stream of metadata entries), `merge_postlists`
emits exactly one record per distinct key, in key order: the resolver
result when a resolver is supplied and more than one tag accumulated, else
the first accumulated tag.  The accumulated tags for a key are exactly the
tags of the input entries carrying it (the key's run is a permutation of
those entries), so the no-resolver output tag is one of the input tags for
the key — but not necessarily the earliest source's, the heap's tie order
not being source order. -/
theorem c5_metadata_merge_amended (compactor : Option Resolver)
    (sources : List (List PLEntry))
    (hchain : ∀ src ∈ sources, chainB plLt src = true)
    (hmeta : ∀ src ∈ sources, ∀ e ∈ src, is_user_metadata_key e.key = true) :
    mergePostlistsEntries compactor sources =
      .ok ((keyRuns (kMerge plLt sources)).map
        (fun g => (g.1, metaOut compactor g.1 (g.2.map PLEntry.tag)))) ∧
    ((keyRuns (kMerge plLt sources)).map Prod.fst).Nodup ∧
    (∀ e ∈ sources.flatten,
      e.key ∈ (keyRuns (kMerge plLt sources)).map Prod.fst) ∧
    ∀ g ∈ keyRuns (kMerge plLt sources),
      List.Perm g.2 (sources.flatten.filter (fun e => e.key == g.1)) ∧
      (g.2.map PLEntry.tag).headD [] ∈
        (sources.flatten.filter (fun e => e.key == g.1)).map PLEntry.tag := by
  have hsort := kMerge_sorted plLt plLt_trans plLt_asymm plLt_negtrans
    sources hchain
  have hksort : (kMerge plLt sources).Pairwise
      (fun a b => ltBytes b.key a.key = false) :=
    hsort.imp (fun {a b} h => plLt_false_key b a h)
  have hperm := kMerge_perm plLt sources
  have hmem : ∀ e ∈ kMerge plLt sources,
      is_user_metadata_key e.key = true := by
    intro e he
    obtain ⟨src, hsrc, hesrc⟩ := List.mem_flatten.mp (hperm.mem_iff.mp he)
    exact hmeta src hsrc e hesrc
  have hwf : ∀ g ∈ keyRuns (kMerge plLt sources),
      g.2 ≠ [] ∧ ∀ e ∈ g.2, e.key = g.1 :=
    keyRunsG_wf PLEntry.key (kMerge plLt sources)
  have hgmeta : ∀ g ∈ keyRuns (kMerge plLt sources),
      is_user_metadata_key g.1 = true := by
    intro g hg
    obtain ⟨e, he, hk⟩ := keyRunsG_keys_mem PLEntry.key _ g hg
    rw [← hk]
    exact hmem e he
  have hpw : (keyRuns (kMerge plLt sources)).Pairwise
      (fun g1 g2 => ltBytes g1.1 g2.1 = true) :=
    keyRunsG_pairwise PLEntry.key _ hksort
  have hfirst : ∀ g0 gs2, keyRuns (kMerge plLt sources) = g0 :: gs2 →
      g0.1 ≠ ([] : List Nat) := by
    intro g0 gs2 hgs
    have hg0 : g0 ∈ keyRuns (kMerge plLt sources) := by rw [hgs]; simp
    exact meta_key_ne_nil _ (hgmeta g0 hg0)
  refine ⟨?_, keyRunsG_nodup PLEntry.key _ hksort, ?_, ?_⟩
  · have hMeta := phaseMeta_groups compactor (keyRuns (kMerge plLt sources))
      [] [] hwf hgmeta hpw hfirst
    rw [keyRuns_flatten] at hMeta
    have h0 : flushMeta compactor [] ([] : List (List Nat)) = [] := rfl
    rw [h0, List.nil_append] at hMeta
    simp [mergePostlistsEntries, hMeta, phaseVS, flushVS, phaseVC, phasePost,
      emitPostGroup]
  · intro e he
    have hs : e ∈ kMerge plLt sources := hperm.mem_iff.mpr he
    have hs2 : e ∈ ((keyRuns (kMerge plLt sources)).map Prod.snd).flatten := by
      rw [keyRuns_flatten]
      exact hs
    obtain ⟨run2, hrun2, herun⟩ := List.mem_flatten.mp hs2
    obtain ⟨g, hg, hgsnd⟩ := List.mem_map.mp hrun2
    have hkey : e.key = g.1 := (hwf g hg).2 e (by rw [hgsnd]; exact herun)
    rw [hkey]
    exact List.mem_map_of_mem Prod.fst hg
  · intro g hg
    have hfilter := keyRunsG_filter PLEntry.key _ hksort g hg
    have hpf : List.Perm g.2
        (sources.flatten.filter (fun e => e.key == g.1)) := by
      rw [← hfilter]
      exact hperm.filter (fun e => e.key == g.1)
    refine ⟨hpf, ?_⟩
    obtain ⟨e, rest, hrun⟩ : ∃ e rest, g.2 = e :: rest := by
      cases h2 : g.2 with
      | nil => exact absurd h2 (hwf g hg).1
      | cons e rest => exact ⟨e, rest, rfl⟩
    have hmem2 : e ∈ g.2 := by rw [hrun]; simp
    have hfl : e ∈ sources.flatten.filter (fun x => x.key == g.1) :=
      hpf.mem_iff.mp hmem2
    have hhd : (g.2.map PLEntry.tag).headD [] = e.tag := by rw [hrun]; simp
    rw [hhd]
    exact List.mem_map_of_mem PLEntry.tag hfl

theorem c5_metadata_merge_amended_witness :
    (∀ src ∈ c5sources, chainB plLt src = true) ∧
    (∀ src ∈ c5sources, ∀ e ∈ src, is_user_metadata_key e.key = true) ∧
    (mergePostlistsEntries none c5sources =
       .ok ((keyRuns (kMerge plLt c5sources)).map
         (fun g => (g.1, metaOut none g.1 (g.2.map PLEntry.tag)))) ∧
     ((keyRuns (kMerge plLt c5sources)).map Prod.fst).Nodup ∧
     (∀ e ∈ c5sources.flatten,
       e.key ∈ (keyRuns (kMerge plLt c5sources)).map Prod.fst) ∧
     ∀ g ∈ keyRuns (kMerge plLt c5sources),
       List.Perm g.2 (c5sources.flatten.filter (fun e => e.key == g.1)) ∧
       (g.2.map PLEntry.tag).headD [] ∈
         (c5sources.flatten.filter (fun e => e.key == g.1)).map PLEntry.tag) :=
  ⟨by decide, by decide,
   c5_metadata_merge_amended none c5sources (by decide) (by decide)⟩

theorem exCat_nil_left {α : Type} (x : Except XErr (List α)) :
    exCat (.ok []) x = x := by
  cases x with
  | error e => rfl
  | ok a => simp [exCat]

theorem postKindB_unpack (e : PLEntry) (h : postKindB e = true) :
    is_user_metadata_key e.key = false ∧ is_valuestats_key e.key = false ∧
    is_valuechunk_key e.key = false ∧ e.key ≠ [] := by
  simp only [postKindB, Bool.and_eq_true, Bool.not_eq_true'] at h
  obtain ⟨⟨⟨h1, h2⟩, h3⟩, h4⟩ := h
  refine ⟨h1, h2, h3, ?_⟩
  intro hc
  rw [hc] at h4
  exact absurd h4 (by simp)

theorem nodupPairsB_pairwise :
    ∀ l : List (List Nat × Nat), nodupPairsB l = true →
      l.Pairwise (fun a b => a ≠ b) := by
  intro l
  induction l with
  | nil => intro h; exact List.Pairwise.nil
  | cons p rest ih =>
    intro h
    simp only [nodupPairsB, Bool.and_eq_true] at h
    obtain ⟨h1, h2⟩ := h
    refine List.Pairwise.cons ?_ (ih h2)
    intro b hb hc
    exact memPair_false p rest (by simpa using h1) (hc ▸ hb)

/-- Claim C1: for postlist-kind cursor streams (strictly sorted per source,
no metadata/valuestats/valuechunk keys, non-empty keys, globally distinct
`(key, firstdid)` pairs), `merge_postlists` emits per term exactly one group:
an initial record carrying `pack_uint(tf) ‖ pack_uint(cf) ‖
pack_uint(firstdid − 1)` in front of the flagged first chunk and one record
per remaining chunk with the last-chunk flag byte (the shape of
`postGroupsOut`/`emitPostGroup`); the group keys are distinct, each group
collects exactly the merged-stream entries of its key — a permutation of all
source entries for that key — in strictly ascending `firstdid` order, and
`tf`/`cf` are the sums of the per-source contributions for that key. -/
theorem c1_postlist_reassembly (compactor : Option Resolver)
    (sources : List (List PLEntry))
    (hchain : ∀ src ∈ sources, chainB plLt src = true)
    (hkind : ∀ src ∈ sources, ∀ e ∈ src, postKindB e = true)
    (hnd : nodupPairsB (sources.flatten.map
      (fun e => (e.key, e.firstdid))) = true) :
    mergePostlistsEntries compactor sources =
      postGroupsOut (keyRuns (kMerge plLt sources)) ∧
    ((keyRuns (kMerge plLt sources)).map Prod.fst).Nodup ∧
    ∀ g ∈ keyRuns (kMerge plLt sources),
      (∀ e ∈ g.2, e.key = g.1) ∧
      (kMerge plLt sources).filter (fun e => e.key == g.1) = g.2 ∧
      List.Perm g.2 (sources.flatten.filter (fun e => e.key == g.1)) ∧
      g.2.Pairwise (fun a b => a.firstdid < b.firstdid) ∧
      (g.2.map PLEntry.tf).sum =
        (sources.map (fun src =>
          ((src.filter (fun e => e.key == g.1)).map PLEntry.tf).sum)).sum ∧
      (g.2.map PLEntry.cf).sum =
        (sources.map (fun src =>
          ((src.filter (fun e => e.key == g.1)).map PLEntry.cf).sum)).sum := by
  have hsort := kMerge_sorted plLt plLt_trans plLt_asymm plLt_negtrans
    sources hchain
  have hksort : (kMerge plLt sources).Pairwise
      (fun a b => ltBytes b.key a.key = false) :=
    hsort.imp (fun {a b} h => plLt_false_key b a h)
  have hperm := kMerge_perm plLt sources
  have hkmem : ∀ e ∈ kMerge plLt sources, postKindB e = true := by
    intro e he
    obtain ⟨src, hsrc, hesrc⟩ := List.mem_flatten.mp (hperm.mem_iff.mp he)
    exact hkind src hsrc e hesrc
  have hwf : ∀ g ∈ keyRuns (kMerge plLt sources),
      g.2 ≠ [] ∧ ∀ e ∈ g.2, e.key = g.1 :=
    keyRunsG_wf PLEntry.key (kMerge plLt sources)
  have hpw : (keyRuns (kMerge plLt sources)).Pairwise
      (fun g1 g2 => ltBytes g1.1 g2.1 = true) :=
    keyRunsG_pairwise PLEntry.key _ hksort
  have hfirst : ∀ g0 gs2, keyRuns (kMerge plLt sources) = g0 :: gs2 →
      g0.1 ≠ ([] : List Nat) := by
    intro g0 gs2 hgs
    have hg0 : g0 ∈ keyRuns (kMerge plLt sources) := by rw [hgs]; simp
    obtain ⟨e, he, hk⟩ := keyRunsG_keys_mem PLEntry.key _ g0 hg0
    rw [← hk]
    exact (postKindB_unpack e (hkmem e he)).2.2.2
  refine ⟨?_, keyRunsG_nodup PLEntry.key _ hksort, ?_⟩
  · have hM : phaseMeta compactor (kMerge plLt sources) [] [] =
        ([], [], kMerge plLt sources) :=
      phaseMeta_stop compactor _ (fun e rest h =>
        (postKindB_unpack e (hkmem e (by rw [h]; simp))).1)
    have hVS : phaseVS (kMerge plLt sources) [] 0 [] [] =
        .ok ([], [], kMerge plLt sources) :=
      phaseVS_stop _ [] [] [] (fun e rest h =>
        (postKindB_unpack e (hkmem e (by rw [h]; simp))).2.1)
    have hVC : phaseVC (kMerge plLt sources) = ([], kMerge plLt sources) :=
      phaseVC_stop _ (fun e rest h =>
        (postKindB_unpack e (hkmem e (by rw [h]; simp))).2.2.1)
    have hPost : phasePost (kMerge plLt sources) [] 0 0 [] =
        postGroupsOut (keyRuns (kMerge plLt sources)) := by
      have h := phasePost_groups (keyRuns (kMerge plLt sources)) [] 0 0 []
        hwf hpw hfirst
      rw [keyRuns_flatten] at h
      rw [h, show emitPostGroup [] 0 0 [] = Except.ok [] from rfl,
        exCat_nil_left]
    simp only [mergePostlistsEntries, hM, hVS, hVC, hPost]
    cases hX : postGroupsOut (keyRuns (kMerge plLt sources)) with
    | error e => rfl
    | ok o => simp
  · intro g hg
    have hfe := keyRunsG_filter PLEntry.key _ hksort g hg
    have hpf := hperm.filter (fun e => e.key == g.1)
    rw [hfe] at hpf
    have hflatne : sources.flatten.Pairwise
        (fun a b => (a.key, a.firstdid) ≠ (b.key, b.firstdid)) :=
      (List.pairwise_map).mp (nodupPairsB_pairwise _ hnd)
    have hsne : (kMerge plLt sources).Pairwise
        (fun a b => (a.key, a.firstdid) ≠ (b.key, b.firstdid)) :=
      (List.Perm.pairwise_iff (fun {a b} h => h.symm) hperm).mpr hflatne
    have hrunpw : g.2.Pairwise (fun a b => a.firstdid < b.firstdid) := by
      have hcomb := (hsort.and hsne).sublist
        (keyRunsG_sublist PLEntry.key _ g hg)
      refine hcomb.imp_of_mem ?_
      intro a b ha hb hab
      have hka : a.key = g.1 := (hwf g hg).2 a ha
      have hkb : b.key = g.1 := (hwf g hg).2 b hb
      obtain ⟨hpl, hne⟩ := hab
      simp only [plLt, Bool.or_eq_false_iff, Bool.and_eq_false_iff] at hpl
      have hle : a.firstdid ≤ b.firstdid := by
        rcases hpl.2 with h | h
        · exact absurd h (by simp [hka, hkb])
        · exact natBlt_false _ _ h
      have hfne : a.firstdid ≠ b.firstdid := by
        intro hc
        exact hne (by rw [hka, hkb, hc])
      omega
    refine ⟨(hwf g hg).2, hfe, hpf, hrunpw, ?_, ?_⟩
    · have hsum := (hpf.map PLEntry.tf).sum_eq
      rw [hsum, List.filter_flatten, List.map_flatten, List.sum_flatten,
        List.map_map, List.map_map]
      simp [Function.comp_def]
    · have hsum := (hpf.map PLEntry.cf).sum_eq
      rw [hsum, List.filter_flatten, List.map_flatten, List.sum_flatten,
        List.map_map, List.map_map]
      simp [Function.comp_def]

theorem c1_postlist_reassembly_witness :
    (∀ src ∈ c1sources, chainB plLt src = true) ∧
    (∀ src ∈ c1sources, ∀ e ∈ src, postKindB e = true) ∧
    (nodupPairsB (c1sources.flatten.map
      (fun e => (e.key, e.firstdid))) = true) ∧
    (mergePostlistsEntries none c1sources =
       postGroupsOut (keyRuns (kMerge plLt c1sources)) ∧
     ((keyRuns (kMerge plLt c1sources)).map Prod.fst).Nodup ∧
     ∀ g ∈ keyRuns (kMerge plLt c1sources),
       (∀ e ∈ g.2, e.key = g.1) ∧
       (kMerge plLt c1sources).filter (fun e => e.key == g.1) = g.2 ∧
       List.Perm g.2 (c1sources.flatten.filter (fun e => e.key == g.1)) ∧
       g.2.Pairwise (fun a b => a.firstdid < b.firstdid) ∧
       (g.2.map PLEntry.tf).sum =
         (c1sources.map (fun src =>
           ((src.filter (fun e => e.key == g.1)).map PLEntry.tf).sum)).sum ∧
       (g.2.map PLEntry.cf).sum =
         (c1sources.map (fun src =>
           ((src.filter (fun e => e.key == g.1)).map PLEntry.cf).sum)).sum) :=
  ⟨by decide, by decide, by decide,
   c1_postlist_reassembly none c1sources (by decide) (by decide) (by decide)⟩

theorem vsAccum_props :
    ∀ (ds : List (Nat × List Nat × List Nat)) (st : Nat × List Nat × List Nat),
      st.1 ≠ 0 → (∀ d ∈ ds, d.1 ≠ 0) →
      (vsAccum ds st).1 = st.1 + (ds.map (fun d => d.1)).sum ∧
      ((vsAccum ds st).2.1 = st.2.1 ∨
        (vsAccum ds st).2.1 ∈ ds.map (fun d => d.2.1)) ∧
      (∀ l, (l = st.2.1 ∨ l ∈ ds.map (fun d => d.2.1)) →
        ltBytes l (vsAccum ds st).2.1 = false) ∧
      ((vsAccum ds st).2.2 = st.2.2 ∨
        (vsAccum ds st).2.2 ∈ ds.map (fun d => d.2.2)) ∧
      (∀ u, (u = st.2.2 ∨ u ∈ ds.map (fun d => d.2.2)) →
        ltBytes (vsAccum ds st).2.2 u = false) := by
  intro ds
  induction ds with
  | nil =>
    intro st hst hall
    refine ⟨by simp [vsAccum], Or.inl rfl, ?_, Or.inl rfl, ?_⟩
    · intro l hl
      rcases hl with hl | hl
      · rw [hl]
        exact ltBytes_irrefl _
      · exact absurd hl (by simp)
    · intro u hu
      rcases hu with hu | hu
      · rw [hu]
        exact ltBytes_irrefl _
      · exact absurd hu (by simp)
  | cons d ds' ih =>
    intro st hst hall
    obtain ⟨sf, slb, sb⟩ := st
    obtain ⟨df, dlb, db⟩ := d
    have hsf : sf ≠ 0 := hst
    have hdf : df ≠ 0 := hall (df, dlb, db) (by simp)
    have hstep : vsStep (sf, slb, sb) (df, dlb, db) =
        (sf + df, if ltBytes dlb slb then dlb else slb,
         if ltBytes sb db then db else sb) := by
      simp [vsStep, hsf]
    rw [vsAccum_cons, hstep]
    set m1 := if ltBytes dlb slb then dlb else slb with hm1
    set m2 := if ltBytes sb db then db else sb with hm2
    have hih := ih (sf + df, m1, m2) (by simp; omega)
      (fun x hx => hall x (by simp [hx]))
    obtain ⟨hsum, hlbmem, hlbmin, hubmem, hubmax⟩ := hih
    have hmin0 := hlbmin m1 (Or.inl rfl)
    have hmax0 := hubmax m2 (Or.inl rfl)
    have hminD : ltBytes dlb (vsAccum ds' (sf + df, m1, m2)).2.1 = false := by
      by_cases hc : ltBytes dlb slb
      · have h1 : m1 = dlb := by rw [hm1, if_pos hc]
        rw [← h1]
        exact hmin0
      · refine ltBytes_negtrans _ _ _ ?_ hmin0
        rw [hm1, if_neg hc]
        simpa using hc
    have hminS : ltBytes slb (vsAccum ds' (sf + df, m1, m2)).2.1 = false := by
      by_cases hc : ltBytes dlb slb
      · refine ltBytes_negtrans _ _ _ ?_ hmin0
        rw [hm1, if_pos hc]
        exact ltBytes_asymm _ _ hc
      · have h1 : m1 = slb := by rw [hm1, if_neg hc]
        rw [← h1]
        exact hmin0
    have hmaxD : ltBytes (vsAccum ds' (sf + df, m1, m2)).2.2 db = false := by
      by_cases hc : ltBytes sb db
      · have h1 : m2 = db := by rw [hm2, if_pos hc]
        rw [← h1]
        exact hmax0
      · refine ltBytes_negtrans _ _ _ hmax0 ?_
        rw [hm2, if_neg hc]
        simpa using hc
    have hmaxS : ltBytes (vsAccum ds' (sf + df, m1, m2)).2.2 sb = false := by
      by_cases hc : ltBytes sb db
      · refine ltBytes_negtrans _ _ _ hmax0 ?_
        rw [hm2, if_pos hc]
        exact ltBytes_asymm _ _ hc
      · have h1 : m2 = sb := by rw [hm2, if_neg hc]
        rw [← h1]
        exact hmax0
    refine ⟨?_, ?_, ?_, ?_, ?_⟩
    · rw [hsum]
      have hq : ((sf + df, m1, m2) : Nat × List Nat × List Nat).1 = sf + df :=
        rfl
      rw [hq]
      simp only [List.map_cons, List.sum_cons]
      omega
    · simp only [List.map_cons, List.mem_cons]
      rcases hlbmem with h | h
      · have h' : (vsAccum ds' (sf + df, m1, m2)).2.1 = m1 := h
        by_cases hc : ltBytes dlb slb
        · have h1 : m1 = dlb := by rw [hm1, if_pos hc]
          exact Or.inr (Or.inl (h'.trans h1))
        · have h1 : m1 = slb := by rw [hm1, if_neg hc]
          exact Or.inl (h'.trans h1)
      · exact Or.inr (Or.inr h)
    · intro l hl
      simp only [List.map_cons, List.mem_cons] at hl
      rcases hl with hl | hl | hl
      · rw [hl]
        exact hminS
      · rw [hl]
        exact hminD
      · exact hlbmin l (Or.inr hl)
    · simp only [List.map_cons, List.mem_cons]
      rcases hubmem with h | h
      · have h' : (vsAccum ds' (sf + df, m1, m2)).2.2 = m2 := h
        by_cases hc : ltBytes sb db
        · have h1 : m2 = db := by rw [hm2, if_pos hc]
          exact Or.inr (Or.inl (h'.trans h1))
        · have h1 : m2 = sb := by rw [hm2, if_neg hc]
          exact Or.inl (h'.trans h1)
      · exact Or.inr (Or.inr h)
    · intro u hu
      simp only [List.map_cons, List.mem_cons] at hu
      rcases hu with hu | hu | hu
      · rw [hu]
        exact hmaxS
      · rw [hu]
        exact hmaxD
      · exact hubmax u (Or.inr hu)

theorem vsAccum_zero :
    ∀ (ds : List (Nat × List Nat × List Nat)) (st : Nat × List Nat × List Nat),
      st.1 = 0 → (∀ d ∈ ds, d.1 = 0) → (vsAccum ds st).1 = 0 := by
  intro ds
  induction ds with
  | nil => intro st h hall; simpa [vsAccum] using h
  | cons d ds' ih =>
    intro st h hall
    rw [vsAccum_cons]
    have hstep : vsStep st d = d := by simp [vsStep, h]
    rw [hstep]
    exact ih d (hall d (by simp)) (fun x hx => hall x (by simp [hx]))

theorem vsAccum_ne_zero :
    ∀ (ds : List (Nat × List Nat × List Nat)) (st : Nat × List Nat × List Nat),
      (st.1 ≠ 0 ∨ ∃ d ∈ ds, d.1 ≠ 0) → (vsAccum ds st).1 ≠ 0 := by
  intro ds
  induction ds with
  | nil =>
    intro st h
    rcases h with h | h
    · simpa [vsAccum] using h
    · simp at h
  | cons d ds' ih =>
    intro st h
    rw [vsAccum_cons]
    by_cases hst : st.1 = 0
    · have hstep : vsStep st d = d := by simp [vsStep, hst]
      rw [hstep]
      rcases h with h | h
      · exact absurd hst h
      · obtain ⟨x, hx, hxne⟩ := h
        rcases List.mem_cons.mp hx with h2 | h2
        · subst h2
          exact ih x (Or.inl hxne)
        · by_cases hd : d.1 = 0
          · exact ih d (Or.inr ⟨x, h2, hxne⟩)
          · exact ih d (Or.inl hd)
    · apply ih
      left
      simp [vsStep, hst]

theorem flushVS_ne_nil (k : List Nat) (f : Nat) (lb ub : List Nat)
    (h : f ≠ 0) : flushVS k f lb ub = [(k, encode_valuestats f lb ub)] := by
  simp [flushVS, h]

theorem flushVS_nil (k : List Nat) (lb ub : List Nat) :
    flushVS k 0 lb ub = [] := by
  simp [flushVS]

/-- Pure-valuestats assembly: with every input entry a decodable
valuestats record, `merge_postlists` reduces to the per-key accumulator
records. -/
theorem mergePostlists_vs (compactor : Option Resolver)
    (sources : List (List PLEntry))
    (hchain : ∀ src ∈ sources, chainB plLt src = true)
    (hvs : ∀ src ∈ sources, ∀ e ∈ src, is_valuestats_key e.key = true)
    (hdec : ∀ src ∈ sources, ∀ e ∈ src, vsDecOkB e = true) :
    mergePostlistsEntries compactor sources =
      .ok (((keyRuns (kMerge plLt sources)).map vsGroupRec).flatten) := by
  have hksort : (kMerge plLt sources).Pairwise
      (fun a b => ltBytes b.key a.key = false) :=
    (kMerge_sorted plLt plLt_trans plLt_asymm plLt_negtrans sources
      hchain).imp (fun {a b} h => plLt_false_key b a h)
  have hperm := kMerge_perm plLt sources
  have hmem : ∀ e ∈ kMerge plLt sources, is_valuestats_key e.key = true := by
    intro e he
    obtain ⟨src, hsrc, hesrc⟩ := List.mem_flatten.mp (hperm.mem_iff.mp he)
    exact hvs src hsrc e hesrc
  have hdmem : ∀ e ∈ kMerge plLt sources, vsDecOkB e = true := by
    intro e he
    obtain ⟨src, hsrc, hesrc⟩ := List.mem_flatten.mp (hperm.mem_iff.mp he)
    exact hdec src hsrc e hesrc
  have hwf : ∀ g ∈ keyRuns (kMerge plLt sources),
      g.2 ≠ [] ∧ ∀ e ∈ g.2, e.key = g.1 :=
    keyRunsG_wf PLEntry.key (kMerge plLt sources)
  have hgvs : ∀ g ∈ keyRuns (kMerge plLt sources),
      is_valuestats_key g.1 = true := by
    intro g hg
    obtain ⟨e, he, hk⟩ := keyRunsG_keys_mem PLEntry.key _ g hg
    rw [← hk]
    exact hmem e he
  have hgdec : ∀ g ∈ keyRuns (kMerge plLt sources),
      ∀ e ∈ g.2, vsDecOkB e = true := by
    intro g hg e he
    exact hdmem e ((keyRunsG_sublist PLEntry.key _ g hg).mem he)
  have hpw : (keyRuns (kMerge plLt sources)).Pairwise
      (fun g1 g2 => ltBytes g1.1 g2.1 = true) :=
    keyRunsG_pairwise PLEntry.key _ hksort
  have hfirst : ∀ g0 gs2, keyRuns (kMerge plLt sources) = g0 :: gs2 →
      g0.1 ≠ ([] : List Nat) := by
    intro g0 gs2 hgs
    have hg0 : g0 ∈ keyRuns (kMerge plLt sources) := by rw [hgs]; simp
    exact vs_key_ne_nil _ (hgvs g0 hg0)
  have hM : phaseMeta compactor (kMerge plLt sources) [] [] =
      ([], [], kMerge plLt sources) :=
    phaseMeta_stop compactor _ (fun e rest h =>
      vs_not_meta _ (hmem e (by rw [h]; simp)))
  have hVS : phaseVS (kMerge plLt sources) [] 0 [] [] =
      .ok ([] ++ ((keyRuns (kMerge plLt sources)).map vsGroupRec).flatten,
           (keyRuns (kMerge plLt sources)).foldl (fun _ g => g.1) [], []) := by
    have h := phaseVS_groups (keyRuns (kMerge plLt sources)) [] 0 [] []
      hwf hgvs hgdec hpw hfirst
    rw [keyRuns_flatten] at h
    rw [h, flushVS_nil]
  simp only [mergePostlistsEntries, hM, hVS, List.nil_append]
  simp [phaseVC, phasePost, emitPostGroup]

theorem vsGroupRec_pos (g : List Nat × List PLEntry) (hne : g.2 ≠ [])
    (hpos : ∀ e ∈ g.2, (vsDec e).1 ≠ 0) :
    ∃ lb ub,
      vsGroupRec g = [(g.1, encode_valuestats
        ((g.2.map (fun e => (vsDec e).1)).sum) lb ub)] ∧
      lb ∈ g.2.map (fun e => (vsDec e).2.1) ∧
      (∀ l ∈ g.2.map (fun e => (vsDec e).2.1), ltBytes l lb = false) ∧
      ub ∈ g.2.map (fun e => (vsDec e).2.2) ∧
      (∀ u ∈ g.2.map (fun e => (vsDec e).2.2), ltBytes ub u = false) := by
  match g, hne with
  | (k, e0 :: rest), _ =>
    have hmap1 : ((rest.map vsDec).map (fun d => d.1)) =
        rest.map (fun e => (vsDec e).1) := by
      simp [List.map_map, Function.comp]
    have hmap2 : ((rest.map vsDec).map (fun d => d.2.1)) =
        rest.map (fun e => (vsDec e).2.1) := by
      simp [List.map_map, Function.comp]
    have hmap3 : ((rest.map vsDec).map (fun d => d.2.2)) =
        rest.map (fun e => (vsDec e).2.2) := by
      simp [List.map_map, Function.comp]
    have hprops := vsAccum_props (rest.map vsDec) (vsDec e0)
      (hpos e0 (by simp))
      (fun d hd => by
        obtain ⟨x, hx, hdx⟩ := List.mem_map.mp hd
        rw [← hdx]
        exact hpos x (by simp [hx]))
    obtain ⟨hsum, hlbmem, hlbmin, hubmem, hubmax⟩ := hprops
    have hacc : vsAccum (((k, e0 :: rest) : List Nat × List PLEntry).2.map vsDec)
        (0, [], []) = vsAccum (rest.map vsDec) (vsDec e0) := by
      show vsAccum ((e0 :: rest).map vsDec) (0, [], []) = _
      rw [List.map_cons, vsAccum_cons_zero]
    refine ⟨(vsAccum (rest.map vsDec) (vsDec e0)).2.1,
            (vsAccum (rest.map vsDec) (vsDec e0)).2.2, ?_, ?_, ?_, ?_, ?_⟩
    · show flushVS k (vsAccum ((e0 :: rest).map vsDec) (0, [], [])).1 _ _ = _
      rw [List.map_cons, vsAccum_cons_zero]
      have hne0 : (vsAccum (rest.map vsDec) (vsDec e0)).1 ≠ 0 := by
        rw [hsum]
        have := hpos e0 (by simp)
        omega
      rw [flushVS_ne_nil _ _ _ _ hne0]
      have hsum2 : (vsAccum (rest.map vsDec) (vsDec e0)).1 =
          (((e0 :: rest).map (fun e => (vsDec e).1)).sum) := by
        rw [hsum, List.map_cons, List.sum_cons, hmap1]
      rw [hsum2]
    · rcases hlbmem with h | h
      · rw [h]
        simp
      · rw [hmap2] at h
        simp [h]
    · intro l hl
      rw [List.map_cons, List.mem_cons] at hl
      rcases hl with h2 | h2
      · exact hlbmin l (Or.inl h2)
      · exact hlbmin l (Or.inr (by rw [hmap2]; exact h2))
    · rcases hubmem with h | h
      · rw [h]
        simp
      · rw [hmap3] at h
        simp [h]
    · intro u hu
      rw [List.map_cons, List.mem_cons] at hu
      rcases hu with h2 | h2
      · exact hubmax u (Or.inl h2)
      · exact hubmax u (Or.inr (by rw [hmap3]; exact h2))

/-- Claim C3 (amended): for pure valuestats inputs whose entries all decode
with frequency at least 1, `merge_postlists` emits one record per slot key
whose frequency is the sum of the input frequencies (equivalently, of the
per-source contributions), whose lower bound is a bytewise-minimal input
lower bound and whose upper bound is a bytewise-maximal input upper bound;
`encode_valuestats` omits the upper bound exactly when the bounds agree. -/
theorem c3_valuestats_fold_amended (compactor : Option Resolver)
    (sources : List (List PLEntry))
    (hchain : ∀ src ∈ sources, chainB plLt src = true)
    (hvs : ∀ src ∈ sources, ∀ e ∈ src, is_valuestats_key e.key = true)
    (hdec : ∀ src ∈ sources, ∀ e ∈ src, vsDecOkB e = true)
    (hfd : ∀ src ∈ sources, ∀ e ∈ src, e.firstdid = 0)
    (hpos : ∀ src ∈ sources, ∀ e ∈ src, (vsDec e).1 ≠ 0) :
    mergePostlistsEntries compactor sources =
      .ok (((keyRuns (kMerge plLt sources)).map vsGroupRec).flatten) ∧
    ((keyRuns (kMerge plLt sources)).map Prod.fst).Nodup ∧
    (∀ e ∈ sources.flatten,
      e.key ∈ (keyRuns (kMerge plLt sources)).map Prod.fst) ∧
    ∀ g ∈ keyRuns (kMerge plLt sources),
      g.2.map PLEntry.tag =
        (sources.map (fun src =>
          (src.filter (fun e => e.key == g.1)).map PLEntry.tag)).flatten ∧
      (g.2.map (fun e => (vsDec e).1)).sum =
        (sources.map (fun src => ((src.filter (fun e => e.key == g.1)).map
          (fun e => (vsDec e).1)).sum)).sum ∧
      ∃ lb ub,
        vsGroupRec g = [(g.1, encode_valuestats
          ((g.2.map (fun e => (vsDec e).1)).sum) lb ub)] ∧
        lb ∈ g.2.map (fun e => (vsDec e).2.1) ∧
        (∀ l ∈ g.2.map (fun e => (vsDec e).2.1), ltBytes l lb = false) ∧
        ub ∈ g.2.map (fun e => (vsDec e).2.2) ∧
        (∀ u ∈ g.2.map (fun e => (vsDec e).2.2), ltBytes ub u = false) := by
  have hksort : (kMerge plLt sources).Pairwise
      (fun a b => ltBytes b.key a.key = false) :=
    (kMerge_sorted plLt plLt_trans plLt_asymm plLt_negtrans sources
      hchain).imp (fun {a b} h => plLt_false_key b a h)
  have hperm := kMerge_perm plLt sources
  have hwf : ∀ g ∈ keyRuns (kMerge plLt sources),
      g.2 ≠ [] ∧ ∀ e ∈ g.2, e.key = g.1 :=
    keyRunsG_wf PLEntry.key (kMerge plLt sources)
  refine ⟨mergePostlists_vs compactor sources hchain hvs hdec,
    keyRunsG_nodup PLEntry.key _ hksort, ?_, ?_⟩
  · intro e he
    have hs : e ∈ kMerge plLt sources := hperm.mem_iff.mpr he
    have hs2 : e ∈ ((keyRuns (kMerge plLt sources)).map Prod.snd).flatten := by
      rw [keyRuns_flatten]
      exact hs
    obtain ⟨run2, hrun2, herun⟩ := List.mem_flatten.mp hs2
    obtain ⟨g, hg, hgsnd⟩ := List.mem_map.mp hrun2
    have hkey : e.key = g.1 := (hwf g hg).2 e (by rw [hgsnd]; exact herun)
    rw [hkey]
    exact List.mem_map_of_mem Prod.fst hg
  · intro g hg
    have hfe := keyRunsG_filter PLEntry.key _ hksort g hg
    have hpf := hperm.filter (fun e => e.key == g.1)
    rw [hfe] at hpf
    refine ⟨?_, ?_, ?_⟩
    · have hstable := kMerge_stable plLt (fun e => e.key == g.1) plLt_trans
        sources hchain
        (fun x y hx hy hpx hpy => by
          have hxk : x.key = g.1 := by simpa using hpx
          have hyk : y.key = g.1 := by simpa using hpy
          obtain ⟨srcx, hsrcx, hxsrc⟩ := List.mem_flatten.mp hx
          obtain ⟨srcy, hsrcy, hysrc⟩ := List.mem_flatten.mp hy
          have hfdx := hfd srcx hsrcx x hxsrc
          have hfdy := hfd srcy hsrcy y hysrc
          simp only [plLt, Bool.or_eq_false_iff]
          refine ⟨by rw [hxk, hyk, ltBytes_irrefl], ?_⟩
          apply Bool.and_eq_false_iff.mpr
          exact Or.inr (by rw [hfdx, hfdy]; rfl))
      rw [← hfe, hstable]
      simp [List.map_flatten, List.map_map, Function.comp_def]
    · have hsum := (hpf.map (fun e => (vsDec e).1)).sum_eq
      rw [hsum, List.filter_flatten, List.map_flatten, List.sum_flatten,
        List.map_map, List.map_map]
      simp [Function.comp_def]
    · refine vsGroupRec_pos g (hwf g hg).1 ?_
      intro e he
      have hemem : e ∈ kMerge plLt sources :=
        (keyRunsG_sublist PLEntry.key _ g hg).mem he
      obtain ⟨src, hsrc, hesrc⟩ :=
        List.mem_flatten.mp (hperm.mem_iff.mp hemem)
      exact hpos src hsrc e hesrc

theorem c3_valuestats_fold_amended_witness :
    (∀ src ∈ c3sources, chainB plLt src = true) ∧
    (∀ src ∈ c3sources, ∀ e ∈ src, is_valuestats_key e.key = true) ∧
    (∀ src ∈ c3sources, ∀ e ∈ src, vsDecOkB e = true) ∧
    (∀ src ∈ c3sources, ∀ e ∈ src, e.firstdid = 0) ∧
    (∀ src ∈ c3sources, ∀ e ∈ src, (vsDec e).1 ≠ 0) ∧
    (mergePostlistsEntries none c3sources =
       .ok (((keyRuns (kMerge plLt c3sources)).map vsGroupRec).flatten) ∧
     ((keyRuns (kMerge plLt c3sources)).map Prod.fst).Nodup ∧
     (∀ e ∈ c3sources.flatten,
       e.key ∈ (keyRuns (kMerge plLt c3sources)).map Prod.fst) ∧
     ∀ g ∈ keyRuns (kMerge plLt c3sources),
       g.2.map PLEntry.tag =
         (c3sources.map (fun src =>
           (src.filter (fun e => e.key == g.1)).map PLEntry.tag)).flatten ∧
       (g.2.map (fun e => (vsDec e).1)).sum =
         (c3sources.map (fun src => ((src.filter (fun e => e.key == g.1)).map
           (fun e => (vsDec e).1)).sum)).sum ∧
       ∃ lb ub,
         vsGroupRec g = [(g.1, encode_valuestats
           ((g.2.map (fun e => (vsDec e).1)).sum) lb ub)] ∧
         lb ∈ g.2.map (fun e => (vsDec e).2.1) ∧
         (∀ l ∈ g.2.map (fun e => (vsDec e).2.1), ltBytes l lb = false) ∧
         ub ∈ g.2.map (fun e => (vsDec e).2.2) ∧
         (∀ u ∈ g.2.map (fun e => (vsDec e).2.2), ltBytes ub u = false)) :=
  ⟨by decide, by decide, by decide, by decide, by decide,
   c3_valuestats_fold_amended none c3sources (by decide) (by decide)
     (by decide) (by decide) (by decide)⟩

/-- Claim C10 (amended): the valuestats phase accepts zero-frequency
entries silently — with every input entry a decodable valuestats record the
merge returns `.ok` whatever the frequencies are — and emits no record for
exactly those slot keys all of whose entries decode to frequency 0. -/
theorem c10_zero_freq_silent_amended (compactor : Option Resolver)
    (sources : List (List PLEntry))
    (hchain : ∀ src ∈ sources, chainB plLt src = true)
    (hvs : ∀ src ∈ sources, ∀ e ∈ src, is_valuestats_key e.key = true)
    (hdec : ∀ src ∈ sources, ∀ e ∈ src, vsDecOkB e = true) :
    mergePostlistsEntries compactor sources =
      .ok (((keyRuns (kMerge plLt sources)).map vsGroupRec).flatten) ∧
    ∀ g ∈ keyRuns (kMerge plLt sources),
      (vsGroupRec g = [] ↔ ∀ e ∈ g.2, (vsDec e).1 = 0) := by
  refine ⟨mergePostlists_vs compactor sources hchain hvs hdec, ?_⟩
  intro g hg
  constructor
  · intro hnil e he
    by_contra hne
    have hacc := vsAccum_ne_zero (g.2.map vsDec) (0, [], [])
      (Or.inr ⟨vsDec e, List.mem_map_of_mem vsDec he, hne⟩)
    have : vsGroupRec g =
        [(g.1, encode_valuestats (vsAccum (g.2.map vsDec) (0, [], [])).1
          (vsAccum (g.2.map vsDec) (0, [], [])).2.1
          (vsAccum (g.2.map vsDec) (0, [], [])).2.2)] :=
      flushVS_ne_nil _ _ _ _ hacc
    rw [this] at hnil
    exact absurd hnil (by simp)
  · intro hall
    have hacc := vsAccum_zero (g.2.map vsDec) (0, [], []) rfl
      (fun d hd => by
        obtain ⟨x, hx, hdx⟩ := List.mem_map.mp hd
        rw [← hdx]
        exact hall x hx)
    show flushVS g.1 (vsAccum (g.2.map vsDec) (0, [], [])).1 _ _ = []
    rw [hacc]
    exact flushVS_nil _ _ _

theorem c10_zero_freq_silent_amended_witness :
    (∀ src ∈ c10sources, chainB plLt src = true) ∧
    (∀ src ∈ c10sources, ∀ e ∈ src, is_valuestats_key e.key = true) ∧
    (∀ src ∈ c10sources, ∀ e ∈ src, vsDecOkB e = true) ∧
    (mergePostlistsEntries none c10sources =
       .ok (((keyRuns (kMerge plLt c10sources)).map vsGroupRec).flatten) ∧
     ∀ g ∈ keyRuns (kMerge plLt c10sources),
       (vsGroupRec g = [] ↔ ∀ e ∈ g.2, (vsDec e).1 = 0)) :=
  ⟨by decide, by decide, by decide,
   c10_zero_freq_silent_amended none c10sources (by decide) (by decide)
     (by decide)⟩

theorem sumWFreqs_eq (dec : List Nat → List Nat) : ∀ l : List Rec3,
    sumWFreqs dec l =
      (if (l.map (fun r : Rec3 =>
            unpack_uint_last (if r.2.2 then dec r.2.1 else r.2.1))).any
            (fun f => f == 0)
       then .error XErr.databaseCorrupt
       else .ok ((l.map (fun r : Rec3 =>
            unpack_uint_last (if r.2.2 then dec r.2.1 else r.2.1))).sum)) := by
  intro l
  induction l with
  | nil => simp [sumWFreqs]
  | cons r rest ih =>
    obtain ⟨k0, tag, comp⟩ := r
    by_cases hfz : unpack_uint_last (if comp then dec tag else tag) = 0
    · show (if unpack_uint_last (if comp then dec tag else tag) = 0 then _
            else _) = _
      rw [if_pos hfz]
      simp [hfz]
    · show (if unpack_uint_last (if comp then dec tag else tag) = 0 then _
            else _) = _
      rw [if_neg hfz, ih]
      cases hany : (rest.map (fun r : Rec3 =>
          unpack_uint_last (if r.2.2 then dec r.2.1 else r.2.1))).any
          (fun f => f == 0) with
      | true => simp [hany, hfz]
      | false => simp [hany, hfz]

theorem goSpellAux_nil (dec : List Nat → List Nat) (fuel : Nat) :
    goSpellAux dec fuel [] = .ok [] := by
  cases fuel <;> rfl

theorem goSpellAux_single (dec : List Nat → List Nat) (f : Nat)
    (k t0 : List Nat) (c0 : Bool) :
    goSpellAux dec (f + 1) [(k, t0, c0)] = .ok [(k, t0, c0)] := by
  show (match goSpellAux dec f ([] : List Rec3) with
        | Except.error e => Except.error e
        | Except.ok out => Except.ok ((k, t0, c0) :: out)) =
    Except.ok [(k, t0, c0)]
  rw [goSpellAux_nil]

theorem goSpellAux_fast_step (dec : List Nat → List Nat) (f : Nat)
    (k t0 : List Nat) (c0 : Bool) (y : Rec3) (ys : List Rec3)
    (h : ltBytes k y.1 = true) :
    goSpellAux dec (f + 1) ((k, t0, c0) :: y :: ys) =
      match goSpellAux dec f (y :: ys) with
      | .error e => .error e
      | .ok out => .ok ((k, t0, c0) :: out) := by
  obtain ⟨k1, t1, c1⟩ := y
  simp only [goSpellAux]
  rw [if_pos (by exact h)]

theorem goSpellAux_slow_step (dec : List Nat → List Nat) (f : Nat)
    (k t0 : List Nat) (c0 : Bool) (y : Rec3) (ys : List Rec3)
    (h : ltBytes k y.1 = false) (hW : k.headD 0 = 87) :
    goSpellAux dec (f + 1) ((k, t0, c0) :: y :: ys) =
      (match sumWFreqs dec ((k, t0, c0) ::
          (spanKey (fun r : Rec3 => r.1) k (y :: ys)).1) with
       | .error e => .error e
       | .ok tot =>
         match goSpellAux dec f (spanKey (fun r : Rec3 => r.1) k (y :: ys)).2 with
         | .error e => .error e
         | .ok out => .ok ((k, pack_uint_last tot, false) :: out)) := by
  obtain ⟨k1, t1, c1⟩ := y
  simp only [goSpellAux]
  rw [if_neg (by rw [h]; exact fun hc => absurd hc (by simp))]
  rw [if_pos hW]

theorem wGroupSpec_multi (dec : List Nat → List Nat) (k : List Nat)
    (a b : Rec3) (rs : List Rec3) :
    wGroupSpec dec (k, a :: b :: rs) =
      (if ((a :: b :: rs).map (fun r : Rec3 =>
            unpack_uint_last (if r.2.2 then dec r.2.1 else r.2.1))).any
            (fun f => f == 0)
       then .error XErr.databaseCorrupt
       else .ok [(k, pack_uint_last (((a :: b :: rs).map (fun r : Rec3 =>
            unpack_uint_last (if r.2.2 then dec r.2.1 else r.2.1))).sum),
            false)]) := rfl

theorem goSpell_groups (dec : List Nat → List Nat) :
    ∀ (gs : List (List Nat × List Rec3)) (fuel : Nat),
      ((gs.map Prod.snd).flatten).length ≤ fuel →
      (∀ g ∈ gs, g.2 ≠ [] ∧ ∀ r ∈ g.2, r.1 = g.1) →
      gs.Pairwise (fun g1 g2 => ltBytes g1.1 g2.1 = true) →
      (∀ g ∈ gs, g.1.headD 0 = 87) →
      goSpellAux dec fuel ((gs.map Prod.snd).flatten) =
        exJoinMap (wGroupSpec dec) gs := by
  intro gs
  induction gs with
  | nil => intro fuel hf hwf hpw hW; cases fuel <;> rfl
  | cons g0 gs' ih =>
    intro fuel hf hwf hpw hW
    obtain ⟨k, run⟩ := g0
    obtain ⟨hne, hkeys⟩ := hwf (k, run) (by simp)
    match run, hne, hkeys with
    | r0 :: run', _, hkeys =>
      obtain ⟨k0, t0, c0⟩ := r0
      have hr0 : k0 = k := by simpa using hkeys (k0, t0, c0) (by simp)
      subst hr0
      have hflen : ((gs'.map Prod.snd).flatten).length + run'.length + 1 ≤
          fuel := by
        simp only [List.map_cons, List.flatten_cons, List.length_append,
          List.length_cons] at hf
        omega
      match fuel, hflen with
      | f + 1, hflen =>
        have hf' : ((gs'.map Prod.snd).flatten).length ≤ f := by omega
        have hih := ih f hf' (fun g hg => hwf g (by simp [hg]))
          (List.pairwise_cons.mp hpw).2 (fun g hg => hW g (by simp [hg]))
        have hsndlt : ∀ y ys, (gs'.map Prod.snd).flatten = y :: ys →
            ltBytes k0 y.1 = true := by
          intro y ys hfl
          match gs', hpw with
          | g1 :: gs'', hpw =>
            obtain ⟨hne1, hkeys1⟩ := hwf g1 (by simp)
            match hg1 : g1.2, hne1 with
            | r1 :: t1, _ =>
              have hlt : ltBytes k0 g1.1 = true :=
                (List.pairwise_cons.mp hpw).1 g1 (by simp)
              have hy : y = r1 := by
                simp only [List.map_cons, List.flatten_cons, hg1,
                  List.cons_append, List.cons.injEq] at hfl
                exact hfl.1.symm
              have hyk : y.1 = g1.1 := by
                rw [hy]
                exact hkeys1 r1 (by rw [hg1]; simp)
              rw [hyk]
              exact hlt
        have hsndne : ∀ (y : Rec3) ys, (gs'.map Prod.snd).flatten = y :: ys →
            (fun r : Rec3 => r.1) y ≠ k0 := by
          intro y ys hfl
          have := ltBytes_ne _ _ (hsndlt y ys hfl)
          exact fun hc => this hc.symm
        have hWk : k0.headD 0 = 87 := hW (k0, (k0, t0, c0) :: run') (by simp)
        simp only [List.map_cons, List.flatten_cons, List.cons_append]
        match run' with
        | [] =>
          rw [List.nil_append]
          cases hfl : (gs'.map Prod.snd).flatten with
          | nil =>
            rw [goSpellAux_single]
            have hgs' : gs' = [] := by
              match gs', hfl with
              | [], _ => rfl
              | g1 :: gs'', hfl =>
                exfalso
                obtain ⟨hne1, hkeys1⟩ := hwf g1 (by simp)
                match hg1 : g1.2, hne1 with
                | r1 :: t1, _ =>
                  simp only [List.map_cons, List.flatten_cons, hg1,
                    List.cons_append] at hfl
                  exact absurd hfl (by simp)
            subst hgs'
            rfl
          | cons y ys =>
            rw [goSpellAux_fast_step dec f k0 t0 c0 y ys (hsndlt y ys hfl)]
            rw [hfl] at hih
            rw [hih]
            rw [show exJoinMap (wGroupSpec dec) ((k0, [(k0, t0, c0)]) :: gs') =
                exCat (Except.ok [(k0, t0, c0)])
                  (exJoinMap (wGroupSpec dec) gs') from rfl]
            cases hX : exJoinMap (wGroupSpec dec) gs' with
            | error e => rfl
            | ok out => simp [exCat]
        | r1 :: run'' =>
          have hk1 : r1.1 = k0 := hkeys r1 (by simp)
          have hfalse : ltBytes k0 r1.1 = false := by
            rw [hk1]
            exact ltBytes_irrefl k0
          rw [List.cons_append]
          rw [goSpellAux_slow_step dec f k0 t0 c0 r1
            (run'' ++ (gs'.map Prod.snd).flatten) hfalse hWk]
          have hspan : spanKey (fun r : Rec3 => r.1) k0
              ((r1 :: run'') ++ (gs'.map Prod.snd).flatten) =
              (r1 :: run'', (gs'.map Prod.snd).flatten) :=
            spanKey_stop _ k0 (r1 :: run'') _
              (fun x hx => hkeys x (by simp [hx])) hsndne
          rw [← List.cons_append, hspan]
          rw [sumWFreqs_eq]
          rw [show exJoinMap (wGroupSpec dec)
              ((k0, (k0, t0, c0) :: r1 :: run'') :: gs') =
              exCat (wGroupSpec dec (k0, (k0, t0, c0) :: r1 :: run''))
                (exJoinMap (wGroupSpec dec) gs') from rfl]
          rw [wGroupSpec_multi]
          cases hany : (((k0, t0, c0) :: r1 :: run'').map (fun r : Rec3 =>
              unpack_uint_last (if r.2.2 then dec r.2.1 else r.2.1))).any
              (fun f => f == 0) with
          | true => simp [exCat]
          | false =>
            have hnf : ¬ (false = true) := by simp
            simp only [if_neg hnf]
            rw [hih]
            cases hX : exJoinMap (wGroupSpec dec) gs' with
            | error e => simp [exCat]
            | ok out => simp [exCat]

/-- Claim C6 (amended): in `merge_spellings` over 'W'-key inputs (strictly
sorted per source), each merged key-run is emitted per `wGroupSpec`: a run
carried by a single input record is copied verbatim without decoding, and a
run of two or more records becomes `pack_uint_last` of the sum of the
decoded input frequencies, with a DatabaseCorrupt error if any of those
frequencies decodes to zero; each run collects exactly the records of its
key from the non-empty sources, in source order. -/
theorem c6_spelling_wkey_amended (dec : List Nat → List Nat)
    (sources : List (List Rec3))
    (hchain : ∀ src ∈ sources, chainB spellLt src = true)
    (hW : ∀ src ∈ sources, ∀ r ∈ src, r.1.headD 0 = 87) :
    merge_spellings dec sources =
      exJoinMap (wGroupSpec dec)
        (keyRuns3 (kMerge spellLt (sources.filter (fun t => !t.isEmpty)))) ∧
    ((keyRuns3 (kMerge spellLt
        (sources.filter (fun t => !t.isEmpty)))).map Prod.fst).Nodup ∧
    ∀ g ∈ keyRuns3 (kMerge spellLt (sources.filter (fun t => !t.isEmpty))),
      (∀ r ∈ g.2, r.1 = g.1) ∧
      (kMerge spellLt (sources.filter (fun t => !t.isEmpty))).filter
        (fun r => r.1 == g.1) = g.2 ∧
      g.2 = ((sources.filter (fun t => !t.isEmpty)).map
        (fun src => src.filter (fun r => r.1 == g.1))).flatten ∧
      g.2.length = ((sources.filter (fun t => !t.isEmpty)).map
        (fun src => (src.filter (fun r => r.1 == g.1)).length)).sum := by
  have hchain2 : ∀ src ∈ sources.filter (fun t => !t.isEmpty),
      chainB spellLt src = true :=
    fun src hsrc => hchain src (List.mem_of_mem_filter hsrc)
  have hsort := kMerge_sorted spellLt spellLt_trans spellLt_asymm
    spellLt_negtrans (sources.filter (fun t => !t.isEmpty)) hchain2
  have hksort : (kMerge spellLt (sources.filter (fun t => !t.isEmpty))).Pairwise
      (fun a b => ltBytes ((fun r : Rec3 => r.1) b)
        ((fun r : Rec3 => r.1) a) = false) :=
    hsort.imp (fun {a b} h => h)
  have hperm := kMerge_perm spellLt (sources.filter (fun t => !t.isEmpty))
  have hmemW : ∀ r ∈ kMerge spellLt (sources.filter (fun t => !t.isEmpty)),
      r.1.headD 0 = 87 := by
    intro r hr
    obtain ⟨src, hsrc, hrsrc⟩ := List.mem_flatten.mp (hperm.mem_iff.mp hr)
    exact hW src (List.mem_of_mem_filter hsrc) r hrsrc
  have hwf := keyRunsG_wf (fun r : Rec3 => r.1)
    (kMerge spellLt (sources.filter (fun t => !t.isEmpty)))
  have hgW : ∀ g ∈ keyRuns3 (kMerge spellLt
      (sources.filter (fun t => !t.isEmpty))), g.1.headD 0 = 87 := by
    intro g hg
    obtain ⟨r, hr, hk⟩ := keyRunsG_keys_mem (fun r : Rec3 => r.1) _ g hg
    rw [← hk]
    exact hmemW r hr
  have hpw := keyRunsG_pairwise (fun r : Rec3 => r.1) _ hksort
  refine ⟨?_, keyRunsG_nodup (fun r : Rec3 => r.1) _ hksort, ?_⟩
  · have hlen : (((keyRuns3 (kMerge spellLt
        (sources.filter (fun t => !t.isEmpty)))).map Prod.snd).flatten).length ≤
        (kMerge spellLt (sources.filter (fun t => !t.isEmpty))).length := by
      rw [keyRuns3_flatten]
    have h := goSpell_groups dec
      (keyRuns3 (kMerge spellLt (sources.filter (fun t => !t.isEmpty))))
      (kMerge spellLt (sources.filter (fun t => !t.isEmpty))).length
      hlen hwf hpw hgW
    rw [keyRuns3_flatten] at h
    exact h
  · intro g hg
    have hfe := keyRunsG_filter (fun r : Rec3 => r.1) _ hksort g hg
    have hstable := kMerge_stable spellLt (fun r : Rec3 => r.1 == g.1)
      spellLt_trans (sources.filter (fun t => !t.isEmpty)) hchain2
      (fun x y hx hy hpx hpy => by
        have hxk : x.1 = g.1 := by simpa using hpx
        have hyk : y.1 = g.1 := by simpa using hpy
        show ltBytes x.1 y.1 = false
        rw [hxk, hyk]
        exact ltBytes_irrefl _)
    refine ⟨(hwf g hg).2, hfe, ?_, ?_⟩
    · rw [← hfe]
      exact hstable
    · have hlen2 := congrArg List.length hstable
      rw [hfe] at hlen2
      rw [hlen2, List.length_flatten, List.map_map]
      simp [Function.comp_def]

theorem c6_spelling_wkey_amended_witness :
    (∀ src ∈ c6sources, chainB spellLt src = true) ∧
    (∀ src ∈ c6sources, ∀ r ∈ src, r.1.headD 0 = 87) ∧
    (merge_spellings (fun t => t) c6sources =
       exJoinMap (wGroupSpec (fun t => t))
         (keyRuns3 (kMerge spellLt (c6sources.filter (fun t => !t.isEmpty)))) ∧
     ((keyRuns3 (kMerge spellLt
         (c6sources.filter (fun t => !t.isEmpty)))).map Prod.fst).Nodup ∧
     ∀ g ∈ keyRuns3 (kMerge spellLt (c6sources.filter (fun t => !t.isEmpty))),
       (∀ r ∈ g.2, r.1 = g.1) ∧
       (kMerge spellLt (c6sources.filter (fun t => !t.isEmpty))).filter
         (fun r => r.1 == g.1) = g.2 ∧
       g.2 = ((c6sources.filter (fun t => !t.isEmpty)).map
         (fun src => src.filter (fun r => r.1 == g.1))).flatten ∧
       g.2.length = ((c6sources.filter (fun t => !t.isEmpty)).map
         (fun src => (src.filter (fun r => r.1 == g.1)).length)).sum) :=
  ⟨by decide, by decide,
   c6_spelling_wkey_amended (fun t => t) c6sources (by decide) (by decide)⟩

end GlassCompact
